import Mathlib

/-!
Verification of the switch-tools library (NCA / NCZ / RomFS / PFS0 / AES-XTS
packages) against its specification.  The TypeScript sources are shallowly
embedded: byte buffers become `List Nat` (each element a byte value), machine
integers become `Nat` with explicit `% 2^w` where overflow matters, and the
injectable crypto backends become explicit function parameters.
-/

/-- JS `ArrayBuffer.slice(start, end)` / `Uint8Array.subarray(start, end)`:
returns the bytes in `[a, b)`, clamping both indices to the buffer length. -/
def sliceBytes (l : List Nat) (a b : Nat) : List Nat := (l.take b).drop a

/-- Read the byte at index `i` (0 when out of range; all in-range in our uses). -/
def byteAt (l : List Nat) (i : Nat) : Nat := l.getD i 0

/-- `Uint8Array.prototype.set(src, off)`: overwrite `dst` starting at `off`
with the bytes of `src` (clamped; every use in the sources is in range). -/
def writeBytes (dst : List Nat) (off : Nat) (src : List Nat) : List Nat :=
  dst.take off ++ src.take (dst.length - off) ++ dst.drop (off + src.length)

theorem length_writeBytes (dst : List Nat) (off : Nat) (src : List Nat) :
    (writeBytes dst off src).length = dst.length := by
  simp only [writeBytes, List.length_append, List.length_take, List.length_drop]
  omega

/-- Little-endian byte encoding of `n` into `w` bytes (DataView setUintN with
littleEndian = true; excess bits beyond the width are dropped). -/
def natToBytesLE : Nat → Nat → List Nat
  | 0, _ => []
  | w + 1, n => n % 256 :: natToBytesLE w (n / 256)

/-- Big-endian byte encoding of `n` into `w` bytes. -/
def natToBytesBE (w n : Nat) : List Nat := (natToBytesLE w n).reverse

theorem length_natToBytesLE (w n : Nat) : (natToBytesLE w n).length = w := by
  induction w generalizing n with
  | zero => rfl
  | succ w ih => simp [natToBytesLE, ih]

theorem length_natToBytesBE (w n : Nat) : (natToBytesBE w n).length = w := by
  simp [natToBytesBE, length_natToBytesLE]

/-- `DataView.getUint32(off, true)`. -/
def readU32LE (l : List Nat) (off : Nat) : Nat :=
  byteAt l off + 256 * byteAt l (off + 1) + 256 ^ 2 * byteAt l (off + 2) +
    256 ^ 3 * byteAt l (off + 3)

/-- `DataView.getBigUint64(off, true)`. -/
def readU64LE (l : List Nat) (off : Nat) : Nat :=
  readU32LE l off + 256 ^ 4 * readU32LE l (off + 4)

/-- Single byte store `buf[i] = v` (Uint8Array masks to 8 bits). -/
def setByte (l : List Nat) (i v : Nat) : List Nat := writeBytes l i [v % 256]

/-! ## GF(2^128) doubling (aes-xts `gf128Mul`)

The source operates in place over the 16 bytes with a carry running from
byte 0 (least significant) to byte 15, XOR-ing 0x87 into byte 0 when the
shift carries out of byte 15. -/

/-- One pass of the `gf128Mul` loop: carry-in plus byte list, producing the
shifted bytes and the final carry. -/
def gf128MulAux : Nat → List Nat → List Nat × Nat
  | c, [] => ([], c)
  | c, b :: rest =>
    let nextCarry := (b >>> 7) &&& 1
    let r := gf128MulAux nextCarry rest
    (((b <<< 1) ||| c) % 256 :: r.1, r.2)

/-- `gf128Mul`: multiply a 16-byte block by α in GF(2^128), byte 0 = least
significant, with the 0x87 reduction XOR-ed into byte 0 on carry out. -/
def gf128Mul (block : List Nat) : List Nat :=
  let r := gf128MulAux 0 block
  if r.2 ≠ 0 then
    match r.1 with
    | [] => []
    | b0 :: rest => (b0 ^^^ 0x87) :: rest
  else r.1

theorem length_gf128MulAux (c : Nat) (l : List Nat) :
    (gf128MulAux c l).1.length = l.length := by
  induction l generalizing c with
  | nil => rfl
  | cons b rest ih => simp [gf128MulAux, ih]

theorem length_gf128Mul (l : List Nat) : (gf128Mul l).length = l.length := by
  unfold gf128Mul
  rcases h : gf128MulAux 0 l with ⟨bs, c⟩
  have hl : bs.length = l.length := by
    have := length_gf128MulAux 0 l
    rw [h] at this
    exact this
  by_cases hc : c ≠ 0
  · rw [if_pos hc]
    cases bs with
    | nil => simpa using hl
    | cons b0 rest => simpa using hl
  · rw [if_neg hc]
    exact hl

/-- C6 counterexample: the spec's second doubling example is wrong for this
code. `gf128Mul` of the block whose FIRST byte is 0x80 (rest zero) does not
produce `0x00 … 0x00 0x87`: byte 0 is the least-significant byte here, so the
0x80 bit carries into byte 1, and no reduction fires. -/
theorem gf128Mul_first_byte_0x80_cex :
    gf128Mul (0x80 :: List.replicate 15 0) ≠ List.replicate 15 0 ++ [0x87] := by
  decide

/-- C6 (amended): GF(2^128) doubling maps `0x01 0x00…0x00` to `0x02 0x00…0x00`;
it maps `0x80 0x00…0x00` to `0x00 0x01 0x00…0x00` (carry into byte 1, no
reduction); the 0x87 reduction applies when the LAST byte's top bit is set:
doubling `0x00…0x00 0x80` yields `0x87 0x00…0x00`. -/
theorem gf128Mul_doubling_values :
    gf128Mul (0x01 :: List.replicate 15 0) = 0x02 :: List.replicate 15 0 ∧
    gf128Mul (0x80 :: List.replicate 15 0) = 0x00 :: 0x01 :: List.replicate 14 0 ∧
    gf128Mul (List.replicate 15 0 ++ [0x80]) = 0x87 :: List.replicate 15 0 := by
  refine ⟨rfl, by decide, rfl⟩

/-! ## Chunking helper

Splits a byte list into consecutive chunks of `n` bytes, mirroring the
per-sector / per-16-byte-block `for` loops of the AES-XTS source. The fuel
argument is an upper bound on the number of chunks (the list length always
suffices). -/

def chunksGo (n : Nat) : Nat → List Nat → List (List Nat)
  | _, [] => []
  | 0, _ :: _ => []
  | fuel + 1, a :: l => ((a :: l).take n) :: chunksGo n fuel ((a :: l).drop n)

def chunksExact (n : Nat) (l : List Nat) : List (List Nat) := chunksGo n l.length l

theorem chunksGo_cons (n fuel : Nat) (a : Nat) (l : List Nat) :
    chunksGo n (fuel + 1) (a :: l) =
      ((a :: l).take n) :: chunksGo n fuel ((a :: l).drop n) := rfl

theorem chunksGo_fuel (n : Nat) (hn : 0 < n) :
    ∀ (fuel₁ fuel₂ : Nat) (l : List Nat), l.length ≤ fuel₁ → l.length ≤ fuel₂ →
      chunksGo n fuel₁ l = chunksGo n fuel₂ l := by
  intro fuel₁
  induction fuel₁ with
  | zero =>
    intro fuel₂ l h1 _
    cases l with
    | nil => cases fuel₂ <;> rfl
    | cons a l => simp at h1
  | succ f ih =>
    intro fuel₂ l h1 h2
    cases l with
    | nil => cases fuel₂ <;> rfl
    | cons a l =>
      cases fuel₂ with
      | zero => simp at h2
      | succ f₂ =>
        simp only [List.length_cons] at h1 h2
        rw [chunksGo_cons, chunksGo_cons]
        have hd : ((a :: l).drop n).length ≤ f := by
          simp only [List.length_drop, List.length_cons]
          omega
        have hd₂ : ((a :: l).drop n).length ≤ f₂ := by
          simp only [List.length_drop, List.length_cons]
          omega
        rw [ih _ _ hd hd₂]

theorem chunksExact_nil (n : Nat) : chunksExact n [] = [] := rfl

theorem chunksExact_cons_eq (n : Nat) (hn : 0 < n) (l : List Nat) (hl : l ≠ []) :
    chunksExact n l = l.take n :: chunksExact n (l.drop n) := by
  cases l with
  | nil => exact absurd rfl hl
  | cons a l =>
    show chunksGo n (l.length + 1) (a :: l) = _
    rw [chunksGo_cons]
    congr 1
    exact chunksGo_fuel n hn _ _ _ (by simp; omega) le_rfl

theorem flatten_chunksGo (n : Nat) (hn : 0 < n) :
    ∀ (fuel : Nat) (l : List Nat), l.length ≤ fuel → (chunksGo n fuel l).flatten = l := by
  intro fuel
  induction fuel with
  | zero =>
    intro l h
    cases l with
    | nil => rfl
    | cons a l => simp at h
  | succ f ih =>
    intro l h
    cases l with
    | nil => rfl
    | cons a l =>
      simp only [List.length_cons] at h
      rw [chunksGo_cons, List.flatten_cons,
        ih _ (by simp only [List.length_drop, List.length_cons]; omega)]
      exact List.take_append_drop n (a :: l)

theorem flatten_chunksExact (n : Nat) (hn : 0 < n) (l : List Nat) :
    (chunksExact n l).flatten = l :=
  flatten_chunksGo n hn _ l le_rfl

theorem mem_chunksGo_length (n : Nat) (hn : 0 < n) :
    ∀ (fuel : Nat) (l : List Nat), l.length ≤ fuel → n ∣ l.length →
      ∀ c ∈ chunksGo n fuel l, c.length = n := by
  intro fuel
  induction fuel with
  | zero =>
    intro l h _ c hc
    cases l with
    | nil => simp [chunksGo] at hc
    | cons a l => simp at h
  | succ f ih =>
    intro l h hdvd c hc
    cases l with
    | nil => simp [chunksGo] at hc
    | cons a l =>
      simp only [List.length_cons] at h
      rw [chunksGo_cons] at hc
      have hlen : n ≤ (a :: l).length := by
        rcases hdvd with ⟨k, hk⟩
        rcases k with _ | k
        · simp at hk
        · simp only [hk]
          calc n = n * 1 := by omega
          _ ≤ n * (k + 1) := Nat.mul_le_mul_left n (by omega)
      simp only [List.length_cons] at hlen
      rcases List.mem_cons.mp hc with h1 | h2
      · rw [h1, List.length_take]
        simp only [List.length_cons]
        omega
      · exact ih _ (by simp only [List.length_drop, List.length_cons]; omega)
          (by simp only [List.length_drop]
              exact Nat.dvd_sub' hdvd (Dvd.intro 1 (by omega))) c h2

theorem mem_chunksExact_length (n : Nat) (hn : 0 < n) (l : List Nat)
    (hdvd : n ∣ l.length) : ∀ c ∈ chunksExact n l, c.length = n :=
  mem_chunksGo_length n hn _ l le_rfl hdvd

theorem chunksGo_flatten (n : Nat) (hn : 0 < n) :
    ∀ (L : List (List Nat)) (fuel : Nat), (∀ c ∈ L, c.length = n) →
      L.flatten.length ≤ fuel → chunksGo n fuel L.flatten = L := by
  intro L
  induction L with
  | nil =>
    intro fuel _ _
    cases fuel <;> rfl
  | cons c L ih =>
    intro fuel hc hf
    have hclen : c.length = n := hc c (by simp)
    have hcne : c ≠ [] := by
      intro hnil
      rw [hnil] at hclen
      simp at hclen
      omega
    have hjoin : (c :: L).flatten = c ++ L.flatten := List.flatten_cons ..
    rcases c with _ | ⟨b, cb⟩
    · exact absurd rfl hcne
    rcases fuel with _ | f
    · rw [hjoin] at hf
      simp at hf
    · rw [hjoin]
      simp only [List.cons_append]
      rw [chunksGo_cons]
      have htake : ((b :: cb) ++ L.flatten).take n = b :: cb := by
        rw [← hclen]
        exact List.take_left _ _
      have hdrop : ((b :: cb) ++ L.flatten).drop n = L.flatten := by
        rw [← hclen]
        exact List.drop_left _ _
      simp only [List.cons_append] at htake hdrop
      rw [htake, hdrop]
      congr 1
      apply ih _ (fun d hd => hc d (by simp [hd]))
      rw [hjoin] at hf
      simp only [List.length_append, List.length_cons] at hf ⊢
      omega

theorem chunksExact_flatten (n : Nat) (hn : 0 < n) (L : List (List Nat))
    (hc : ∀ c ∈ L, c.length = n) : chunksExact n L.flatten = L :=
  chunksGo_flatten n hn L _ hc le_rfl

theorem length_chunksGo (n : Nat) (hn : 0 < n) :
    ∀ (fuel : Nat) (l : List Nat), l.length ≤ fuel → n ∣ l.length →
      (chunksGo n fuel l).length = l.length / n := by
  intro fuel
  induction fuel with
  | zero =>
    intro l h _
    cases l with
    | nil => simp [chunksGo]
    | cons a l => simp at h
  | succ f ih =>
    intro l h hdvd
    cases l with
    | nil => simp [chunksGo]
    | cons a l =>
      simp only [List.length_cons] at h
      rw [chunksGo_cons]
      obtain ⟨k, hk⟩ := hdvd
      simp only [List.length_cons] at hk
      have hrec := ih ((a :: l).drop n)
        (by simp only [List.length_drop, List.length_cons]; omega)
        (by
          refine ⟨k - 1, ?_⟩
          simp only [List.length_drop, List.length_cons]
          cases k with
          | zero => omega
          | succ k2 =>
            simp only [Nat.add_sub_cancel, Nat.mul_succ] at hk ⊢
            omega)
      simp only [List.length_cons, List.length_drop] at hrec ⊢
      rw [hrec]
      cases k with
      | zero => omega
      | succ k2 =>
        have h2 : l.length + 1 - n = n * k2 := by
          simp only [Nat.mul_succ] at hk
          omega
        rw [h2, hk, Nat.mul_div_cancel_left _ hn, Nat.mul_div_cancel_left _ hn]

theorem length_chunksExact (n : Nat) (hn : 0 < n) (l : List Nat)
    (hdvd : n ∣ l.length) : (chunksExact n l).length = l.length / n :=
  length_chunksGo n hn _ l le_rfl hdvd

/-! ## AES-128-XTS (packages/aes-xts `encrypt` / `decrypt`)

The Web Crypto plumbing (`importKey`, the AES-CBC zero-IV trick used by
`ecbEncryptBlock` and the two-block CBC construction used by
`ecbDecryptBlock`) is the cryptographic backend and is modelled by the two
abstract single-block functions of `AesXtsBackend`, keyed by the raw key
bytes exactly as the source keys them (`key.subarray(0, 16)` and
`key.subarray(16, 32)`). -/

/-- `xorBlocks(dst, a, b)`: byte-wise XOR of two 16-byte blocks. -/
def xorBlocks (a b : List Nat) : List Nat := List.zipWith (· ^^^ ·) a b

/-- `getNintendoTweak`: sector number encoded big-endian into 16 bytes
(byte 15 = least-significant byte). -/
def getNintendoTweak (sector : Nat) : List Nat := natToBytesBE 16 sector

/-- The AES-128 block primitives the source obtains from Web Crypto. -/
structure AesXtsBackend where
  ecbEncryptBlock : List Nat → List Nat → List Nat
  ecbDecryptBlock : List Nat → List Nat → List Nat

/-- The inner per-block loop of a sector: `C = cipher(P ⊕ T) ⊕ T` with
`T := T·α` after each block. -/
def xtsSector (cipher : List Nat → List Nat) : List Nat → List (List Nat) → List (List Nat)
  | _, [] => []
  | T, b :: bs => xorBlocks (cipher (xorBlocks b T)) T :: xtsSector cipher (gf128Mul T) bs

/-- The outer per-sector loop: sector number `s`, tweak `T = E2(tweak(s))`. -/
def xtsGo (cipher tweakCipher : List Nat → List Nat) : Nat → List (List Nat) → List Nat
  | _, [] => []
  | s, sec :: rest =>
    (xtsSector cipher (tweakCipher (getNintendoTweak s)) (chunksExact 16 sec)).flatten ++
      xtsGo cipher tweakCipher (s + 1) rest

/-- aes-xts `encrypt(key, data, sectorSize, startSector)` (per-block variant).
`sectorSize = 0` makes the JS length check `data.length % sectorSize !== 0`
compare `NaN !== 0`, which always throws, hence the explicit disjunct. -/
def aesXtsEncrypt (B : AesXtsBackend) (key data : List Nat)
    (sectorSize startSector : Nat) : Except String (List Nat) :=
  if key.length ≠ 32 then .error "AES-XTS key must be 32 bytes"
  else if sectorSize = 0 ∨ data.length % sectorSize ≠ 0 then
    .error "Data length must be a multiple of sector size"
  else if sectorSize % 16 ≠ 0 then .error "Sector size must be a multiple of 16"
  else .ok (xtsGo (B.ecbEncryptBlock (key.take 16)) (B.ecbEncryptBlock (key.drop 16))
    startSector (chunksExact sectorSize data))

/-- aes-xts `decrypt(key, data, sectorSize, startSector)`. The tweak is still
computed with the ENCRYPT primitive under K2; only the data blocks use the
decrypt primitive under K1. -/
def aesXtsDecrypt (B : AesXtsBackend) (key data : List Nat)
    (sectorSize startSector : Nat) : Except String (List Nat) :=
  if key.length ≠ 32 then .error "AES-XTS key must be 32 bytes"
  else if sectorSize = 0 ∨ data.length % sectorSize ≠ 0 then
    .error "Data length must be a multiple of sector size"
  else if sectorSize % 16 ≠ 0 then .error "Sector size must be a multiple of 16"
  else .ok (xtsGo (B.ecbDecryptBlock (key.take 16)) (B.ecbEncryptBlock (key.drop 16))
    startSector (chunksExact sectorSize data))

/-- `computeSectorTweaks` of the optimized variant: `T, T·α, T·α², …`. -/
def sectorTweaks : List Nat → Nat → List (List Nat)
  | _, 0 => []
  | T, n + 1 => T :: sectorTweaks (gf128Mul T) n

/-- Per-sector loop of the optimized variant: blocks paired with the
precomputed tweak list. -/
def xtsSectorOpt (cipher : List Nat → List Nat) (blocks tweaks : List (List Nat)) :
    List (List Nat) :=
  List.zipWith (fun b T => xorBlocks (cipher (xorBlocks b T)) T) blocks tweaks

/-- Outer loop of the optimized `encrypt` (tweaks precomputed per sector). -/
def xtsGoOpt (cipher tweakCipher : List Nat → List Nat) (blocksPerSector : Nat) :
    Nat → List (List Nat) → List Nat
  | _, [] => []
  | s, sec :: rest =>
    (xtsSectorOpt cipher (chunksExact 16 sec)
      (sectorTweaks (tweakCipher (getNintendoTweak s)) blocksPerSector)).flatten ++
      xtsGoOpt cipher tweakCipher blocksPerSector (s + 1) rest

/-- aes-xts optimized `encrypt` (the variant that precomputes all sector
tweaks; `blocksPerSector = sectorSize / 16`). -/
def aesXtsEncryptOpt (B : AesXtsBackend) (key data : List Nat)
    (sectorSize startSector : Nat) : Except String (List Nat) :=
  if key.length ≠ 32 then .error "AES-XTS key must be 32 bytes"
  else if sectorSize = 0 ∨ data.length % sectorSize ≠ 0 then
    .error "Data length must be a multiple of sector size"
  else if sectorSize % 16 ≠ 0 then .error "Sector size must be a multiple of 16"
  else .ok (xtsGoOpt (B.ecbEncryptBlock (key.take 16)) (B.ecbEncryptBlock (key.drop 16))
    (sectorSize / 16) startSector (chunksExact sectorSize data))

theorem length_xorBlocks (a b : List Nat) :
    (xorBlocks a b).length = min a.length b.length := List.length_zipWith ..

theorem xorBlocks_cancel (a T : List Nat) (h : a.length = T.length) :
    xorBlocks (xorBlocks a T) T = a := by
  induction a generalizing T with
  | nil => cases T <;> rfl
  | cons x xs ih =>
    cases T with
    | nil => simp at h
    | cons t ts =>
      simp only [xorBlocks, List.zipWith_cons_cons] at *
      rw [Nat.xor_cancel_right]
      rw [ih ts (by simpa using h)]

theorem length_xtsSector (cipher : List Nat → List Nat) (T : List Nat)
    (blocks : List (List Nat)) : (xtsSector cipher T blocks).length = blocks.length := by
  induction blocks generalizing T with
  | nil => rfl
  | cons b bs ih => simp [xtsSector, ih]

theorem mem_xtsSector_length (cipher : List Nat → List Nat)
    (hc : ∀ b, b.length = 16 → (cipher b).length = 16) :
    ∀ (T : List Nat) (blocks : List (List Nat)), T.length = 16 →
      (∀ b ∈ blocks, b.length = 16) →
      ∀ c ∈ xtsSector cipher T blocks, c.length = 16 := by
  intro T blocks
  induction blocks generalizing T with
  | nil => intro _ _ c hc2; simp [xtsSector] at hc2
  | cons b bs ih =>
    intro hT hb c hmem
    simp only [xtsSector, List.mem_cons] at hmem
    rcases hmem with h1 | h2
    · have hxb : (xorBlocks b T).length = 16 := by
        rw [length_xorBlocks, hb b (by simp), hT]
        simp
      rw [h1, length_xorBlocks, hc _ hxb, hT]
      simp
    · exact ih (gf128Mul T) (by rw [length_gf128Mul, hT])
        (fun x hx => hb x (by simp [hx])) c h2

theorem flatten_length_const (k : Nat) (L : List (List Nat))
    (h : ∀ c ∈ L, c.length = k) : L.flatten.length = k * L.length := by
  induction L with
  | nil => simp
  | cons c L ih =>
    simp only [List.flatten_cons, List.length_append, List.length_cons,
      h c (by simp), ih (fun d hd => h d (by simp [hd]))]
    ring

theorem xtsSector_roundtrip (E D : List Nat → List Nat)
    (hE : ∀ b, b.length = 16 → (E b).length = 16)
    (hD : ∀ b, b.length = 16 → D (E b) = b) :
    ∀ (T : List Nat) (blocks : List (List Nat)), T.length = 16 →
      (∀ b ∈ blocks, b.length = 16) →
      xtsSector D T (xtsSector E T blocks) = blocks := by
  intro T blocks
  induction blocks generalizing T with
  | nil => intro _ _; rfl
  | cons b bs ih =>
    intro hT hb
    have hblen : b.length = 16 := hb b (by simp)
    have hxb : (xorBlocks b T).length = 16 := by
      rw [length_xorBlocks, hblen, hT]
      simp
    have hEb : (E (xorBlocks b T)).length = 16 := hE _ hxb
    simp only [xtsSector]
    congr 1
    · rw [xorBlocks_cancel _ _ (by rw [hEb, hT]), hD _ hxb,
        xorBlocks_cancel _ _ (by rw [hblen, hT])]
    · exact ih (gf128Mul T) (by rw [length_gf128Mul, hT])
        (fun x hx => hb x (by simp [hx]))

theorem xtsSectorOpt_eq_xtsSector (cipher : List Nat → List Nat) :
    ∀ (blocks : List (List Nat)) (T : List Nat) (n : Nat), blocks.length ≤ n →
      xtsSectorOpt cipher blocks (sectorTweaks T n) = xtsSector cipher T blocks := by
  intro blocks
  induction blocks with
  | nil => intro T n _; cases n <;> rfl
  | cons b bs ih =>
    intro T n h
    cases n with
    | zero => simp at h
    | succ m =>
      simp only [sectorTweaks, xtsSectorOpt, List.zipWith_cons_cons, xtsSector]
      congr 1
      exact ih (gf128Mul T) m (by simp only [List.length_cons] at h; omega)

theorem chunksExact_append (n : Nat) (hn : 0 < n) (a b : List Nat) (ha : a.length = n) :
    chunksExact n (a ++ b) = a :: chunksExact n b := by
  have hne : a ++ b ≠ [] := by
    cases a with
    | nil => simp at ha; omega
    | cons x xs => simp
  rw [chunksExact_cons_eq n hn _ hne]
  congr 1
  · rw [← ha]
    exact List.take_left _ _
  · rw [show (a ++ b).drop n = b by rw [← ha]; exact List.drop_left _ _]

theorem length_getNintendoTweak (sector : Nat) : (getNintendoTweak sector).length = 16 :=
  length_natToBytesBE 16 sector

theorem length_xtsSector_flatten (cipher : List Nat → List Nat)
    (hc : ∀ b, b.length = 16 → (cipher b).length = 16)
    (T : List Nat) (hT : T.length = 16) (sec : List Nat) (hs16 : (16 : Nat) ∣ sec.length) :
    (xtsSector cipher T (chunksExact 16 sec)).flatten.length = sec.length := by
  rw [flatten_length_const 16 _
    (mem_xtsSector_length cipher hc T _ hT
      (mem_chunksExact_length 16 (by omega) sec hs16))]
  rw [length_xtsSector, length_chunksExact 16 (by omega) sec hs16]
  exact Nat.mul_div_cancel' hs16 |>.symm ▸ (Nat.mul_div_cancel' hs16)

theorem length_xtsGo (cipher tweakCipher : List Nat → List Nat) (sectorSize : Nat)
    (hss : (16 : Nat) ∣ sectorSize)
    (hc : ∀ b, b.length = 16 → (cipher b).length = 16)
    (htc : ∀ b, b.length = 16 → (tweakCipher b).length = 16) :
    ∀ (s : Nat) (secs : List (List Nat)), (∀ sec ∈ secs, sec.length = sectorSize) →
      (xtsGo cipher tweakCipher s secs).length = sectorSize * secs.length := by
  intro s secs
  induction secs generalizing s with
  | nil => intro _; simp [xtsGo]
  | cons sec rest ih =>
    intro hsec
    have hseclen : sec.length = sectorSize := hsec sec (by simp)
    simp only [xtsGo, List.length_append]
    rw [length_xtsSector_flatten cipher hc _
        (htc _ (length_getNintendoTweak s)) sec (by rw [hseclen]; exact hss),
      ih (s + 1) (fun x hx => hsec x (by simp [hx]))]
    simp only [List.length_cons, hseclen]
    ring

theorem xtsGo_roundtrip (E D tweakE : List Nat → List Nat) (sectorSize : Nat)
    (hpos : 0 < sectorSize) (hss : (16 : Nat) ∣ sectorSize)
    (hE : ∀ b, b.length = 16 → (E b).length = 16)
    (htc : ∀ b, b.length = 16 → (tweakE b).length = 16)
    (hD : ∀ b, b.length = 16 → D (E b) = b) :
    ∀ (s : Nat) (secs : List (List Nat)), (∀ sec ∈ secs, sec.length = sectorSize) →
      xtsGo D tweakE s (chunksExact sectorSize (xtsGo E tweakE s secs)) = secs.flatten := by
  intro s secs
  induction secs generalizing s with
  | nil => intro _; simp [xtsGo, chunksExact_nil]
  | cons sec rest ih =>
    intro hsec
    have hseclen : sec.length = sectorSize := hsec sec (by simp)
    have hs16 : (16 : Nat) ∣ sec.length := by rw [hseclen]; exact hss
    have hT : (tweakE (getNintendoTweak s)).length = 16 :=
      htc _ (length_getNintendoTweak s)
    have hblocks : ∀ b ∈ chunksExact 16 sec, b.length = 16 :=
      mem_chunksExact_length 16 (by omega) sec hs16
    have hencLen : (xtsSector E (tweakE (getNintendoTweak s))
        (chunksExact 16 sec)).flatten.length = sectorSize := by
      rw [length_xtsSector_flatten E hE _ hT sec hs16, hseclen]
    simp only [xtsGo]
    rw [chunksExact_append sectorSize hpos _ _ hencLen]
    simp only [xtsGo]
    congr 1
    · rw [chunksExact_flatten 16 (by omega) _
        (mem_xtsSector_length E hE _ _ hT hblocks),
        xtsSector_roundtrip E D hE hD _ _ hT hblocks,
        flatten_chunksExact 16 (by omega) sec]
    · exact ih (s + 1) (fun x hx => hsec x (by simp [hx]))

theorem xtsGoOpt_eq_xtsGo (cipher tweakCipher : List Nat → List Nat) (sectorSize : Nat)
    (hpos : 0 < sectorSize) (hss : (16 : Nat) ∣ sectorSize) :
    ∀ (s : Nat) (secs : List (List Nat)), (∀ sec ∈ secs, sec.length = sectorSize) →
      xtsGoOpt cipher tweakCipher (sectorSize / 16) s secs = xtsGo cipher tweakCipher s secs := by
  intro s secs
  induction secs generalizing s with
  | nil => intro _; rfl
  | cons sec rest ih =>
    intro hsec
    have hseclen : sec.length = sectorSize := hsec sec (by simp)
    simp only [xtsGoOpt, xtsGo]
    congr 1
    · congr 1
      apply xtsSectorOpt_eq_xtsSector
      rw [length_chunksExact 16 (by omega) sec (by rw [hseclen]; exact hss), hseclen]
    · exact ih (s + 1) (fun x hx => hsec x (by simp [hx]))

/-- C5: AES-XTS round-trip. For every 32-byte key, positive multiple-of-16
sector size, start sector, and data a multiple of the sector size,
`decrypt(key, encrypt(key, data, sectorSize, startSector), …)` returns `data`
(and the optimized tweak-precomputing `encrypt` produces the same ciphertext),
provided the backend's single-block decrypt inverts its single-block encrypt
and the block primitives are length preserving (true of AES-128). -/
theorem aesXts_roundTrip (B : AesXtsBackend) (key data : List Nat)
    (sectorSize startSector : Nat)
    (hkey : key.length = 32) (hpos : 0 < sectorSize)
    (hss : (16 : Nat) ∣ sectorSize) (hdata : sectorSize ∣ data.length)
    (hE : ∀ b, b.length = 16 → (B.ecbEncryptBlock (key.take 16) b).length = 16)
    (hE2 : ∀ b, b.length = 16 → (B.ecbEncryptBlock (key.drop 16) b).length = 16)
    (hD : ∀ b, b.length = 16 →
      B.ecbDecryptBlock (key.take 16) (B.ecbEncryptBlock (key.take 16) b) = b) :
    ∃ c, aesXtsEncrypt B key data sectorSize startSector = .ok c ∧
      aesXtsEncryptOpt B key data sectorSize startSector = .ok c ∧
      aesXtsDecrypt B key c sectorSize startSector = .ok data := by
  have hsecs : ∀ sec ∈ chunksExact sectorSize data, sec.length = sectorSize :=
    mem_chunksExact_length sectorSize hpos data hdata
  set E := B.ecbEncryptBlock (key.take 16)
  set E2 := B.ecbEncryptBlock (key.drop 16)
  set D := B.ecbDecryptBlock (key.take 16)
  set c := xtsGo E E2 startSector (chunksExact sectorSize data) with hc
  have hclen : c.length = sectorSize * (chunksExact sectorSize data).length :=
    length_xtsGo E E2 sectorSize hss hE hE2 startSector _ hsecs
  have hmodc : c.length % sectorSize = 0 := by
    rw [hclen]
    exact Nat.mul_mod_right _ _
  have hmodd : data.length % sectorSize = 0 := by
    rcases hdata with ⟨k, hk⟩
    simp [hk, Nat.mul_mod_right]
  have hmodss : sectorSize % 16 = 0 := by
    rcases hss with ⟨k, hk⟩
    simp [hk, Nat.mul_mod_right]
  refine ⟨c, ?_, ?_, ?_⟩
  · unfold aesXtsEncrypt
    rw [if_neg (not_ne_iff.mpr hkey),
      if_neg (by push_neg; exact ⟨by omega, hmodd⟩),
      if_neg (not_ne_iff.mpr hmodss)]
  · unfold aesXtsEncryptOpt
    rw [if_neg (not_ne_iff.mpr hkey),
      if_neg (by push_neg; exact ⟨by omega, hmodd⟩),
      if_neg (not_ne_iff.mpr hmodss)]
    rw [xtsGoOpt_eq_xtsGo E E2 sectorSize hpos hss startSector _ hsecs]
  · unfold aesXtsDecrypt
    rw [if_neg (not_ne_iff.mpr hkey),
      if_neg (by push_neg; exact ⟨by omega, hmodc⟩),
      if_neg (not_ne_iff.mpr hmodss)]
    have hrt := xtsGo_roundtrip E D E2 sectorSize hpos hss hE hE2 hD
      startSector (chunksExact sectorSize data) hsecs
    show Except.ok (xtsGo D E2 startSector (chunksExact sectorSize c)) = Except.ok data
    rw [hc, hrt, flatten_chunksExact sectorSize hpos data]

/-- C5 witness: the round-trip theorem applied at a concrete instance (the
identity block cipher is its own inverse and preserves lengths). -/
theorem aesXts_roundTrip_witness :
    ∃ c, aesXtsEncrypt ⟨fun _ b => b, fun _ b => b⟩ (List.replicate 32 0)
        (List.replicate 16 7) 16 0 = .ok c ∧
      aesXtsEncryptOpt ⟨fun _ b => b, fun _ b => b⟩ (List.replicate 32 0)
        (List.replicate 16 7) 16 0 = .ok c ∧
      aesXtsDecrypt ⟨fun _ b => b, fun _ b => b⟩ (List.replicate 32 0)
        c 16 0 = .ok (List.replicate 16 7) :=
  aesXts_roundTrip ⟨fun _ b => b, fun _ b => b⟩ (List.replicate 32 0)
    (List.replicate 16 7) 16 0 (by simp) (by omega) ⟨1, rfl⟩ ⟨1, by simp⟩
    (fun b hb => hb) (fun b hb => hb) (fun b _ => rfl)

/-! ## SHA-256 (FIPS 180-4)

This is the `crypto.subtle.digest('SHA-256', …)` primitive that
`createPfs0HashTable` calls through `sha256` in nca's crypto.ts. Words are
`Nat` reduced mod 2^32. -/

def rotr32 (n x : Nat) : Nat := ((x >>> n) ||| (x <<< (32 - n))) % 2 ^ 32

def sha256K : List Nat := [
  1116352408, 1899447441, 3049323471, 3921009573,
  961987163, 1508970993, 2453635748, 2870763221,
  3624381080, 310598401, 607225278, 1426881987,
  1925078388, 2162078206, 2614888103, 3248222580,
  3835390401, 4022224774, 264347078, 604807628,
  770255983, 1249150122, 1555081692, 1996064986,
  2554220882, 2821834349, 2952996808, 3210313671,
  3336571891, 3584528711, 113926993, 338241895,
  666307205, 773529912, 1294757372, 1396182291,
  1695183700, 1986661051, 2177026350, 2456956037,
  2730485921, 2820302411, 3259730800, 3345764771,
  3516065817, 3600352804, 4094571909, 275423344,
  430227734, 506948616, 659060556, 883997877,
  958139571, 1322822218, 1537002063, 1747873779,
  1955562222, 2024104815, 2227730452, 2361852424,
  2428436474, 2756734187, 3204031479, 3329325298]

structure Sha256State where
  a : Nat
  b : Nat
  c : Nat
  d : Nat
  e : Nat
  f : Nat
  g : Nat
  h : Nat

def sha256H0 : Sha256State :=
  ⟨1779033703, 3144134277, 1013904242, 2773480762,
   1359893119, 2600822924, 528734635, 1541459225⟩

/-- Append 0x80, zero padding to 56 mod 64, and the 64-bit big-endian bit
length. -/
def sha256Pad (msg : List Nat) : List Nat :=
  msg ++ 0x80 :: List.replicate ((119 - msg.length % 64) % 64) 0 ++
    natToBytesBE 8 (8 * msg.length)

def bytesToWordBE (l : List Nat) : Nat :=
  byteAt l 0 * 256 ^ 3 + byteAt l 1 * 256 ^ 2 + byteAt l 2 * 256 + byteAt l 3

def wordsOfBlock (block : List Nat) : List Nat :=
  (List.range 16).map (fun i => bytesToWordBE (block.drop (4 * i)))

def smallSigma0 (x : Nat) : Nat := rotr32 7 x ^^^ rotr32 18 x ^^^ (x >>> 3)

def smallSigma1 (x : Nat) : Nat := rotr32 17 x ^^^ rotr32 19 x ^^^ (x >>> 10)

def bigSigma0 (x : Nat) : Nat := rotr32 2 x ^^^ rotr32 13 x ^^^ rotr32 22 x

def bigSigma1 (x : Nat) : Nat := rotr32 6 x ^^^ rotr32 11 x ^^^ rotr32 25 x

def sha256Schedule (w16 : List Nat) : List Nat :=
  (List.range 48).foldl
    (fun w _ =>
      w ++ [(smallSigma1 (w.getD (w.length - 2) 0) + w.getD (w.length - 7) 0 +
        smallSigma0 (w.getD (w.length - 15) 0) + w.getD (w.length - 16) 0) % 2 ^ 32])
    w16

def sha256Round (st : Sha256State) (kw : Nat × Nat) : Sha256State :=
  let ch := (st.e &&& st.f) ^^^ ((st.e ^^^ 0xffffffff) &&& st.g)
  let t1 := (st.h + bigSigma1 st.e + ch + kw.1 + kw.2) % 2 ^ 32
  let maj := (st.a &&& st.b) ^^^ (st.a &&& st.c) ^^^ (st.b &&& st.c)
  let t2 := (bigSigma0 st.a + maj) % 2 ^ 32
  ⟨(t1 + t2) % 2 ^ 32, st.a, st.b, st.c, (st.d + t1) % 2 ^ 32, st.e, st.f, st.g⟩

def sha256Compress (st : Sha256State) (block : List Nat) : Sha256State :=
  let w := sha256Schedule (wordsOfBlock block)
  let r := (List.zip sha256K w).foldl sha256Round st
  ⟨(st.a + r.a) % 2 ^ 32, (st.b + r.b) % 2 ^ 32, (st.c + r.c) % 2 ^ 32,
   (st.d + r.d) % 2 ^ 32, (st.e + r.e) % 2 ^ 32, (st.f + r.f) % 2 ^ 32,
   (st.g + r.g) % 2 ^ 32, (st.h + r.h) % 2 ^ 32⟩

def sha256 (msg : List Nat) : List Nat :=
  let st := (chunksExact 64 (sha256Pad msg)).foldl sha256Compress sha256H0
  natToBytesBE 4 st.a ++ natToBytesBE 4 st.b ++ natToBytesBE 4 st.c ++
    natToBytesBE 4 st.d ++ natToBytesBE 4 st.e ++ natToBytesBE 4 st.f ++
    natToBytesBE 4 st.g ++ natToBytesBE 4 st.h

theorem length_sha256 (msg : List Nat) : (sha256 msg).length = 32 := by
  simp [sha256, length_natToBytesBE]

/-- FIPS 180-4 test vector: SHA-256("abc"). Sanity check that the embedded
digest is the real SHA-256. -/
theorem sha256_abc_vector :
    sha256 [0x61, 0x62, 0x63] = [0xba, 0x78, 0x16, 0xbf, 0x8f, 0x01, 0xcf, 0xea,
      0x41, 0x41, 0x40, 0xde, 0x5d, 0xae, 0x22, 0x23, 0xb0, 0x03, 0x61, 0xa3, 0x96, 0x17,
      0x7a, 0x9c, 0xb4, 0x10, 0xff, 0x61, 0xf2, 0x00, 0x15, 0xad] := by decide

/-! ## PFS0 hash table (nca pfs0.ts `createPfs0HashTable`)

The source fills a scratch `block` buffer with zeros, copies in the read
bytes, and then hashes only `block.subarray(0, readSize)` — i.e. exactly the
bytes read from the data, so the zero fill never reaches the hash input and a
final partial block is hashed UNPADDED. -/

structure Pfs0HashResult where
  hashTable : List Nat
  hashTableSize : Nat
  pfs0Offset : Nat

/-- `Math.ceil(len / blockSize)` for a positive block size. -/
def pfs0NumBlocks (len blockSize : Nat) : Nat := (len + blockSize - 1) / blockSize

def createPfs0HashTable (pfs0Data : List Nat) (blockSize : Nat) : Pfs0HashResult :=
  let numBlocks := pfs0NumBlocks pfs0Data.length blockSize
  let hashTableSize := numBlocks * 0x20
  let paddedSize := hashTableSize + (0x200 - hashTableSize % 0x200) % 0x200
  let hashTable := (List.range numBlocks).foldl
    (fun ht i =>
      let readSize := min (pfs0Data.length - i * blockSize) blockSize
      writeBytes ht (i * 0x20) (sha256 ((pfs0Data.drop (i * blockSize)).take readSize)))
    (List.replicate paddedSize 0)
  ⟨hashTable, hashTableSize, paddedSize⟩

/-- `calculatePfs0MasterHash(hashTable, hashTableSize)`. -/
def calculatePfs0MasterHash (hashTable : List Nat) (hashTableSize : Nat) : List Nat :=
  sha256 (hashTable.take hashTableSize)

/-- The `i`-th 0x20-byte entry of a hash table. -/
def pfs0HashEntry (ht : List Nat) (i : Nat) : List Nat := (ht.drop (i * 0x20)).take 0x20

set_option maxRecDepth 8000 in
/-- C4 counterexample: for the 1-byte input `[0xab]` with blockSize 2 the
data length is not a multiple of the block size, and the (single, last) hash
table entry is NOT the SHA-256 of the partial block zero-padded to blockSize:
the code hashes the unpadded partial block. -/
theorem createPfs0HashTable_zero_pad_cex :
    pfs0HashEntry (createPfs0HashTable [0xab] 2).hashTable 0 ≠
      sha256 [0xab, 0x00] := by decide

theorem writeBytes_append_exact (a b src : List Nat) (hsrc : src.length ≤ b.length) :
    writeBytes (a ++ b) a.length src = a ++ src ++ b.drop src.length := by
  unfold writeBytes
  rw [List.take_left, List.length_append]
  rw [List.take_of_length_le (l := src) (by omega)]
  rw [List.drop_append src.length]

/-- Writing 32-byte hashes `f 0, …, f (n-1)` at offsets `0, 0x20, …` into a
zero buffer of size `n * 0x20 + pad` yields the concatenated hashes followed
by the zero padding. -/
theorem hashTableFold_eq (f : Nat → List Nat) (hf : ∀ i, (f i).length = 32) :
    ∀ (n pad : Nat),
      (List.range n).foldl (fun ht i => writeBytes ht (i * 0x20) (f i))
        (List.replicate (n * 0x20 + pad) 0) =
      ((List.range n).map f).flatten ++ List.replicate pad 0 := by
  intro n
  induction n with
  | zero => intro pad; simp
  | succ m ih =>
    intro pad
    rw [List.range_succ]
    simp only [List.foldl_append, List.foldl_cons, List.foldl_nil, List.map_append,
      List.map_cons, List.map_nil, List.flatten_append, List.flatten_cons,
      List.flatten_nil, List.append_nil]
    have hbase : List.replicate ((m + 1) * 0x20 + pad) (0 : Nat) =
        List.replicate (m * 0x20 + (0x20 + pad)) 0 := by
      congr 1
      ring
    rw [hbase, ih (0x20 + pad)]
    have hflatlen : ((List.range m).map f).flatten.length = m * 0x20 := by
      rw [flatten_length_const 32 _ ?_]
      · simp [Nat.mul_comm]
      · intro c hc
        simp only [List.mem_map] at hc
        obtain ⟨i, _, hi⟩ := hc
        rw [← hi]
        exact hf i
    have hsplit : List.replicate (0x20 + pad) (0 : Nat) =
        List.replicate 0x20 0 ++ List.replicate pad 0 := List.replicate_add _ _ _
    rw [hsplit, ← hflatlen,
      writeBytes_append_exact _ _ _ (by rw [hf m]; simp)]
    rw [show (f m).length = 32 from hf m]
    have hdrop : (List.replicate 0x20 (0 : Nat) ++ List.replicate pad 0).drop 32 =
        List.replicate pad 0 := by simp
    rw [hdrop]

/-- Extracting the `i`-th 0x20-byte entry from concatenated 32-byte hashes. -/
theorem flatten_hash_entry :
    ∀ (hs : List (List Nat)) (tail : List Nat), (∀ h ∈ hs, h.length = 32) →
      ∀ i, i < hs.length →
        ((hs.flatten ++ tail).drop (i * 0x20)).take 0x20 = hs.getD i [] := by
  intro hs
  induction hs with
  | nil => intro tail _ i hi; simp at hi
  | cons h hs ih =>
    intro tail hlen i hi
    have hh : h.length = 32 := hlen h (by simp)
    cases i with
    | zero =>
      simp only [Nat.zero_mul, List.drop_zero, List.flatten_cons, List.append_assoc]
      rw [show (0x20 : Nat) = h.length from hh.symm]
      rw [List.take_left]
      rfl
    | succ j =>
      have harith : (j + 1) * 0x20 = h.length + j * 0x20 := by
        rw [hh]
        ring
      rw [List.flatten_cons, List.append_assoc, harith, List.drop_append (j * 0x20)]
      rw [ih (tail) (fun x hx => hlen x (by simp [hx])) j (by simpa using hi)]
      rfl

theorem getD_map_range (f : Nat → List Nat) (n i : Nat) (h : i < n) :
    ((List.range n).map f).getD i [] = f i := by
  simp [List.getD, List.getElem?_map, List.getElem?_range h]

theorem pfs0NumBlocks_not_dvd (len bs : Nat) (hbs : 0 < bs) (h : ¬ bs ∣ len) :
    pfs0NumBlocks len bs = len / bs + 1 := by
  have hr : len % bs ≠ 0 := fun hr => h (Nat.dvd_of_mod_eq_zero hr)
  have hdm := Nat.div_add_mod len bs
  have hrlt : len % bs < bs := Nat.mod_lt _ hbs
  unfold pfs0NumBlocks
  have hx : bs * (len / bs + 1) = bs * (len / bs) + bs := by ring
  rw [show len + bs - 1 = bs * (len / bs + 1) + (len % bs - 1) by omega]
  rw [Nat.mul_add_div hbs,
    show (len % bs - 1) / bs = 0 from Nat.div_eq_of_lt (by omega)]

/-- C4 (amended): when the data length is not a multiple of the block size,
the LAST hash-table entry is the SHA-256 of the final partial block taken
UNPADDED (the `block.fill(0)` in the source is dead: only
`block.subarray(0, readSize)` is hashed); every earlier entry is the SHA-256
of its full `blockSize`-byte block. -/
theorem createPfs0HashTable_entries (pfs0Data : List Nat) (blockSize : Nat)
    (hbs : 0 < blockSize) (hnd : ¬ blockSize ∣ pfs0Data.length) :
    pfs0HashEntry (createPfs0HashTable pfs0Data blockSize).hashTable
        (pfs0NumBlocks pfs0Data.length blockSize - 1) =
      sha256 (pfs0Data.drop
        ((pfs0NumBlocks pfs0Data.length blockSize - 1) * blockSize)) ∧
    ∀ i, i + 1 < pfs0NumBlocks pfs0Data.length blockSize →
      pfs0HashEntry (createPfs0HashTable pfs0Data blockSize).hashTable i =
        sha256 ((pfs0Data.drop (i * blockSize)).take blockSize) := by
  have hr : pfs0Data.length % blockSize ≠ 0 :=
    fun hr => hnd (Nat.dvd_of_mod_eq_zero hr)
  have hdm := Nat.div_add_mod pfs0Data.length blockSize
  have hrlt : pfs0Data.length % blockSize < blockSize := Nat.mod_lt _ hbs
  have hn : pfs0NumBlocks pfs0Data.length blockSize = pfs0Data.length / blockSize + 1 :=
    pfs0NumBlocks_not_dvd _ _ hbs hnd
  obtain ⟨q, hqdef⟩ : ∃ q, pfs0Data.length / blockSize = q := ⟨_, rfl⟩
  rw [hqdef] at hn hdm
  set f : Nat → List Nat := fun i =>
    sha256 ((pfs0Data.drop (i * blockSize)).take
      (min (pfs0Data.length - i * blockSize) blockSize)) with hfdef
  have hf : ∀ i, (f i).length = 32 := fun i => length_sha256 _
  have htable : (createPfs0HashTable pfs0Data blockSize).hashTable =
      ((List.range (pfs0NumBlocks pfs0Data.length blockSize)).map f).flatten ++
        List.replicate ((0x200 - (pfs0NumBlocks pfs0Data.length blockSize * 0x20) %
          0x200) % 0x200) 0 :=
    hashTableFold_eq f hf _ _
  have hmemlen : ∀ h ∈ (List.range (pfs0NumBlocks pfs0Data.length blockSize)).map f,
      h.length = 32 := by
    intro h hh
    simp only [List.mem_map] at hh
    obtain ⟨i, _, hi⟩ := hh
    rw [← hi]
    exact hf i
  have hqb : q * blockSize ≤ pfs0Data.length := by
    rw [← hqdef]
    exact Nat.div_mul_le_self _ _
  have hentry : ∀ i, i < pfs0NumBlocks pfs0Data.length blockSize →
      pfs0HashEntry (createPfs0HashTable pfs0Data blockSize).hashTable i = f i := by
    intro i hi
    show ((createPfs0HashTable pfs0Data blockSize).hashTable.drop (i * 0x20)).take 0x20 = f i
    rw [htable, flatten_hash_entry _ _ hmemlen i (by simpa using hi),
      getD_map_range f _ i hi]
  constructor
  · rw [hentry _ (by omega), hn]
    simp only [Nat.add_sub_cancel, hfdef]
    congr 1
    have hmin : min (pfs0Data.length - q * blockSize) blockSize =
        pfs0Data.length - q * blockSize := by
      rw [Nat.mul_comm q blockSize]
      omega
    rw [hmin]
    apply List.take_of_length_le
    simp [List.length_drop]
  · intro i hi
    rw [hentry i (by omega)]
    simp only [hfdef]
    have hib : i * blockSize + blockSize ≤ q * blockSize := by
      have h1 : i + 1 ≤ q := by omega
      have := Nat.mul_le_mul_right blockSize h1
      rwa [Nat.succ_mul] at this
    have hmin : min (pfs0Data.length - i * blockSize) blockSize = blockSize := by
      omega
    rw [hmin]

/-- C4 witness: the amended theorem applied at the concrete input `[0xab]`
with block size 2 (length 1 is not a multiple of 2). -/
theorem createPfs0HashTable_entries_witness :
    (pfs0HashEntry (createPfs0HashTable [0xab] 2).hashTable
        (pfs0NumBlocks ([0xab] : List Nat).length 2 - 1) =
      sha256 (([0xab] : List Nat).drop
        ((pfs0NumBlocks ([0xab] : List Nat).length 2 - 1) * 2))) ∧
    ∀ i, i + 1 < pfs0NumBlocks ([0xab] : List Nat).length 2 →
      pfs0HashEntry (createPfs0HashTable [0xab] 2).hashTable i =
        sha256 ((([0xab] : List Nat).drop (i * 2)).take 2) :=
  createPfs0HashTable_entries [0xab] 2 (by omega) (by decide)

/-! ## NCZ decoder (packages/ncz `decompressNcz`)

The section-table parser and the re-encryption loop of the output stream.
`Blob.slice` / `ArrayBuffer.slice` clamp to the buffer length, which
`sliceBytes` mirrors. -/

structure NczSection where
  offset : Nat
  size : Nat
  cryptoType : Nat
  key : List Nat
  counter : List Nat
deriving DecidableEq

/-- `0x4e54_4345_535a_434en` ("NCZESECT" as a little-endian u64). -/
def NCZ_SECTION_MAGIC : Nat := 0x4e544345535a434e

/-- The declared record size of an NCZ section in this code: 0x30 — even
though the field list in the same source comment (offset 8 + size 8 +
crypto_type 8 + padding 8 + key 16 + counter 16) sums to 0x40. -/
def SIZEOF_NCZ_SECTION : Nat := 0x30

/-- Steps 2–3 of `decompressNcz`: check the section magic at 0x4000, read
`sectionCount`, slice `sectionCount * SIZEOF_NCZ_SECTION` bytes and parse
each record at stride `SIZEOF_NCZ_SECTION`, with the key at record offset
+0x20 and the counter at +0x30 (which runs past the record and, for the last
section, past the sliced table). -/
def parseNczSections (blob : List Nat) : Except String (List NczSection) :=
  let sectionHeaderBuf := sliceBytes blob 0x4000 (0x4000 + 16)
  let magic := readU64LE sectionHeaderBuf 0
  if magic ≠ NCZ_SECTION_MAGIC then .error "Not an NCZ file" else
  let sectionCount := readU64LE sectionHeaderBuf 8
  let sectionsBuf := sliceBytes blob 0x4010 (0x4010 + sectionCount * SIZEOF_NCZ_SECTION)
  .ok ((List.range sectionCount).map (fun i =>
    let off := i * SIZEOF_NCZ_SECTION
    { offset := readU64LE sectionsBuf off
      size := readU64LE sectionsBuf (off + 8)
      cryptoType := readU64LE sectionsBuf (off + 16)
      key := sliceBytes sectionsBuf (off + 0x20) (off + 0x20 + 0x10)
      counter := sliceBytes sectionsBuf (off + 0x20 + 0x10) (off + 0x20 + 0x20) }))

/-- The NCZ metadata that sits at file offset 0x4000: section-header magic,
sectionCount = 1, then a single section record in the real 0x40-byte NCZ
layout (offset u64, size u64, cryptoType u64, padding u64, key = bytes
0x10…0x1f, counter = bytes 0x20…0x2f). -/
def nczOneSectionTable : List Nat :=
  natToBytesLE 8 NCZ_SECTION_MAGIC ++ natToBytesLE 8 1 ++
    natToBytesLE 8 0x4000 ++ natToBytesLE 8 0x200 ++ natToBytesLE 8 3 ++
    natToBytesLE 8 0 ++ (List.range 16).map (fun i => 0x10 + i) ++
    (List.range 16).map (fun i => 0x20 + i)

/-- A well-formed NCZ prefix: 0x4000 pass-through header bytes followed by
the section table above. -/
def nczOneSectionInput : List Nat := List.replicate 0x4000 0 ++ nczOneSectionTable

theorem sliceBytes_append_offset (a b : List Nat) (i j : Nat) :
    sliceBytes (a ++ b) (a.length + i) (a.length + j) = sliceBytes b i j := by
  unfold sliceBytes
  rw [List.take_append, List.drop_append i]

set_option maxRecDepth 8000 in
/-- C2: the decoder does NOT read 0x40-byte section records. It slices only
`sectionCount * 0x30` bytes of table and steps by 0x30; on a file whose
single section record has the documented 0x40-byte layout, the offset, size,
cryptoType and key parse as expected but the counter slice [0x30, 0x40)
falls outside the sliced table and comes back EMPTY instead of the record's
16 counter bytes. -/
theorem parseNczSections_record_stride_bug :
    SIZEOF_NCZ_SECTION = 0x30 ∧
    parseNczSections nczOneSectionInput =
      .ok [⟨0x4000, 0x200, 3, (List.range 16).map (fun i => 0x10 + i), []⟩] := by
  refine ⟨rfl, ?_⟩
  have h1 : sliceBytes nczOneSectionInput 0x4000 (0x4000 + 16) =
      sliceBytes nczOneSectionTable 0 16 := by
    have h := sliceBytes_append_offset (List.replicate 0x4000 0) nczOneSectionTable 0 16
    rw [List.length_replicate, Nat.add_zero] at h
    exact h
  have h2 : sliceBytes nczOneSectionInput 0x4010 (0x4010 + 1 * SIZEOF_NCZ_SECTION) =
      sliceBytes nczOneSectionTable 16 (16 + 1 * SIZEOF_NCZ_SECTION) := by
    have h := sliceBytes_append_offset (List.replicate 0x4000 0) nczOneSectionTable 16
      (16 + 1 * SIZEOF_NCZ_SECTION)
    rw [List.length_replicate] at h
    have e1 : (0x4000 : Nat) + 16 = 0x4010 := by norm_num
    have e2 : (0x4000 : Nat) + (16 + 1 * SIZEOF_NCZ_SECTION) =
        0x4010 + 1 * SIZEOF_NCZ_SECTION := by
      rw [SIZEOF_NCZ_SECTION]
    rw [e1, e2] at h
    exact h
  have hmagic : readU64LE (sliceBytes nczOneSectionTable 0 16) 0 = NCZ_SECTION_MAGIC := by
    decide
  have hcount : readU64LE (sliceBytes nczOneSectionTable 0 16) 8 = 1 := by decide
  unfold parseNczSections
  simp only [h1, hmagic, hcount]
  rw [if_neg (fun h => h rfl)]
  rw [h2]
  rfl

/-- `findSection(offset)`: linear search for the section whose
`[offset, offset + size)` range covers the given NCA body offset. -/
def findNczSection (sections : List NczSection) (offset : Nat) : Option NczSection :=
  sections.find? (fun s => decide (s.offset ≤ offset ∧ offset < s.offset + s.size))

/-- The AES-CTR counter built by `reencrypt`: the first 8 bytes of the
section counter (zero-filled when shorter), then the big-endian 64-bit block
number `offset >> 4`. -/
def buildNczCtr (counter : List Nat) (offset : Nat) : List Nat :=
  (counter.take 8 ++ List.replicate (8 - counter.length) 0) ++ natToBytesBE 8 (offset / 16)

/-- The `while (dataOff < data.length)` loop of `reencrypt`, fueled by the
chunk length (each iteration consumes at least one byte, so the fuel never
runs out; the fuel-exhausted branch is unreachable). -/
def reencryptGo (aesCtr : List Nat → List Nat → List Nat → List Nat)
    (sections : List NczSection) : Nat → List Nat → Nat → Except String (List Nat)
  | _, [], _ => .ok []
  | 0, _ :: _, _ => .error "NCZ: reencrypt fuel exhausted"
  | fuel + 1, b :: rest, off =>
    match findNczSection sections off with
    | none => .error "NCZ: no section found for offset"
    | some s =>
      let data := b :: rest
      let chunkLen := min (s.offset + s.size - off) data.length
      let chunk := data.take chunkLen
      let enc := if 3 ≤ s.cryptoType then aesCtr s.key chunk (buildNczCtr s.counter off)
        else chunk
      (reencryptGo aesCtr sections fuel (data.drop chunkLen) (off + chunkLen)).map
        (enc ++ ·)

/-- `reencrypt(data, bodyOffset)`: split the chunk at section boundaries and
AES-CTR re-encrypt the pieces whose section has cryptoType ≥ 3. -/
def reencryptNcz (aesCtr : List Nat → List Nat → List Nat → List Nat)
    (sections : List NczSection) (data : List Nat) (bodyOffset : Nat) :
    Except String (List Nat) :=
  reencryptGo aesCtr sections data.length data bodyOffset

/-- The emission loop of `decompressNcz` step 6: each decompressed buffer is
re-encrypted at the running offset `written` and appended to the output;
`written` advances by the decompressed length. -/
def nczEmitBody (aesCtr : List Nat → List Nat → List Nat → List Nat)
    (sections : List NczSection) :
    List (List Nat) → Nat → Except String (List Nat)
  | [], _ => .ok []
  | chunk :: rest, written => do
    let enc ← reencryptNcz aesCtr sections chunk written
    let tail ← nczEmitBody aesCtr sections rest (written + chunk.length)
    pure (enc ++ tail)

/-- The source initializes the running offset to 0 ("relative to the NCA
body, i.e. after the 0x4000 header"): the first decompressed byte is treated
as offset 0. -/
def decompressNczBody (aesCtr : List Nat → List Nat → List Nat → List Nat)
    (sections : List NczSection) (chunks : List (List Nat)) :
    Except String (List Nat) :=
  nczEmitBody aesCtr sections chunks 0

/-- Step 5 of `decompressNcz` in stream mode: the reconstructed NCA size is
the largest `section.offset + section.size` — which treats section offsets
as ABSOLUTE NCA offsets (the first 0x4000 bytes being the header). -/
def nczStreamNcaSize (sections : List NczSection) : Nat :=
  sections.foldl (fun m s => max m (s.offset + s.size)) 0

/-- C3: on an NCZ whose single section starts at NCA offset 0x4000 (the
value real NCZ files carry, and the value under which the `ncaSize`
computation in the same function is correct — see the second conjunct),
the decoder fails: the first decompressed chunk is re-encrypted at running
offset 0, which no section covers. The claim (and the reference format) puts
the running offset at 0x4000, under which the same input decodes fine. -/
theorem decompressNczBody_written_starts_at_zero :
    decompressNczBody (fun _ chunk _ => chunk)
      [⟨0x4000, 0x10000, 3, List.replicate 16 0, List.replicate 16 0⟩]
      [List.replicate 16 0] = .error "NCZ: no section found for offset" ∧
    nczStreamNcaSize [⟨0x4000, 0x10000, 3, List.replicate 16 0, List.replicate 16 0⟩] =
      0x14000 ∧
    nczEmitBody (fun _ chunk _ => chunk)
      [⟨0x4000, 0x10000, 3, List.replicate 16 0, List.replicate 16 0⟩]
      [List.replicate 16 0] 0x4000 = .ok (List.replicate 16 0) := by
  refine ⟨rfl, by decide, rfl⟩

/-! ## NPDM parser/patcher (packages/nca npdm.ts `processNpdm`)

`processNpdm` first makes a copy of the input (`new Uint8Array(npdmData)`)
and builds its DataView over the COPY; in this embedding every buffer read
and write names its target explicitly, and the final state of BOTH buffers
is returned, so the frame claim — the caller's input is never written — is a
statement about the code's choice of write targets. -/

structure NpdmBuffers where
  input : List Nat
  data : List Nat

structure NpdmInfo where
  titleId : Nat
deriving DecidableEq

def MAGIC_META : Nat := 0x4154454d

def MAGIC_ACID : Nat := 0x44494341

def MAGIC_ACI0 : Nat := 0x30494341

/-- The 256-byte public modulus from rsa.ts, patched into the ACID. -/
def RSA_PUBLIC_KEY_MODULUS : List Nat := [
  0xbd, 0x54, 0x73, 0xb7, 0xef, 0x26, 0x13, 0xba, 0x04, 0xe1, 0x19, 0x26,
  0x4a, 0x1d, 0xf0, 0xb3, 0x80, 0x86, 0x94, 0x18, 0xfb, 0xba, 0x11, 0xe4,
  0x7f, 0x00, 0xa9, 0x3c, 0x5b, 0x27, 0xe1, 0x33, 0x55, 0x74, 0xb4, 0x68,
  0x61, 0x86, 0x35, 0xee, 0x34, 0x18, 0x59, 0x3b, 0x5c, 0x39, 0x83, 0xcc,
  0x70, 0x7c, 0x70, 0x52, 0x98, 0x09, 0xca, 0xca, 0x46, 0x37, 0xc4, 0x06,
  0x5c, 0x49, 0x09, 0xa9, 0x8f, 0x23, 0x20, 0xbb, 0xf6, 0x78, 0xed, 0x23,
  0x04, 0x6b, 0x60, 0xec, 0x1a, 0xf6, 0x69, 0xf5, 0x01, 0xa7, 0xaf, 0xf1,
  0x04, 0xe3, 0x13, 0xd9, 0x19, 0x58, 0x55, 0x7e, 0x87, 0xe1, 0xad, 0x54,
  0x03, 0x5f, 0x47, 0xce, 0x67, 0x27, 0xf9, 0x3d, 0x61, 0x74, 0x3c, 0x12,
  0xea, 0x80, 0x58, 0xa6, 0x2f, 0x2b, 0x25, 0x29, 0xb4, 0xfa, 0xaf, 0xb2,
  0x07, 0x7e, 0x1d, 0xb9, 0xe3, 0x64, 0x56, 0xc9, 0x38, 0x78, 0xa6, 0xe3,
  0x08, 0xd3, 0x4a, 0x16, 0x2f, 0x97, 0x83, 0x23, 0x41, 0x8b, 0x8d, 0x5d,
  0xe7, 0xb4, 0x8f, 0x0a, 0xb9, 0x1c, 0x9b, 0xff, 0x6d, 0x91, 0xa8, 0x11,
  0xa2, 0xb1, 0x3c, 0xbc, 0xb7, 0x05, 0x3d, 0xc5, 0xdc, 0x60, 0xe8, 0xdd,
  0x5c, 0x7d, 0xcb, 0xe1, 0x74, 0xd7, 0xab, 0xbb, 0x31, 0xc7, 0x2b, 0x40,
  0x23, 0xae, 0x9e, 0xad, 0xf4, 0x9c, 0xe1, 0x7b, 0xa7, 0x92, 0x82, 0xe2,
  0x7d, 0xc6, 0xdf, 0x30, 0xe0, 0x77, 0x82, 0x31, 0x82, 0xa1, 0x0b, 0x3a,
  0x19, 0xf6, 0xa2, 0x01, 0x4d, 0xd3, 0xc3, 0x17, 0xb0, 0x43, 0xb8, 0x5d,
  0xa2, 0xab, 0xe3, 0xe4, 0x69, 0xbd, 0x57, 0x21, 0xea, 0xcd, 0xe0, 0xc5,
  0xe6, 0x65, 0x13, 0x96, 0x67, 0x9d, 0xd8, 0x8e, 0xa6, 0xe0, 0x42, 0xf1,
  0x6d, 0x5d, 0x5b, 0xd2, 0x55, 0x20, 0xb9, 0x1e, 0x59, 0x13, 0x3c, 0x17,
  0xc2, 0x25, 0x56, 0xc7]

/-- `DataView.getUint32` throws a RangeError when the read leaves the
buffer. -/
def readU32LEChecked (l : List Nat) (off : Nat) : Except String Nat :=
  if off + 4 ≤ l.length then .ok (readU32LE l off) else .error "RangeError"

def readU64LEChecked (l : List Nat) (off : Nat) : Except String Nat :=
  if off + 8 ≤ l.length then .ok (readU64LE l off) else .error "RangeError"

def processNpdm (npdmData : List Nat) (patchAcidKey : Bool)
    (titleIdOverride : Option Nat) :
    Except String (NpdmInfo × List Nat) × NpdmBuffers :=
  let input := npdmData
  let data := npdmData
  match readU32LEChecked data 0 with
  | .error e => (.error e, ⟨input, data⟩)
  | .ok npdmMagic =>
  if npdmMagic ≠ MAGIC_META then (.error "Invalid NPDM magic", ⟨input, data⟩) else
  match readU32LEChecked data 0x70 with
  | .error e => (.error e, ⟨input, data⟩)
  | .ok aci0Offset =>
  match readU32LEChecked data 0x78 with
  | .error e => (.error e, ⟨input, data⟩)
  | .ok acidOffset =>
  match readU32LEChecked data aci0Offset with
  | .error e => (.error e, ⟨input, data⟩)
  | .ok aci0Magic =>
  if aci0Magic ≠ MAGIC_ACI0 then (.error "Invalid ACI0 magic", ⟨input, data⟩) else
  match readU32LEChecked data (acidOffset + 0x200) with
  | .error e => (.error e, ⟨input, data⟩)
  | .ok acidMagic =>
  if acidMagic ≠ MAGIC_ACID then (.error "Invalid ACID magic", ⟨input, data⟩) else
  match readU64LEChecked data (aci0Offset + 0x10) with
  | .error e => (.error e, ⟨input, data⟩)
  | .ok extractedTitleId =>
  let step := match titleIdOverride with
    | some t => (t, writeBytes data (aci0Offset + 0x10) (natToBytesLE 8 t))
    | none => (extractedTitleId, data)
  let titleId := step.1
  let data1 := step.2
  if titleId < 0x0100000000000000 ∨ 0x0fffffffffffffff < titleId then
    (.error "Title ID outside valid range", ⟨input, data1⟩)
  else
    let data2 := if patchAcidKey then
        writeBytes data1 (acidOffset + 0x100) RSA_PUBLIC_KEY_MODULUS
      else data1
    (.ok (⟨titleId⟩, data2), ⟨input, data2⟩)

/-- C10: `processNpdm` never writes the caller's input buffer. On every
control path — success, every validation error, and every out-of-range read
— the input buffer's final contents equal the original bytes; the title-id
override and ACID-modulus patches target only the fresh copy, which is what
the result's data field carries. -/
theorem processNpdm_input_unchanged (npdmData : List Nat) (patchAcidKey : Bool)
    (titleIdOverride : Option Nat) :
    (processNpdm npdmData patchAcidKey titleIdOverride).2.input = npdmData := by
  simp only [processNpdm]
  repeat' split
  all_goals rfl

/-! ## buildNsp input validation (packages/hacbrewpack `buildNsp`)

The complete set of input-presence validations `buildNsp` performs before it
builds any NCA: ExeFS must contain "main.npdm" (step 2), the NPDM must
parse/patch, and the control map must contain "control.nacp" (step 3). The
code performs NO check for an icon file — the icon requirement appears only
in the doc comment of the `control` option. -/

/-- JS `Map.get` over string keys. -/
def mapGet (m : List (String × List Nat)) (k : String) : Option (List Nat) :=
  (m.find? (fun p => p.1 == k)).map (fun p => p.2)

def buildNspValidate (exefs control : List (String × List Nat))
    (patchAcidKey : Bool) (titleIdOverride : Option Nat) :
    Except String (NpdmInfo × List Nat × List Nat) :=
  match mapGet exefs "main.npdm" with
  | none => .error "ExeFS must contain main.npdm"
  | some npdmData =>
    match (processNpdm npdmData patchAcidKey titleIdOverride).1 with
    | .error e => .error e
    | .ok (info, patched) =>
      match mapGet control "control.nacp" with
      | none => .error "Control must contain control.nacp"
      | some nacpData => .ok (info, patched, nacpData)

/-- A minimal well-formed NPDM: META magic at 0, ACI0 offset 0x80, ACID
offset 0x100 (so the ACID magic sits at 0x300), ACI0 magic at 0x80, a valid
title id at 0x90, ACID magic at 0x300. -/
def npdmOkInput : List Nat :=
  writeBytes (writeBytes (writeBytes (writeBytes (writeBytes (writeBytes
    (List.replicate 0x310 0)
    0 (natToBytesLE 4 MAGIC_META))
    0x70 (natToBytesLE 4 0x80))
    0x78 (natToBytesLE 4 0x100))
    0x80 (natToBytesLE 4 MAGIC_ACI0))
    0x90 (natToBytesLE 8 0x0100000000000000))
    0x300 (natToBytesLE 4 MAGIC_ACID)

set_option maxRecDepth 8000 in
/-- C9 counterexample: a control map that holds ONLY "control.nacp" and no
icon file sails through `buildNsp`'s validation — the build proceeds instead
of failing with a missing-input error, refuting the claim that an icon file
is validated. -/
theorem buildNspValidate_no_icon_cex :
    buildNspValidate [("main.npdm", npdmOkInput)] [("control.nacp", [0])] true none =
      .ok (⟨0x0100000000000000⟩,
        writeBytes npdmOkInput 0x200 RSA_PUBLIC_KEY_MODULUS, [0]) := rfl

/-- C9 (amended): given that ExeFS contains "main.npdm" and the NPDM
processes successfully, the validation outcome of `buildNsp` depends only on
whether the control map contains "control.nacp": present → the build
proceeds, absent → MissingInput. No icon file is required. -/
theorem buildNspValidate_control_requirement (exefs control : List (String × List Nat))
    (patchAcidKey : Bool) (titleIdOverride : Option Nat) (npdm : List Nat)
    (r : NpdmInfo × List Nat)
    (hex : mapGet exefs "main.npdm" = some npdm)
    (hnp : (processNpdm npdm patchAcidKey titleIdOverride).1 = .ok r) :
    buildNspValidate exefs control patchAcidKey titleIdOverride =
      match mapGet control "control.nacp" with
      | some nacp => .ok (r.1, r.2, nacp)
      | none => .error "Control must contain control.nacp" := by
  obtain ⟨info, patched⟩ := r
  unfold buildNspValidate
  rw [hex]
  dsimp only
  rw [hnp]
  dsimp only
  cases mapGet control "control.nacp" <;> rfl

set_option maxRecDepth 8000 in
/-- C9 witness: the amended theorem applied at a concrete exefs/control pair
(no icon in the control map; validation succeeds). -/
theorem buildNspValidate_control_requirement_witness :
    buildNspValidate [("main.npdm", npdmOkInput)] [("control.nacp", [0])] true none =
      .ok (⟨0x0100000000000000⟩,
        writeBytes npdmOkInput 0x200 RSA_PUBLIC_KEY_MODULUS, [0]) :=
  buildNspValidate_control_requirement _ _ true none npdmOkInput
    (⟨0x0100000000000000⟩, writeBytes npdmOkInput 0x200 RSA_PUBLIC_KEY_MODULUS) rfl rfl

/-! ## NCA assembler (packages/nca `assembleNca`)

The envelope construction is staged exactly in the statement order of the
source; the crypto backend (Web Crypto SHA-256 / AES-ECB / AES-CTR, the
rsa.ts signer and the AES-XTS header encryptor) is abstract. -/

structure NcaCryptoBackend where
  sha256 : List Nat → List Nat
  ecbEncrypt : List Nat → List Nat → List Nat
  ctrEncrypt : List Nat → List Nat → List Nat → List Nat
  rsaSign : List Nat → List Nat
  xtsEncrypt : List Nat → Nat → Nat → List Nat

/-- The derived-key surface used by `assembleNca`. -/
structure KeySet where
  headerKey : List Nat
  keyAreaKeys : Nat → Nat → List Nat

structure NcaSectionInput where
  sectionData : List Nat
  fsHeader : List Nat
  cryptType : Nat

structure NcaBuildOptions where
  titleId : Nat
  contentType : Nat
  keyGeneration : Nat
  keyAreaKey : List Nat
  sdkVersion : Nat
  plaintext : Bool
  sign : Bool
  keys : KeySet

def NCA_HEADER_SIZE : Nat := 0xc00

def MEDIA_UNIT : Nat := 0x200

def MAGIC_NCA3 : Nat := 0x3341434e

/-- `align(value, alignment) = (value + mask) & ~mask`; equal to this
round-up formula for the power-of-two alignments the source uses. -/
def ncaAlign (value alignment : Nat) : Nat :=
  (value + alignment - 1) - (value + alignment - 1) % alignment

def secAt (sections : List NcaSectionInput) (i : Nat) : NcaSectionInput :=
  sections.getD i ⟨[], [], 0⟩

def sectionOffsetsGo : Nat → List NcaSectionInput → List Nat
  | _, [] => []
  | acc, s :: rest =>
    (NCA_HEADER_SIZE + acc) ::
      sectionOffsetsGo (acc + ncaAlign s.sectionData.length MEDIA_UNIT) rest

def sectionOffsets (sections : List NcaSectionInput) : List Nat :=
  sectionOffsetsGo 0 sections

def ncaTotalSize (sections : List NcaSectionInput) : Nat :=
  NCA_HEADER_SIZE +
    sections.foldl (fun acc s => acc + ncaAlign s.sectionData.length MEDIA_UNIT) 0

/-- Step "set crypt type": `sections[i].fsHeader[0x04] = sections[i].cryptType`. -/
def ncaFsHeaderPatched (s : NcaSectionInput) : List Nat :=
  setByte s.fsHeader 0x04 s.cryptType

/-- `buildNcaCtr(sectionCtr, byteOffset)` from crypto.ts: bytes 0..7 are the
section counter reversed, bytes 8..15 the big-endian block offset. -/
def buildNcaCtr (sectionCtr : List Nat) (byteOffset : Nat) : List Nat :=
  (List.range 8).map (fun j => byteAt sectionCtr (7 - j)) ++
    natToBytesBE 8 (byteOffset / 16)

/-- Writes of the raw section bodies at their offsets. -/
def ncaWriteSectionData (sections : List NcaSectionInput) (nca : List Nat) : List Nat :=
  (List.range sections.length).foldl
    (fun nca i => writeBytes nca ((sectionOffsets sections).getD i 0)
      (secAt sections i).sectionData) nca

/-- The fixed header fields written at `headerOffset = 0x200`. -/
def ncaWriteHeaderFields (sections : List NcaSectionInput) (o : NcaBuildOptions)
    (nca : List Nat) : List Nat :=
  let nca := writeBytes nca 0x200 (natToBytesLE 4 MAGIC_NCA3)
  let nca := setByte nca 0x204 0
  let nca := setByte nca 0x205 o.contentType
  let nca := setByte nca 0x206 (if o.keyGeneration = 1 then 0 else 2)
  let nca := setByte nca 0x207 0
  let nca := writeBytes nca 0x208 (natToBytesLE 8 (ncaTotalSize sections))
  let nca := writeBytes nca 0x210 (natToBytesLE 8 o.titleId)
  let nca := writeBytes nca 0x21c (natToBytesLE 4 o.sdkVersion)
  if 2 < o.keyGeneration then setByte nca 0x220 o.keyGeneration else nca

/-- Section entries at absolute 0x240, 0x10 bytes apiece. -/
def ncaWriteSectionEntries (sections : List NcaSectionInput) (nca : List Nat) : List Nat :=
  (List.range sections.length).foldl
    (fun nca i =>
      let entryOffset := 0x200 + 0x40 + i * 0x10
      let startMedia := (sectionOffsets sections).getD i 0 / MEDIA_UNIT
      let endMedia := ((sectionOffsets sections).getD i 0 +
        ncaAlign (secAt sections i).sectionData.length MEDIA_UNIT) / MEDIA_UNIT
      setByte (writeBytes (writeBytes nca entryOffset (natToBytesLE 4 startMedia))
        (entryOffset + 4) (natToBytesLE 4 endMedia)) (entryOffset + 8) 1)
    nca

/-- First SHA-256 pass over the crypt-type-patched fs headers. -/
def ncaWriteHashes1 (B : NcaCryptoBackend) (sections : List NcaSectionInput)
    (nca : List Nat) : List Nat :=
  (List.range sections.length).foldl
    (fun nca i => writeBytes nca (0x200 + 0x80 + i * 0x20)
      (B.sha256 (ncaFsHeaderPatched (secAt sections i)))) nca

/-- Plaintext key-area key into slot 2 (absolute 0x320). -/
def ncaWriteKaek (o : NcaBuildOptions) (nca : List Nat) : List Nat :=
  writeBytes nca (0x200 + 0x100 + 2 * 0x10) o.keyAreaKey

/-- FS headers at absolute 0x400, 0x200 bytes apiece. -/
def ncaWriteFsHeaders (sections : List NcaSectionInput) (nca : List Nat) : List Nat :=
  (List.range sections.length).foldl
    (fun nca i => writeBytes nca (0x400 + i * 0x200)
      (ncaFsHeaderPatched (secAt sections i))) nca

/-- `section_ctr` u32 LE at fsHeader+0x140 := section index. -/
def ncaWriteSectionCtrs (sections : List NcaSectionInput) (nca : List Nat) : List Nat :=
  (List.range sections.length).foldl
    (fun nca i => writeBytes nca (0x400 + i * 0x200 + 0x140) (natToBytesLE 4 i)) nca

/-- Second SHA-256 pass, re-hashing the fs headers from the envelope. -/
def ncaWriteHashes2 (B : NcaCryptoBackend) (sections : List NcaSectionInput)
    (nca : List Nat) : List Nat :=
  (List.range sections.length).foldl
    (fun nca i => writeBytes nca (0x200 + 0x80 + i * 0x20)
      (B.sha256 (sliceBytes nca (0x400 + i * 0x200) (0x400 + (i + 1) * 0x200)))) nca

/-- The envelope right after assembly step 6 (plaintext key area placed,
fs headers and their hashes final) and before any encryption. -/
def ncaHeaderStage (B : NcaCryptoBackend) (sections : List NcaSectionInput)
    (o : NcaBuildOptions) : List Nat :=
  ncaWriteHashes2 B sections
    (ncaWriteSectionCtrs sections
      (ncaWriteFsHeaders sections
        (ncaWriteKaek o
          (ncaWriteHashes1 B sections
            (ncaWriteSectionEntries sections
              (ncaWriteHeaderFields sections o
                (ncaWriteSectionData sections
                  (List.replicate (ncaTotalSize sections) 0))))))))

/-- Step 8: AES-CTR encryption of the section bodies in place (skipped for
crypt type 1 and in plaintext mode). -/
def ncaAfterBodyCrypt (B : NcaCryptoBackend) (sections : List NcaSectionInput)
    (o : NcaBuildOptions) : List Nat :=
  let h := ncaHeaderStage B sections o
  if o.plaintext then h else
    (List.range sections.length).foldl
      (fun nca i =>
        if (secAt sections i).cryptType = 1 then nca else
        let startOffset := (sectionOffsets sections).getD i 0
        let endOffset := startOffset +
          ncaAlign (secAt sections i).sectionData.length MEDIA_UNIT
        let sectionCtr := sliceBytes nca (0x400 + i * 0x200 + 0x140)
          (0x400 + i * 0x200 + 0x148)
        writeBytes nca startOffset
          (B.ctrEncrypt o.keyAreaKey (sliceBytes nca startOffset endOffset)
            (buildNcaCtr sectionCtr startOffset)))
      h

/-- `keys.keyAreaKeys[keyGeneration - 1][0]`. -/
def ncaKaekEncKey (o : NcaBuildOptions) : List Nat :=
  o.keys.keyAreaKeys (o.keyGeneration - 1) 0

/-- Step 9: AES-ECB encryption of the key area 0x300..0x340 in place. -/
def ncaAfterKeyArea (B : NcaCryptoBackend) (sections : List NcaSectionInput)
    (o : NcaBuildOptions) : List Nat :=
  let nca := ncaAfterBodyCrypt B sections o
  writeBytes nca 0x300 (B.ecbEncrypt (ncaKaekEncKey o) (sliceBytes nca 0x300 0x340))

/-- The exact bytes handed to `rsaSign` (when signing is enabled): the
envelope slice 0x200..0x400 as it stands AFTER the CTR and key-area
encryption steps. -/
def ncaSignedInput (B : NcaCryptoBackend) (sections : List NcaSectionInput)
    (o : NcaBuildOptions) : Option (List Nat) :=
  if o.sign then some (sliceBytes (ncaAfterKeyArea B sections o) 0x200 0x400) else none

/-- Step 7 as executed: signature over 0x200..0x400 placed at 0x100. -/
def ncaAfterSign (B : NcaCryptoBackend) (sections : List NcaSectionInput)
    (o : NcaBuildOptions) : List Nat :=
  let nca := ncaAfterKeyArea B sections o
  if o.sign then writeBytes nca 0x100 (B.rsaSign (sliceBytes nca 0x200 0x400)) else nca

structure NcaResult where
  data : List Nat
  hash : List Nat
  ncaId : List Nat
  size : Nat

/-- Step 10–11: XTS-encrypt the 0xC00 header in place, hash the envelope.
(The lower-hex rendering of the NCA id is omitted; `ncaId` carries the raw
first 16 hash bytes.) -/
def assembleNca (B : NcaCryptoBackend) (sections : List NcaSectionInput)
    (o : NcaBuildOptions) : NcaResult :=
  let nca := ncaAfterSign B sections o
  let final := writeBytes nca 0 (B.xtsEncrypt (sliceBytes nca 0 NCA_HEADER_SIZE) 0x200 0)
  let hash := B.sha256 final
  ⟨final, hash, hash.take 16, ncaTotalSize sections⟩

/-! Slice/write toolkit for reasoning about the envelope stages. -/

theorem length_sliceBytes (l : List Nat) (a b : Nat) :
    (sliceBytes l a b).length = min b l.length - a := by
  simp [sliceBytes]

theorem writeBytes_eq_of_le (l src : List Nat) (off : Nat)
    (h : off + src.length ≤ l.length) :
    writeBytes l off src = l.take off ++ src ++ l.drop (off + src.length) := by
  unfold writeBytes
  rw [List.take_of_length_le (l := src) (by omega)]

theorem sliceBytes_writeBytes_of_le (l src : List Nat) (off a b : Nat) (hb : b ≤ off) :
    sliceBytes (writeBytes l off src) a b = sliceBytes l a b := by
  by_cases hoff : off ≤ l.length
  · unfold writeBytes sliceBytes
    rw [List.append_assoc, List.take_append_eq_append_take, List.take_take,
      Nat.min_eq_left hb]
    rw [show b - (l.take off).length = 0 by simp [List.length_take]; omega,
      List.take_zero, List.append_nil]
  · have hw : writeBytes l off src = l := by
      unfold writeBytes
      rw [show l.length - off = 0 by omega, List.take_zero,
        List.take_of_length_le (by omega),
        List.drop_eq_nil_of_le (by omega)]
      simp
    rw [hw]

theorem sliceBytes_sliceBytes (l : List Nat) (a b c d : Nat) (h : a + d ≤ b) :
    sliceBytes (sliceBytes l a b) c d = sliceBytes l (a + c) (a + d) := by
  unfold sliceBytes
  rw [List.take_drop, List.take_take, Nat.min_eq_left (by omega), List.drop_drop]

theorem sliceBytes_writeBytes_self (l src : List Nat) (off : Nat)
    (h : off + src.length ≤ l.length) :
    sliceBytes (writeBytes l off src) off (off + src.length) = src := by
  rw [writeBytes_eq_of_le l src off h]
  unfold sliceBytes
  have hlt : (l.take off).length = off := by
    simp [List.length_take]
    omega
  rw [List.append_assoc, List.take_append_eq_append_take,
    show off + src.length - (l.take off).length = src.length by omega,
    List.take_of_length_le (l := l.take off) (by omega),
    List.drop_append_eq_append_drop,
    show off - (l.take off).length = 0 by omega,
    List.drop_eq_nil_of_le (by omega)]
  simp [List.take_append_eq_append_take]

theorem sliceBytes_writeBytes_inside (l src : List Nat) (a b off : Nat)
    (h1 : a ≤ off) (h2 : off + src.length ≤ b) (h3 : b ≤ l.length) :
    sliceBytes (writeBytes l off src) a b =
      writeBytes (sliceBytes l a b) (off - a) src := by
  have hA : (l.take off).length = off := by
    simp only [List.length_take]
    omega
  have hSlen : (sliceBytes l a b).length = b - a := by
    rw [length_sliceBytes]
    omega
  -- decompose the left-hand side into three segments
  have hLHS : sliceBytes (writeBytes l off src) a b =
      (l.take off).drop a ++ src ++ (l.drop (off + src.length)).take (b - off - src.length) := by
    rw [writeBytes_eq_of_le l src off (by omega)]
    unfold sliceBytes
    rw [List.append_assoc, List.take_append_eq_append_take,
      List.take_of_length_le (l := l.take off) (by omega),
      @List.take_append_eq_append_take _ src _ _,
      List.take_of_length_le (l := src) (by omega), hA]
    rw [List.drop_append_eq_append_drop,
      show a - (l.take off).length = 0 by omega, List.drop_zero,
      show b - off - src.length = b - off - src.length from rfl]
    rw [← List.append_assoc]
  -- decompose the right-hand side into the same three segments
  have hRHS : writeBytes (sliceBytes l a b) (off - a) src =
      (l.take off).drop a ++ src ++ (l.drop (off + src.length)).take (b - off - src.length) := by
    rw [writeBytes_eq_of_le _ src (off - a) (by rw [hSlen]; omega)]
    unfold sliceBytes
    congr 1
    · congr 1
      -- ((l.take b).drop a).take (off - a) = (l.take off).drop a
      rw [List.take_drop, List.take_take, Nat.min_eq_left (by omega),
        show a + (off - a) = off by omega]
    · -- ((l.take b).drop a).drop (off - a + src.length) = …
      rw [List.drop_drop, show a + (off - a + src.length) = off + src.length by omega,
        List.drop_take]
      congr 1
      omega
  rw [hLHS, hRHS]

theorem length_setByte (l : List Nat) (i v : Nat) :
    (setByte l i v).length = l.length := length_writeBytes ..

theorem length_foldl_write {α : Type} (f : List Nat → α → List Nat)
    (h : ∀ nca x, (f nca x).length = nca.length) :
    ∀ (xs : List α) (nca : List Nat), (xs.foldl f nca).length = nca.length := by
  intro xs
  induction xs with
  | nil => intro nca; rfl
  | cons x xs ih =>
    intro nca
    rw [List.foldl_cons, ih, h]

theorem sliceBytes_foldl_inv {α : Type} (f : List Nat → α → List Nat) (a b : Nat) :
    ∀ (xs : List α), (∀ nca x, x ∈ xs → sliceBytes (f nca x) a b = sliceBytes nca a b) →
      ∀ nca, sliceBytes (xs.foldl f nca) a b = sliceBytes nca a b := by
  intro xs
  induction xs with
  | nil => intro _ nca; rfl
  | cons x xs ih =>
    intro h nca
    rw [List.foldl_cons, ih (fun nca y hy => h nca y (by simp [hy])),
      h nca x (by simp)]

theorem length_ncaWriteSectionData (sections : List NcaSectionInput) (nca : List Nat) :
    (ncaWriteSectionData sections nca).length = nca.length :=
  length_foldl_write _ (fun nca i => length_writeBytes ..) _ nca

theorem length_ncaWriteHeaderFields (sections : List NcaSectionInput)
    (o : NcaBuildOptions) (nca : List Nat) :
    (ncaWriteHeaderFields sections o nca).length = nca.length := by
  unfold ncaWriteHeaderFields
  by_cases h2 : 2 < o.keyGeneration <;>
    simp [h2, length_setByte, length_writeBytes]

theorem length_ncaWriteSectionEntries (sections : List NcaSectionInput) (nca : List Nat) :
    (ncaWriteSectionEntries sections nca).length = nca.length :=
  length_foldl_write _
    (fun nca i => by simp [length_setByte, length_writeBytes]) _ nca

theorem length_ncaWriteHashes1 (B : NcaCryptoBackend) (sections : List NcaSectionInput)
    (nca : List Nat) : (ncaWriteHashes1 B sections nca).length = nca.length :=
  length_foldl_write _ (fun nca i => length_writeBytes ..) _ nca

theorem length_ncaWriteKaek (o : NcaBuildOptions) (nca : List Nat) :
    (ncaWriteKaek o nca).length = nca.length := length_writeBytes ..

theorem length_ncaWriteFsHeaders (sections : List NcaSectionInput) (nca : List Nat) :
    (ncaWriteFsHeaders sections nca).length = nca.length :=
  length_foldl_write _ (fun nca i => length_writeBytes ..) _ nca

theorem length_ncaWriteSectionCtrs (sections : List NcaSectionInput) (nca : List Nat) :
    (ncaWriteSectionCtrs sections nca).length = nca.length :=
  length_foldl_write _ (fun nca i => length_writeBytes ..) _ nca

theorem length_ncaWriteHashes2 (B : NcaCryptoBackend) (sections : List NcaSectionInput)
    (nca : List Nat) : (ncaWriteHashes2 B sections nca).length = nca.length :=
  length_foldl_write _ (fun nca i => length_writeBytes ..) _ nca

theorem length_ncaHeaderStage (B : NcaCryptoBackend) (sections : List NcaSectionInput)
    (o : NcaBuildOptions) :
    (ncaHeaderStage B sections o).length = ncaTotalSize sections := by
  unfold ncaHeaderStage
  rw [length_ncaWriteHashes2, length_ncaWriteSectionCtrs, length_ncaWriteFsHeaders,
    length_ncaWriteKaek, length_ncaWriteHashes1, length_ncaWriteSectionEntries,
    length_ncaWriteHeaderFields, length_ncaWriteSectionData, List.length_replicate]

theorem ncaTotalSize_ge (sections : List NcaSectionInput) :
    NCA_HEADER_SIZE ≤ ncaTotalSize sections := Nat.le_add_right _ _

theorem length_ncaAfterBodyCrypt (B : NcaCryptoBackend) (sections : List NcaSectionInput)
    (o : NcaBuildOptions) :
    (ncaAfterBodyCrypt B sections o).length = ncaTotalSize sections := by
  unfold ncaAfterBodyCrypt
  by_cases hp : o.plaintext = true
  · rw [if_pos hp, length_ncaHeaderStage]
  · rw [if_neg hp]
    rw [length_foldl_write _ (fun nca i => by
      by_cases hc : (secAt sections i).cryptType = 1
      · rw [if_pos hc]
      · rw [if_neg hc, length_writeBytes]) _ _]
    exact length_ncaHeaderStage B sections o

theorem sectionOffsetsGo_ge (sections : List NcaSectionInput) :
    ∀ (acc : Nat), ∀ x ∈ sectionOffsetsGo acc sections, NCA_HEADER_SIZE ≤ x := by
  induction sections with
  | nil => intro acc x hx; simp [sectionOffsetsGo] at hx
  | cons s rest ih =>
    intro acc x hx
    simp only [sectionOffsetsGo, List.mem_cons] at hx
    rcases hx with h1 | h2
    · omega
    · exact ih _ x h2

theorem length_sectionOffsetsGo (sections : List NcaSectionInput) :
    ∀ (acc : Nat), (sectionOffsetsGo acc sections).length = sections.length := by
  induction sections with
  | nil => intro acc; rfl
  | cons s rest ih => intro acc; simp [sectionOffsetsGo, ih]

theorem sectionOffsets_getD_ge (sections : List NcaSectionInput) (i : Nat)
    (hi : i < sections.length) :
    NCA_HEADER_SIZE ≤ (sectionOffsets sections).getD i 0 := by
  have hlen : (sectionOffsets sections).length = sections.length :=
    length_sectionOffsetsGo sections 0
  have hmem : (sectionOffsets sections).getD i 0 ∈ sectionOffsets sections := by
    rw [List.getD_eq_getElem?_getD]
    rw [List.getElem?_eq_getElem (by omega)]
    exact List.getElem_mem _
  exact sectionOffsetsGo_ge sections 0 _ hmem

/-- Section-body CTR encryption only writes at offsets ≥ 0xC00, so any slice
of the first 0xC00 bytes is unchanged. -/
theorem sliceBytes_ncaAfterBodyCrypt (B : NcaCryptoBackend)
    (sections : List NcaSectionInput) (o : NcaBuildOptions) (a b : Nat)
    (hb : b ≤ NCA_HEADER_SIZE) :
    sliceBytes (ncaAfterBodyCrypt B sections o) a b =
      sliceBytes (ncaHeaderStage B sections o) a b := by
  unfold ncaAfterBodyCrypt
  by_cases hp : o.plaintext = true
  · rw [if_pos hp]
  · rw [if_neg hp]
    apply sliceBytes_foldl_inv
    intro nca i hi
    simp only [List.mem_range] at hi
    by_cases hc : (secAt sections i).cryptType = 1
    · rw [if_pos hc]
    · rw [if_neg hc]
      exact sliceBytes_writeBytes_of_le _ _ _ a b
        (le_trans hb (sectionOffsets_getD_ge sections i hi))

/-- What `rsaSign` is actually given when signing is enabled: the envelope
slice 0x200..0x400 of the plain header stage with the AES-ECB-encrypted key
area spliced in at relative offset 0x100 (envelope offset 0x300) — the code
signs AFTER step 9's key-area encryption, so the signed region holds the
ENCRYPTED key-area-key. -/
theorem ncaSignedInput_after_key_area (B : NcaCryptoBackend)
    (sections : List NcaSectionInput) (o : NcaBuildOptions)
    (hsign : o.sign = true)
    (hecb : ∀ k d, (B.ecbEncrypt k d).length = d.length) :
    ncaSignedInput B sections o =
      some (writeBytes (sliceBytes (ncaHeaderStage B sections o) 0x200 0x400) 0x100
        (B.ecbEncrypt (ncaKaekEncKey o)
          (sliceBytes (ncaHeaderStage B sections o) 0x300 0x340))) := by
  have hlen : (ncaAfterBodyCrypt B sections o).length = ncaTotalSize sections :=
    length_ncaAfterBodyCrypt B sections o
  have htot : NCA_HEADER_SIZE ≤ ncaTotalSize sections := ncaTotalSize_ge sections
  have hhdr : NCA_HEADER_SIZE = 0xc00 := rfl
  have hElen : (B.ecbEncrypt (ncaKaekEncKey o)
      (sliceBytes (ncaAfterBodyCrypt B sections o) 0x300 0x340)).length = 0x40 := by
    rw [hecb, length_sliceBytes, hlen]
    omega
  simp only [ncaSignedInput, ncaAfterKeyArea]
  rw [if_pos hsign]
  rw [sliceBytes_writeBytes_inside _ _ 0x200 0x400 0x300 (by norm_num)
    (by rw [hElen]; norm_num) (by rw [hlen]; omega)]
  rw [sliceBytes_ncaAfterBodyCrypt B sections o 0x200 0x400 (by rw [hhdr]; norm_num),
    sliceBytes_ncaAfterBodyCrypt B sections o 0x300 0x340 (by rw [hhdr]; norm_num)]

/-- A concrete injectable crypto backend whose ECB encryption has no fixed
point on any byte (it adds 1 mod 256), used to separate pre- and
post-key-area-encryption signing. -/
def ncaMockBackend : NcaCryptoBackend :=
  ⟨fun _ => List.replicate 32 0xaa,
   fun _ d => d.map (fun b => (b + 1) % 256),
   fun _ d _ => d,
   fun _ => List.replicate 0x100 0x11,
   fun d _ _ => d⟩

def ncaCexSections : List NcaSectionInput :=
  [⟨List.replicate 0x200 7, List.replicate 0x200 5, 3⟩]

def ncaCexOptions : NcaBuildOptions :=
  ⟨0x0100000000000001, 1, 3, List.replicate 16 4, 0xc1100, false, true,
   ⟨List.replicate 32 9, fun _ _ => List.replicate 16 0x33⟩⟩

set_option maxRecDepth 4000 in
/-- C1: FALSE as stated — in `assembleNca` with sign enabled, signing does NOT
happen before the AES-ECB key-area encryption: the bytes handed to RSA-PSS are
envelope[0x200..0x400] as of AFTER step 9, i.e. with the ENCRYPTED key area at
0x300..0x340, which (for a backend whose block cipher has no fixed point)
differs from the pre-encryption slice the spec describes. -/
theorem assembleNca_sign_before_ecb_cex :
    ncaSignedInput ncaMockBackend ncaCexSections ncaCexOptions ≠
      some (sliceBytes (ncaAfterBodyCrypt ncaMockBackend ncaCexSections ncaCexOptions)
        0x200 0x400) := by
  intro hcl
  have hspec := ncaSignedInput_after_key_area ncaMockBackend ncaCexSections ncaCexOptions
    rfl (fun k d => by simp [ncaMockBackend])
  have hhdr : NCA_HEADER_SIZE = 0xc00 := rfl
  rw [hspec,
    sliceBytes_ncaAfterBodyCrypt _ _ _ 0x200 0x400 (by rw [hhdr]; norm_num)] at hcl
  have heq := Option.some.inj hcl
  obtain ⟨S, hSdef⟩ : ∃ S,
      sliceBytes (ncaHeaderStage ncaMockBackend ncaCexSections ncaCexOptions) 0x200 0x400
        = S := ⟨_, rfl⟩
  obtain ⟨W, hWdef⟩ : ∃ W,
      sliceBytes (ncaHeaderStage ncaMockBackend ncaCexSections ncaCexOptions) 0x300 0x340
        = W := ⟨_, rfl⟩
  rw [hSdef, hWdef] at heq
  have hstage :
      (ncaHeaderStage ncaMockBackend ncaCexSections ncaCexOptions).length = 0xE00 := by
    rw [length_ncaHeaderStage]
    rfl
  have hS : S.length = 0x200 := by
    rw [← hSdef, length_sliceBytes, hstage]
    omega
  have hW : W.length = 0x40 := by
    rw [← hWdef, length_sliceBytes, hstage]
    omega
  have hE : ncaMockBackend.ecbEncrypt (ncaKaekEncKey ncaCexOptions) W =
      W.map (fun b => (b + 1) % 256) := rfl
  rw [hE] at heq
  have hext := sliceBytes_writeBytes_self S (W.map (fun b => (b + 1) % 256)) 0x100
    (by rw [List.length_map, hW, hS]; norm_num)
  rw [List.length_map, hW] at hext
  norm_num at hext
  rw [heq, ← hSdef,
    sliceBytes_sliceBytes _ 0x200 0x400 0x100 0x140 (by norm_num)] at hext
  norm_num at hext
  rw [hWdef] at hext
  have hWne : W ≠ [] := by
    intro h
    rw [h] at hW
    simp at hW
  obtain ⟨w, rest, hcons⟩ := List.exists_cons_of_ne_nil hWne
  rw [hcons] at hext
  simp only [List.map_cons, List.cons.injEq] at hext
  omega

/-- C1 (amended): in NCA assembly with sign enabled, the bytes handed to
RSA-PSS are envelope[0x200..0x400] as they stand AFTER step 8 (AES-CTR body
crypt, which never touches the first 0xC00 bytes) and AFTER step 9 (AES-ECB
encryption of the key area at 0x300..0x340): the signed region equals the
plain header-stage slice 0x200..0x400 with the ECB-ENCRYPTED key area
spliced in at relative offset 0x100, so it contains the encrypted — not the
plaintext — key-area-key. -/
theorem assembleNca_signed_region (B : NcaCryptoBackend)
    (sections : List NcaSectionInput) (o : NcaBuildOptions)
    (hsign : o.sign = true)
    (hecb : ∀ k d, (B.ecbEncrypt k d).length = d.length) :
    ncaSignedInput B sections o =
      some (writeBytes (sliceBytes (ncaHeaderStage B sections o) 0x200 0x400) 0x100
        (B.ecbEncrypt (ncaKaekEncKey o)
          (sliceBytes (ncaHeaderStage B sections o) 0x300 0x340))) :=
  ncaSignedInput_after_key_area B sections o hsign hecb

set_option maxRecDepth 4000 in
/-- C1 witness: the amended theorem applied at a concrete backend and build. -/
theorem assembleNca_signed_region_witness :
    ncaCexOptions.sign = true ∧
    ncaSignedInput ncaMockBackend ncaCexSections ncaCexOptions =
      some (writeBytes
        (sliceBytes (ncaHeaderStage ncaMockBackend ncaCexSections ncaCexOptions)
          0x200 0x400) 0x100
        (ncaMockBackend.ecbEncrypt (ncaKaekEncKey ncaCexOptions)
          (sliceBytes (ncaHeaderStage ncaMockBackend ncaCexSections ncaCexOptions)
            0x300 0x340))) :=
  ⟨rfl, assembleNca_signed_region ncaMockBackend ncaCexSections ncaCexOptions rfl
    (fun k d => by simp [ncaMockBackend])⟩

/-! RomFS encoder walk (romfs/src/index.ts `walkFs`), embedded with explicit
state for the two entry arrays and an index-based rendering of the JS object
mutations (sibling/child/file offset backpatching). -/

inductive RomVal where
  | file (data : List Nat) : RomVal
  | dir (entries : List (List Nat × RomVal)) : RomVal

def byteListLt : List Nat → List Nat → Bool
  | [], [] => false
  | [], _ :: _ => true
  | _ :: _, [] => false
  | a :: as, b :: bs => if a < b then true else if b < a then false else byteListLt as bs

def insertSorted (x : List Nat × RomVal) :
    List (List Nat × RomVal) → List (List Nat × RomVal)
  | [] => [x]
  | y :: ys => if byteListLt y.1 x.1 then y :: insertSorted x ys else x :: y :: ys

/-- `Object.keys(fs).sort()` with the values carried along. -/
def sortByName (l : List (List Nat × RomVal)) : List (List Nat × RomVal) :=
  l.foldr insertSorted []

def romAlign (size byteSize : Nat) : Nat :=
  if size % byteSize = 0 then size else size + byteSize - size % byteSize

def DIR_ENTRY_SIZE : Nat := 0x18
def FILE_ENTRY_SIZE : Nat := 0x20
def ROMFS_HEADER_SIZE : Nat := 0x50
def ROMFS_ENTRY_EMPTY : Nat := 0xffffffff
def ROMFS_FILEPARTITION_OFS : Nat := 0x200

structure DirEntry where
  offset : Nat
  parentOffset : Nat
  siblingOffset : Nat
  childOffset : Nat
  fileOffset : Nat
  hashSiblingOffset : Nat
  nameSize : Nat
  name : List Nat
deriving DecidableEq

structure FileEntry where
  offset : Nat
  parentOffset : Nat
  siblingOffset : Nat
  dataOffset : Nat
  dataSize : Nat
  hashSiblingOffset : Nat
  nameSize : Nat
  name : List Nat
  /-- The file's bytes; `encode` keeps them in the `fileBlobs` map keyed by
  this entry, carried inline here. -/
  data : List Nat
deriving DecidableEq

structure WalkState where
  dirEntries : List DirEntry
  fileEntries : List FileEntry
deriving DecidableEq

def modifyAt {α : Type} : List α → Nat → (α → α) → List α
  | [], _, _ => []
  | x :: xs, 0, f => f x :: xs
  | x :: xs, n + 1, f => x :: modifyAt xs n f

def dirAt (st : WalkState) (i : Nat) : DirEntry :=
  st.dirEntries.getD i ⟨0, 0, 0, 0, 0, 0, 0, []⟩

def setFileSibling (st : WalkState) (i v : Nat) : WalkState :=
  { st with fileEntries := modifyAt st.fileEntries i (fun e => { e with siblingOffset := v }) }

def setDirSibling (st : WalkState) (i v : Nat) : WalkState :=
  { st with dirEntries := modifyAt st.dirEntries i (fun e => { e with siblingOffset := v }) }

def setDirChild (st : WalkState) (i v : Nat) : WalkState :=
  { st with dirEntries := modifyAt st.dirEntries i (fun e => { e with childOffset := v }) }

def setDirFile (st : WalkState) (i v : Nat) : WalkState :=
  { st with dirEntries := modifyAt st.dirEntries i (fun e => { e with fileOffset := v }) }

/-- The file branch of `walkFs`'s loop body: push the new `FileEntry`, link
the previous file sibling to it, and set the parent's `fileOffset` if still
empty. -/
def fileStep (st : WalkState) (parent fileEntryOffset dataOffset : Nat)
    (name data : List Nat) (prevFile : Option Nat) : WalkState :=
  let fe : FileEntry :=
    ⟨fileEntryOffset, (dirAt st parent).offset, ROMFS_ENTRY_EMPTY, dataOffset,
      data.length, ROMFS_ENTRY_EMPTY, name.length, name, data⟩
  let st1 := { st with fileEntries := st.fileEntries ++ [fe] }
  let st2 := match prevFile with
    | some p => setFileSibling st1 p fileEntryOffset
    | none => st1
  if (dirAt st2 parent).fileOffset = ROMFS_ENTRY_EMPTY then
    setDirFile st2 parent fileEntryOffset
  else st2

/-- The directory branch of `walkFs`'s loop body before recursing: push the
new `DirEntry`, link the previous dir sibling, set the parent's `childOffset`
if still empty. -/
def dirStep (st : WalkState) (parent dirEntryOffset : Nat) (name : List Nat)
    (prevDir : Option Nat) : WalkState :=
  let de : DirEntry :=
    ⟨dirEntryOffset, (dirAt st parent).offset, ROMFS_ENTRY_EMPTY, ROMFS_ENTRY_EMPTY,
      ROMFS_ENTRY_EMPTY, ROMFS_ENTRY_EMPTY, name.length, name⟩
  let st1 := { st with dirEntries := st.dirEntries ++ [de] }
  let st2 := match prevDir with
    | some p => setDirSibling st1 p dirEntryOffset
    | none => st1
  if (dirAt st2 parent).childOffset = ROMFS_ENTRY_EMPTY then
    setDirChild st2 parent dirEntryOffset
  else st2

/-- One iteration space of `walkFs`'s loop: `entries` is the (already sorted)
remaining key/value list of the current directory, `parent` the index of the
parent's `DirEntry` in `st.dirEntries`, `prevDir`/`prevFile` the indices of
the previous sibling entries of this loop. Fuel-based so the definition
reduces; `none` means the fuel ran out. -/
def walkGoF : Nat → List (List Nat × RomVal) → WalkState → Nat → Nat → Nat → Nat →
    Option Nat → Option Nat → Option (WalkState × Nat × Nat × Nat)
  | 0, _, _, _, _, _, _, _, _ => none
  | _ + 1, [], st, _, dirEntryOffset, fileEntryOffset, dataOffset, _, _ =>
    some (st, dirEntryOffset, fileEntryOffset, dataOffset)
  | fuel + 1, (name, RomVal.file data) :: rest, st, parent, dirEntryOffset,
      fileEntryOffset, dataOffset, prevDir, prevFile =>
    walkGoF fuel rest (fileStep st parent fileEntryOffset dataOffset name data prevFile)
      parent dirEntryOffset
      (fileEntryOffset + FILE_ENTRY_SIZE + romAlign name.length 4)
      (dataOffset + romAlign data.length 0x10) prevDir (some st.fileEntries.length)
  | fuel + 1, (name, RomVal.dir children) :: rest, st, parent, dirEntryOffset,
      fileEntryOffset, dataOffset, prevDir, prevFile =>
    match walkGoF fuel (sortByName children) (dirStep st parent dirEntryOffset name prevDir)
        st.dirEntries.length
        (dirEntryOffset + DIR_ENTRY_SIZE + romAlign name.length 4)
        fileEntryOffset dataOffset none none with
    | none => none
    | some (st4, deo4, feo4, dOff4) =>
      walkGoF fuel rest st4 parent deo4 feo4 dOff4 (some st.dirEntries.length) prevFile

def rootDirEntry : DirEntry :=
  ⟨0, 0, ROMFS_ENTRY_EMPTY, ROMFS_ENTRY_EMPTY, ROMFS_ENTRY_EMPTY, ROMFS_ENTRY_EMPTY, 0, []⟩

/-- `encode`'s call to `walkFs`: root entry pushed, dir entry offset starts at
DIR_ENTRY_SIZE, file entry offset at 0, data offset at 0. -/
def walkFsRun (fuel : Nat) (fs : List (List Nat × RomVal)) :
    Option (WalkState × Nat × Nat × Nat) :=
  walkGoF fuel (sortByName fs) ⟨[rootDirEntry], []⟩ 0 DIR_ENTRY_SIZE 0 0 none none

/-- `monoFrom lo ds hi`: the offsets `ds` are non-decreasing, bounded below by
`lo`, and the running counter ends at `hi ≥` the last of them. -/
def monoFrom : Nat → List Nat → Nat → Prop
  | lo, [], hi => lo ≤ hi
  | lo, d :: rest, hi => lo ≤ d ∧ monoFrom d rest hi

theorem monoFrom_mono {lo' : Nat} : ∀ {lo hi : Nat} {l : List Nat},
    monoFrom lo' l hi → lo ≤ lo' → monoFrom lo l hi := by
  intro lo hi l
  cases l with
  | nil => intro h hle; exact le_trans hle h
  | cons d rest => intro h hle; exact ⟨le_trans hle h.1, h.2⟩

theorem monoFrom_append : ∀ {l1 l2 : List Nat} {lo mid hi : Nat},
    monoFrom lo l1 mid → monoFrom mid l2 hi → monoFrom lo (l1 ++ l2) hi := by
  intro l1
  induction l1 with
  | nil =>
    intro l2 lo mid hi h1 h2
    exact monoFrom_mono h2 h1
  | cons d rest ih =>
    intro l2 lo mid hi h1 h2
    exact ⟨h1.1, ih h1.2 h2⟩

theorem monoFrom_chain : ∀ {l : List Nat} {lo hi : Nat},
    monoFrom lo l hi → List.Chain' (fun a b => a ≤ b) l := by
  intro l
  induction l with
  | nil => intro lo hi _; exact List.chain'_nil
  | cons d rest ih =>
    intro lo hi h
    cases rest with
    | nil => exact List.chain'_singleton d
    | cons d2 rest2 =>
      exact List.Chain'.cons h.2.1 (ih h.2)

theorem romAlign_16_dvd (s : Nat) : 16 ∣ romAlign s 16 := by
  unfold romAlign
  by_cases h : s % 16 = 0
  · rw [if_pos h]
    omega
  · rw [if_neg h]
    have := Nat.mod_lt s (show 0 < 16 by norm_num)
    omega

theorem fileEntries_modifyAt_sibling (l : List FileEntry) (v : Nat) :
    ∀ (p : Nat), (modifyAt l p (fun e => { e with siblingOffset := v })).map
      (fun e => e.dataOffset) = l.map (fun e => e.dataOffset) := by
  induction l with
  | nil => intro p; rfl
  | cons x xs ih =>
    intro p
    cases p with
    | zero => rfl
    | succ n => simp [modifyAt, ih n]

theorem fileStep_map (st : WalkState) (parent feo dOff : Nat) (name data : List Nat)
    (pf : Option Nat) :
    (fileStep st parent feo dOff name data pf).fileEntries.map (fun e => e.dataOffset) =
      st.fileEntries.map (fun e => e.dataOffset) ++ [dOff] := by
  cases pf with
  | none =>
    simp only [fileStep]
    split <;> simp [setDirFile]
  | some p =>
    simp only [fileStep]
    split <;>
      simp [setDirFile, setFileSibling, fileEntries_modifyAt_sibling]

theorem dirStep_fileEntries (st : WalkState) (parent deo : Nat) (name : List Nat)
    (pd : Option Nat) : (dirStep st parent deo name pd).fileEntries = st.fileEntries := by
  cases pd with
  | none =>
    simp only [dirStep]
    split <;> rfl
  | some p =>
    simp only [dirStep]
    split <;> rfl

theorem walkGoF_spec : ∀ (fuel : Nat) (entries : List (List Nat × RomVal))
    (st : WalkState) (parent deo feo dOff : Nat) (pd pf : Option Nat)
    (st' : WalkState) (deo' feo' dOff' : Nat),
    walkGoF fuel entries st parent deo feo dOff pd pf =
      some (st', deo', feo', dOff') →
    ∃ new, st'.fileEntries.map (fun e => e.dataOffset) =
        st.fileEntries.map (fun e => e.dataOffset) ++ new ∧
      monoFrom dOff new dOff' ∧
      (16 ∣ dOff → (∀ d ∈ new, 16 ∣ d) ∧ 16 ∣ dOff') := by
  intro fuel
  induction fuel with
  | zero =>
    intro entries st parent deo feo dOff pd pf st' deo' feo' dOff' h
    exact absurd h (by simp [walkGoF])
  | succ fuel ih =>
    intro entries st parent deo feo dOff pd pf st' deo' feo' dOff' h
    cases entries with
    | nil =>
      simp only [walkGoF, Option.some.injEq, Prod.mk.injEq] at h
      obtain ⟨h1, h2, h3, h4⟩ := h
      subst h1; subst h2; subst h3; subst h4
      exact ⟨[], by simp, le_refl _, fun hd => ⟨by simp, hd⟩⟩
    | cons e rest =>
      obtain ⟨name, v⟩ := e
      cases v with
      | file data =>
        simp only [walkGoF] at h
        obtain ⟨new', hmap', hmono', hdvd'⟩ := ih _ _ _ _ _ _ _ _ _ _ _ _ h
        refine ⟨dOff :: new', ?_, ?_, ?_⟩
        · rw [hmap', fileStep_map]
          simp
        · exact ⟨le_refl _, monoFrom_mono hmono' (Nat.le_add_right _ _)⟩
        · intro hd
          have hd2 : 16 ∣ dOff + romAlign data.length 0x10 :=
            Nat.dvd_add hd (romAlign_16_dvd _)
          obtain ⟨hall, hfin⟩ := hdvd' hd2
          refine ⟨fun d hdm => ?_, hfin⟩
          rcases List.mem_cons.mp hdm with h1 | h2
          · rw [h1]; exact hd
          · exact hall d h2
      | dir children =>
        simp only [walkGoF] at h
        split at h
        · exact absurd h (by simp)
        · rename_i st4 deo4 feo4 dOff4 hinner
          obtain ⟨new1, hmap1, hmono1, hdvd1⟩ := ih _ _ _ _ _ _ _ _ _ _ _ _ hinner
          obtain ⟨new2, hmap2, hmono2, hdvd2⟩ := ih _ _ _ _ _ _ _ _ _ _ _ _ h
          refine ⟨new1 ++ new2, ?_, monoFrom_append hmono1 hmono2, ?_⟩
          · rw [hmap2, hmap1, dirStep_fileEntries, List.append_assoc]
          · intro hd
            obtain ⟨hall1, hmid⟩ := hdvd1 hd
            obtain ⟨hall2, hfin⟩ := hdvd2 hmid
            refine ⟨fun d hdm => ?_, hfin⟩
            rcases List.mem_append.mp hdm with h1 | h2
            · exact hall1 d h1
            · exact hall2 d h2

/-- C8 (amended): in every completed encoder walk, every file entry's
dataOffset is a multiple of 16 and the dataOffsets are NON-DECREASING in
emission order (strict increase fails for zero-size files, whose aligned
size contributes 0 to the running data offset). -/
theorem walkFs_dataOffset_aligned_monotone (fuel : Nat) (fs : List (List Nat × RomVal))
    (st' : WalkState) (deo' feo' dOff' : Nat)
    (h : walkFsRun fuel fs = some (st', deo', feo', dOff')) :
    (∀ e ∈ st'.fileEntries, 16 ∣ e.dataOffset) ∧
      List.Chain' (fun a b => a ≤ b) (st'.fileEntries.map (fun e => e.dataOffset)) := by
  obtain ⟨new, hmap, hmono, hdvd⟩ :=
    walkGoF_spec fuel (sortByName fs) ⟨[rootDirEntry], []⟩ 0 DIR_ENTRY_SIZE 0 0
      none none st' deo' feo' dOff' h
  have hmap' : st'.fileEntries.map (fun e => e.dataOffset) = new := by
    simpa using hmap
  constructor
  · intro e he
    have hmem : e.dataOffset ∈ new := by
      rw [← hmap']
      exact List.mem_map_of_mem _ he
    exact (hdvd (dvd_zero 16)).1 _ hmem
  · rw [hmap']
    exact monoFrom_chain hmono

def romWitFs : List (List Nat × RomVal) :=
  [([98], RomVal.dir [([99], RomVal.file [4, 5])]), ([97], RomVal.file [1, 2, 3])]

/-- C8 witness: the amended theorem applied to a concrete two-file tree. -/
theorem walkFs_dataOffset_aligned_monotone_witness :
    ∃ r : WalkState × Nat × Nat × Nat, walkFsRun 5 romWitFs = some r ∧
      ((∀ e ∈ r.1.fileEntries, 16 ∣ e.dataOffset) ∧
        List.Chain' (fun a b => a ≤ b) (r.1.fileEntries.map (fun e => e.dataOffset))) :=
  ⟨_, rfl, walkFs_dataOffset_aligned_monotone 5 romWitFs _ _ _ _ rfl⟩

def romCexFs : List (List Nat × RomVal) :=
  [([97], RomVal.file []), ([98], RomVal.file [])]

/-- C8 counterexample: a RomFS holding two zero-size files gives both file
entries dataOffset 0, so the emission-order dataOffsets are NOT strictly
increasing. -/
theorem walkFs_dataOffset_repeat_cex :
    ∃ r : WalkState × Nat × Nat × Nat, walkFsRun 3 romCexFs = some r ∧
      r.1.fileEntries.map (fun e => e.dataOffset) = [0, 0] ∧
      ¬ List.Chain' (fun a b => a < b) (r.1.fileEntries.map (fun e => e.dataOffset)) :=
  ⟨_, rfl, rfl, by
    intro hch
    exact absurd (List.chain'_cons.mp hch).1 (lt_irrefl 0)⟩

/-! RomFS serialization: the byte-assembly part of `encode`. -/

/-- One dir entry's bytes: six u32 fields then the name (the six `setUint32`
calls at +0..+20 and `encodeInto` at +24 write one contiguous region). -/
def dirEntryBytes (e : DirEntry) : List Nat :=
  natToBytesLE 4 e.parentOffset ++ natToBytesLE 4 e.siblingOffset ++
    natToBytesLE 4 e.childOffset ++ natToBytesLE 4 e.fileOffset ++
    natToBytesLE 4 e.hashSiblingOffset ++ natToBytesLE 4 e.nameSize ++ e.name

/-- One file entry's bytes: u32, u32, u64, u64, u32, u32 then the name. -/
def fileEntryBytes (e : FileEntry) : List Nat :=
  natToBytesLE 4 e.parentOffset ++ natToBytesLE 4 e.siblingOffset ++
    natToBytesLE 8 e.dataOffset ++ natToBytesLE 8 e.dataSize ++
    natToBytesLE 4 e.hashSiblingOffset ++ natToBytesLE 4 e.nameSize ++ e.name

/-- `calcPathHash`: 32-bit rotate-right by 5 then xor the next path byte
(`(h >>> 5) | (h << 27)` with disjoint bit ranges rendered as `+`). -/
def calcPathHash (parent : Nat) (path : List Nat) (start pathLen : Nat) : Nat :=
  (List.range pathLen).foldl
    (fun hash i => (hash / 2 ^ 5 + hash * 2 ^ 27 % 2 ^ 32) ^^^ byteAt path (start + i))
    ((parent ^^^ 123456789) % 2 ^ 32)

def romfsGetHashTableCountGo : Nat → Nat → Option Nat
  | 0, _ => none
  | fuel + 1, count =>
    if count % 2 = 0 ∨ count % 3 = 0 ∨ count % 5 = 0 ∨ count % 7 = 0 ∨
        count % 11 = 0 ∨ count % 13 = 0 ∨ count % 17 = 0 then
      romfsGetHashTableCountGo fuel (count + 1)
    else some count

/-- `romfsGetHashTableCount` (the unbounded `while` is fuelled). -/
def romfsGetHashTableCount (fuel numEntries : Nat) : Option Nat :=
  if numEntries < 3 then some 3
  else if numEntries < 19 then some (numEntries ||| 1)
  else romfsGetHashTableCountGo fuel numEntries

/-- The dir-table population loop's hash bookkeeping: for each entry (index
`i`; index 0 is `rootDirEntry`, whose hash path is empty) chain
`hashSiblingOffset` through the hash table slot. Returns the patched entries
and the final hash table slots. The `find?` runs over the original entry
list, whose `offset` fields the patching never changes. -/
def dirHashPassGo (all : List DirEntry) (count : Nat) :
    List DirEntry → Nat → List Nat → List DirEntry → List DirEntry × List Nat
  | [], _, tbl, acc => (acc, tbl)
  | e :: rest, i, tbl, acc =>
    let parentOff := match all.find? (fun p => p.offset == e.parentOffset) with
      | some p => p.offset
      | none => 0
    let path := if i = 0 then [] else 0x2f :: e.name
    let hash := calcPathHash parentOff path 1 e.nameSize
    let slot := hash % count
    let e' := { e with hashSiblingOffset := tbl.getD slot 0 }
    dirHashPassGo all count rest (i + 1)
      (modifyAt tbl slot (fun _ => e.offset)) (acc ++ [e'])

def dirHashPass (entries : List DirEntry) (count : Nat) : List DirEntry × List Nat :=
  dirHashPassGo entries count entries 0 (List.replicate count ROMFS_ENTRY_EMPTY) []

/-- The file-table loop's hash bookkeeping (parent looked up among the dir
entries). -/
def fileHashPassGo (dirs : List DirEntry) (count : Nat) :
    List FileEntry → List Nat → List FileEntry → List FileEntry × List Nat
  | [], tbl, acc => (acc, tbl)
  | e :: rest, tbl, acc =>
    let parentOff := match dirs.find? (fun p => p.offset == e.parentOffset) with
      | some p => p.offset
      | none => 0
    let path := 0x2f :: e.name
    let hash := calcPathHash parentOff path 1 e.nameSize
    let slot := hash % count
    let e' := { e with hashSiblingOffset := tbl.getD slot 0 }
    fileHashPassGo dirs count rest
      (modifyAt tbl slot (fun _ => e.offset)) (acc ++ [e'])

def fileHashPass (dirs : List DirEntry) (entries : List FileEntry) (count : Nat) :
    List FileEntry × List Nat :=
  fileHashPassGo dirs count entries (List.replicate count ROMFS_ENTRY_EMPTY) []

def dirTableBytes (entries : List DirEntry) (size : Nat) : List Nat :=
  entries.foldl (fun buf e => writeBytes buf e.offset (dirEntryBytes e))
    (List.replicate size 0)

def fileTableBytes (entries : List FileEntry) (size : Nat) : List Nat :=
  entries.foldl (fun buf e => writeBytes buf e.offset (fileEntryBytes e))
    (List.replicate size 0)

/-- A `Uint32Array` written out as little-endian bytes. -/
def u32ListBytes (l : List Nat) : List Nat := (l.map (natToBytesLE 4)).flatten

/-- The file partition: each file's bytes, 16-aligned padding after every
file except the last. -/
def filePartBytes : List FileEntry → List Nat
  | [] => []
  | [f] => f.data
  | f :: rest =>
    f.data ++ List.replicate (romAlign f.data.length 0x10 - f.data.length) 0 ++
      filePartBytes rest

/-- `file_partition_size`: align the running size to 16 before adding each
file's size. -/
def filePartitionSize (entries : List FileEntry) : Nat :=
  entries.foldl (fun acc f => romAlign acc 0x10 + f.dataSize) 0

/-- `encode`: walk the tree, then emit header ‖ zero padding to 0x200 ‖ file
partition ‖ padding ‖ dir hash table ‖ dir table ‖ file hash table ‖ file
table (the paddings before the dir table and before/after the file hash
table are zero-length by construction and elided). -/
def encodeRomFs (fuel hashFuel : Nat) (fs : List (List Nat × RomVal)) :
    Option (List Nat) :=
  match walkFsRun fuel fs with
  | none => none
  | some (st, dirEntryOffset, fileEntryOffset, _) =>
    let fpsize := filePartitionSize st.fileEntries
    match romfsGetHashTableCount hashFuel st.dirEntries.length,
        romfsGetHashTableCount hashFuel st.fileEntries.length with
    | some dirHashCount, some fileHashCount =>
      let dirHashSize := 4 * dirHashCount
      let fileHashSize := 4 * fileHashCount
      let dirHashOfs := romAlign (fpsize + ROMFS_FILEPARTITION_OFS) 4
      let dirTableOfs := dirHashOfs + dirHashSize
      let fileHashOfs := dirTableOfs + dirEntryOffset
      let fileTableOfs := fileHashOfs + fileHashSize
      let header := natToBytesLE 8 ROMFS_HEADER_SIZE ++ natToBytesLE 8 dirHashOfs ++
        natToBytesLE 8 dirHashSize ++ natToBytesLE 8 dirTableOfs ++
        natToBytesLE 8 dirEntryOffset ++ natToBytesLE 8 fileHashOfs ++
        natToBytesLE 8 fileHashSize ++ natToBytesLE 8 fileTableOfs ++
        natToBytesLE 8 fileEntryOffset ++ natToBytesLE 8 ROMFS_FILEPARTITION_OFS
      let part := filePartBytes st.fileEntries
      some (header ++
        List.replicate (ROMFS_FILEPARTITION_OFS - ROMFS_HEADER_SIZE) 0 ++
        part ++
        List.replicate (dirHashOfs - (ROMFS_FILEPARTITION_OFS + part.length)) 0 ++
        u32ListBytes (dirHashPass st.dirEntries dirHashCount).2 ++
        dirTableBytes (dirHashPass st.dirEntries dirHashCount).1 dirEntryOffset ++
        u32ListBytes (fileHashPass st.dirEntries st.fileEntries fileHashCount).2 ++
        fileTableBytes (fileHashPass st.dirEntries st.fileEntries fileHashCount).1
          fileEntryOffset)
    | _, _ => none

/-! RomFS decoding (`parseHeader`, `parseDirEntry`, `parseFileEntry`,
`decode`). -/

structure RomHeader where
  headerSize : Nat
  dirHashBucketOffset : Nat
  dirHashBucketLength : Nat
  dirEntryOffset : Nat
  dirEntryLength : Nat
  fileHashBucketOffset : Nat
  fileHashBucketLength : Nat
  fileEntryOffset : Nat
  fileEntryLength : Nat
  dataOffset : Nat

def parseRomHeader (image : List Nat) : RomHeader :=
  ⟨readU64LE image 0, readU64LE image 0x8, readU64LE image 0x10, readU64LE image 0x18,
    readU64LE image 0x20, readU64LE image 0x28, readU64LE image 0x30,
    readU64LE image 0x38, readU64LE image 0x40, readU64LE image 0x48⟩

/-- Parsed file entry (`parseFileEntry`'s record; no blob). -/
structure PFileEntry where
  offset : Nat
  parentOffset : Nat
  siblingOffset : Nat
  dataOffset : Nat
  dataSize : Nat
  hashSiblingOffset : Nat
  nameSize : Nat
  name : List Nat
deriving DecidableEq

/-- `parseDirEntry`'s loop (fuelled): `buf` is the already-sliced table. -/
def parseDirGoF : Nat → List Nat → Nat → Nat → Option (List DirEntry)
  | 0, _, _, _ => none
  | fuel + 1, buf, tblLen, addr =>
    if addr < tblLen then
      let nameSize := readU32LE buf (addr + 20)
      let name := sliceBytes buf (addr + 24) (addr + 24 + nameSize)
      match parseDirGoF fuel buf tblLen (addr + romAlign (DIR_ENTRY_SIZE + nameSize) 4) with
      | none => none
      | some rest =>
        some (⟨addr, readU32LE buf addr, readU32LE buf (addr + 4),
          readU32LE buf (addr + 8), readU32LE buf (addr + 12),
          readU32LE buf (addr + 16), nameSize, name⟩ :: rest)
    else some []

/-- `parseFileEntry`'s loop (fuelled). -/
def parseFileGoF : Nat → List Nat → Nat → Nat → Option (List PFileEntry)
  | 0, _, _, _ => none
  | fuel + 1, buf, tblLen, addr =>
    if addr < tblLen then
      let nameSize := readU32LE buf (addr + 28)
      let name := sliceBytes buf (addr + 32) (addr + 32 + nameSize)
      match parseFileGoF fuel buf tblLen (addr + romAlign (FILE_ENTRY_SIZE + nameSize) 4) with
      | none => none
      | some rest =>
        some (⟨addr, readU32LE buf addr, readU32LE buf (addr + 4),
          readU64LE buf (addr + 8), readU64LE buf (addr + 16),
          readU32LE buf (addr + 24), nameSize, name⟩ :: rest)
    else some []

/-- A decoded directory object's value: a subdirectory (identified by its dir
entry offset, standing for the JS object reference — offsets are unique in
any table this decoder is run on) or a file's bytes. -/
inductive RomRef where
  | dirRef (off : Nat) : RomRef
  | fileRef (data : List Nat) : RomRef
deriving DecidableEq

/-- `dirsByOffset`: offset ↦ the object's key/value pairs in insertion
order. -/
def RomStore : Type := List (Nat × List (List Nat × RomRef))

instance : DecidableEq RomStore := by
  unfold RomStore
  infer_instance

/-- `Map.set`. -/
def storeSet : RomStore → Nat → List (List Nat × RomRef) → RomStore
  | [], off, v => [(off, v)]
  | (o, c) :: rest, off, v =>
    if o = off then (off, v) :: rest else (o, c) :: storeSet rest off v

/-- `Map.get`. -/
def storeGet (store : RomStore) (off : Nat) : Option (List (List Nat × RomRef)) :=
  (store.find? (fun p => p.1 == off)).map (fun p => p.2)

/-- JS `obj[key] = value`: replace in place if the key exists, else append. -/
def objInsert (k : List Nat) (v : RomRef) :
    List (List Nat × RomRef) → List (List Nat × RomRef)
  | [] => [(k, v)]
  | (k2, v2) :: rest =>
    if k2 = k then (k, v) :: rest else (k2, v2) :: objInsert k v rest

/-- decode's dir loop: create each dir object, and for non-root entries
attach it to the parent object (failing like the JS `throw` if the parent
offset is unknown). -/
def buildDirs : List DirEntry → RomStore → Option RomStore
  | [], store => some store
  | e :: rest, store =>
    let store1 := storeSet store e.offset []
    if e.offset = 0 then buildDirs rest store1
    else
      match storeGet store1 e.parentOffset with
      | none => none
      | some pc =>
        buildDirs rest (storeSet store1 e.parentOffset
          (objInsert e.name (RomRef.dirRef e.offset) pc))

/-- decode's file loop: slice the file's bytes out of the image and attach
them to the parent object. -/
def buildFiles (image : List Nat) (dataBase : Nat) :
    List PFileEntry → RomStore → Option RomStore
  | [], store => some store
  | f :: rest, store =>
    match storeGet store f.parentOffset with
    | none => none
    | some pc =>
      buildFiles image dataBase rest (storeSet store f.parentOffset
        (objInsert f.name
          (RomRef.fileRef (sliceBytes image (dataBase + f.dataOffset)
            (dataBase + f.dataOffset + f.dataSize))) pc))

/-- Resolve one object's key/value list, materializing subdirectory
references through `rec`. -/
def matChildren (rec : Nat → Option RomVal) :
    List (List Nat × RomRef) → Option (List (List Nat × RomVal))
  | [] => some []
  | (n, RomRef.fileRef d) :: rest =>
    match matChildren rec rest with
    | some r => some ((n, RomVal.file d) :: r)
    | none => none
  | (n, RomRef.dirRef off) :: rest =>
    match rec off, matChildren rec rest with
    | some v, some r => some ((n, v) :: r)
    | _, _ => none

/-- Materialize the object graph at `off` into a tree (fuelled on depth). -/
def matF : Nat → RomStore → Nat → Option RomVal
  | 0, _, _ => none
  | fuel + 1, store, off =>
    match storeGet store off with
    | none => none
    | some children =>
      match matChildren (matF fuel store) children with
      | some cs => some (RomVal.dir cs)
      | none => none

/-- `decode`: parse the header, the dir table and the file table, rebuild the
object graph, and return the root object's contents. -/
def decodeRomFs (pfuel mfuel : Nat) (image : List Nat) :
    Option (List (List Nat × RomVal)) :=
  let hdr := parseRomHeader image
  match parseDirGoF pfuel
      (sliceBytes image hdr.dirEntryOffset (hdr.dirEntryOffset + hdr.dirEntryLength))
      hdr.dirEntryLength 0 with
  | none => none
  | some dirEntries =>
    match buildDirs dirEntries [] with
    | none => none
    | some store =>
      match parseFileGoF pfuel
          (sliceBytes image hdr.fileEntryOffset
            (hdr.fileEntryOffset + hdr.fileEntryLength))
          hdr.fileEntryLength 0 with
      | none => none
      | some fileEntries =>
        match buildFiles image hdr.dataOffset fileEntries store with
        | none => none
        | some store2 =>
          match matF mfuel store2 0 with
          | some (RomVal.dir cs) => some cs
          | _ => none

/-- Canonicalize a tree: sort every directory's children by name,
recursively (fuelled on depth). -/
def sortChildrenWith (rec : RomVal → Option RomVal) :
    List (List Nat × RomVal) → Option (List (List Nat × RomVal))
  | [] => some []
  | (n, v) :: rest =>
    match rec v, sortChildrenWith rec rest with
    | some v', some r => some ((n, v') :: r)
    | _, _ => none

def sortTreeF : Nat → RomVal → Option RomVal
  | 0, _ => none
  | _ + 1, RomVal.file d => some (RomVal.file d)
  | fuel + 1, RomVal.dir cs =>
    match sortChildrenWith (sortTreeF fuel) cs with
    | some r => some (RomVal.dir (sortByName r))
    | none => none

def sortForestF (fuel : Nat) (cs : List (List Nat × RomVal)) :
    Option (List (List Nat × RomVal)) :=
  match sortChildrenWith (sortTreeF fuel) cs with
  | some r => some (sortByName r)
  | none => none

/-! Structural analysis of the walk: a stateless mirror of `walkGoF` that
collects only the mutation-free entry fields, in push order. -/

/-- The fields of a `DirEntry` never touched by the sibling/child/file
backpatching. -/
structure DirCore where
  offset : Nat
  parentOffset : Nat
  nameSize : Nat
  name : List Nat
deriving DecidableEq

/-- The fields of a `FileEntry` never touched by the backpatching. -/
structure FileCore where
  offset : Nat
  parentOffset : Nat
  dataOffset : Nat
  dataSize : Nat
  nameSize : Nat
  name : List Nat
  data : List Nat
deriving DecidableEq

def dirCore (e : DirEntry) : DirCore := ⟨e.offset, e.parentOffset, e.nameSize, e.name⟩

def fileCore (e : FileEntry) : FileCore :=
  ⟨e.offset, e.parentOffset, e.dataOffset, e.dataSize, e.nameSize, e.name, e.data⟩

/-- Stateless rendering of `walkGoF`'s counters and pushed entries: returns
the dir cores and file cores pushed by this loop (in push order) and the
final offset counters. `po` is the parent's entry offset. -/
def pureWalk : Nat → List (List Nat × RomVal) → Nat → Nat → Nat → Nat →
    Option (List DirCore × List FileCore × Nat × Nat × Nat)
  | 0, _, _, _, _, _ => none
  | _ + 1, [], _, deo, feo, dOff => some ([], [], deo, feo, dOff)
  | fuel + 1, (name, RomVal.file data) :: rest, po, deo, feo, dOff =>
    match pureWalk fuel rest po deo (feo + FILE_ENTRY_SIZE + romAlign name.length 4)
        (dOff + romAlign data.length 0x10) with
    | none => none
    | some (ds, fs, r) =>
      some (ds, ⟨feo, po, dOff, data.length, name.length, name, data⟩ :: fs, r)
  | fuel + 1, (name, RomVal.dir children) :: rest, po, deo, feo, dOff =>
    match pureWalk fuel (sortByName children) deo
        (deo + DIR_ENTRY_SIZE + romAlign name.length 4) feo dOff with
    | none => none
    | some (ds1, fs1, deo2, feo2, dOff2) =>
      match pureWalk fuel rest po deo2 feo2 dOff2 with
      | none => none
      | some (ds2, fs2, r) =>
        some (⟨deo, po, name.length, name⟩ :: (ds1 ++ ds2), fs1 ++ fs2, r)

theorem fileStep_dirEntries_map (st : WalkState) (parent feo dOff : Nat)
    (name data : List Nat) (pf : Option Nat) :
    (fileStep st parent feo dOff name data pf).dirEntries.map dirCore =
      st.dirEntries.map dirCore := by
  have hmod : ∀ (l : List DirEntry) (p v : Nat),
      (modifyAt l p (fun e => { e with fileOffset := v })).map dirCore =
        l.map dirCore := by
    intro l
    induction l with
    | nil => intro p v; rfl
    | cons x xs ih =>
      intro p v
      cases p with
      | zero => rfl
      | succ n => simp [modifyAt, ih n, dirCore]
  cases pf with
  | none =>
    simp only [fileStep]
    split
    · simp [setDirFile, hmod]
    · rfl
  | some p =>
    simp only [fileStep]
    split
    · simp [setDirFile, setFileSibling, hmod]
    · simp [setFileSibling]

theorem fileStep_fileEntries_map (st : WalkState) (parent feo dOff : Nat)
    (name data : List Nat) (pf : Option Nat) :
    (fileStep st parent feo dOff name data pf).fileEntries.map fileCore =
      st.fileEntries.map fileCore ++
        [⟨feo, (dirAt st parent).offset, dOff, data.length, name.length, name, data⟩] := by
  have hmod : ∀ (l : List FileEntry) (p v : Nat),
      (modifyAt l p (fun e => { e with siblingOffset := v })).map fileCore =
        l.map fileCore := by
    intro l
    induction l with
    | nil => intro p v; rfl
    | cons x xs ih =>
      intro p v
      cases p with
      | zero => rfl
      | succ n => simp [modifyAt, ih n, fileCore]
  cases pf with
  | none =>
    simp only [fileStep]
    split
    · simp [setDirFile, fileCore]
    · simp [fileCore]
  | some p =>
    simp only [fileStep]
    split
    · simp [setDirFile, setFileSibling, hmod, fileCore]
    · simp [setFileSibling, hmod, fileCore]

theorem dirStep_dirEntries_map (st : WalkState) (parent deo : Nat) (name : List Nat)
    (pd : Option Nat) :
    (dirStep st parent deo name pd).dirEntries.map dirCore =
      st.dirEntries.map dirCore ++
        [⟨deo, (dirAt st parent).offset, name.length, name⟩] := by
  have hmod : ∀ (l : List DirEntry) (p v : Nat) (f : DirEntry → DirEntry),
      (∀ e, dirCore (f e) = dirCore e) →
      (modifyAt l p f).map dirCore = l.map dirCore := by
    intro l
    induction l with
    | nil => intro p v f _; rfl
    | cons x xs ih =>
      intro p v f hf
      cases p with
      | zero => simp [modifyAt, hf]
      | succ n => simp [modifyAt, ih n v f hf]
  cases pd with
  | none =>
    simp only [dirStep]
    split
    · simp [setDirChild]
      rw [hmod _ parent deo (fun e => { e with childOffset := deo }) (fun e => rfl)]
      simp [dirCore]
    · simp [dirCore]
  | some p =>
    simp only [dirStep]
    split
    · simp [setDirChild, setDirSibling]
      rw [hmod _ parent deo (fun e => { e with childOffset := deo }) (fun e => rfl),
        hmod _ p deo (fun e => { e with siblingOffset := deo }) (fun e => rfl)]
      simp [dirCore]
    · simp [setDirSibling]
      rw [hmod _ p deo (fun e => { e with siblingOffset := deo }) (fun e => rfl)]
      simp [dirCore]

theorem getD_map {α β : Type} (f : α → β) :
    ∀ (l : List α) (i : Nat) (d : α), (l.map f).getD i (f d) = f (l.getD i d) := by
  intro l
  induction l with
  | nil => intro i d; rfl
  | cons x xs ih =>
    intro i d
    cases i with
    | zero => rfl
    | succ n => simp [ih n d]

theorem getD_append_left {α : Type} :
    ∀ (l l2 : List α) (i : Nat) (d : α), i < l.length →
      (l ++ l2).getD i d = l.getD i d := by
  intro l
  induction l with
  | nil => intro l2 i d h; simp at h
  | cons x xs ih =>
    intro l2 i d h
    cases i with
    | zero => rfl
    | succ n =>
      simp only [List.length_cons] at h
      exact ih l2 n d (by omega)

theorem getD_append_right_len {α : Type} :
    ∀ (l l2 : List α) (d : α), (l ++ l2).getD l.length d = l2.getD 0 d := by
  intro l
  induction l with
  | nil => intro l2 d; rfl
  | cons x xs ih => intro l2 d; simp only [List.cons_append]; exact ih l2 d

theorem length_of_map_append {α β : Type} {f : α → β} {l2 l1 : List α} {ext : List β}
    (h : l2.map f = l1.map f ++ ext) : l2.length = l1.length + ext.length := by
  have := congrArg List.length h
  simpa using this

theorem dirAt_offset_core (st : WalkState) (i : Nat) (cs : List DirCore)
    (h : st.dirEntries.map dirCore = cs) :
    (dirAt st i).offset = (cs.getD i ⟨0, 0, 0, []⟩).offset := by
  have h2 : (st.dirEntries.map dirCore).getD i (dirCore ⟨0, 0, 0, 0, 0, 0, 0, []⟩) =
      dirCore (st.dirEntries.getD i ⟨0, 0, 0, 0, 0, 0, 0, []⟩) :=
    getD_map dirCore st.dirEntries i _
  rw [h] at h2
  have : dirCore (dirAt st i) = cs.getD i ⟨0, 0, 0, []⟩ := by
    rw [dirAt, ← h2]
    rfl
  calc (dirAt st i).offset = (dirCore (dirAt st i)).offset := rfl
    _ = (cs.getD i ⟨0, 0, 0, []⟩).offset := by rw [this]

theorem walkGoF_pure : ∀ (fuel : Nat) (entries : List (List Nat × RomVal))
    (st : WalkState) (parent deo feo dOff : Nat) (pd pf : Option Nat)
    (st' : WalkState) (deo' feo' dOff' : Nat),
    walkGoF fuel entries st parent deo feo dOff pd pf =
      some (st', deo', feo', dOff') →
    parent < st.dirEntries.length →
    ∃ ds fs,
      pureWalk fuel entries (dirAt st parent).offset deo feo dOff =
        some (ds, fs, deo', feo', dOff') ∧
      st'.dirEntries.map dirCore = st.dirEntries.map dirCore ++ ds ∧
      st'.fileEntries.map fileCore = st.fileEntries.map fileCore ++ fs := by
  intro fuel
  induction fuel with
  | zero =>
    intro entries st parent deo feo dOff pd pf st' deo' feo' dOff' h hp
    exact absurd h (by simp [walkGoF])
  | succ fuel ih =>
    intro entries st parent deo feo dOff pd pf st' deo' feo' dOff' h hp
    cases entries with
    | nil =>
      simp only [walkGoF, Option.some.injEq, Prod.mk.injEq] at h
      obtain ⟨h1, h2, h3, h4⟩ := h
      subst h1; subst h2; subst h3; subst h4
      exact ⟨[], [], rfl, by simp, by simp⟩
    | cons e rest =>
      obtain ⟨name, v⟩ := e
      cases v with
      | file data =>
        simp only [walkGoF] at h
        have hp2 : parent < (fileStep st parent feo dOff name data pf).dirEntries.length := by
          have hlen : (fileStep st parent feo dOff name data pf).dirEntries.length =
              st.dirEntries.length := by
            have hmap := fileStep_dirEntries_map st parent feo dOff name data pf
            have := congrArg List.length hmap
            simpa using this
          omega
        obtain ⟨ds, fs, hpure, hdm, hfm⟩ := ih _ _ _ _ _ _ _ _ _ _ _ _ h hp2
        have hoff : (dirAt (fileStep st parent feo dOff name data pf) parent).offset =
            (dirAt st parent).offset := by
          rw [dirAt_offset_core _ parent _ (fileStep_dirEntries_map st parent feo dOff name data pf),
            dirAt_offset_core st parent _ rfl]
        rw [hoff] at hpure
        refine ⟨ds, ⟨feo, (dirAt st parent).offset, dOff, data.length, name.length, name, data⟩ :: fs,
          ?_, ?_, ?_⟩
        · simp only [pureWalk, hpure]
        · rw [hdm, fileStep_dirEntries_map]
        · rw [hfm, fileStep_fileEntries_map]
          simp
      | dir children =>
        simp only [walkGoF] at h
        split at h
        · exact absurd h (by simp)
        · rename_i st4 deo4 feo4 dOff4 hinner
          have hlen3 : (dirStep st parent deo name pd).dirEntries.length =
              st.dirEntries.length + 1 := by
            have := congrArg List.length (dirStep_dirEntries_map st parent deo name pd)
            simpa using this
          have hp3 : st.dirEntries.length < (dirStep st parent deo name pd).dirEntries.length := by
            omega
          obtain ⟨ds1, fs1, hpure1, hdm1, hfm1⟩ := ih _ _ _ _ _ _ _ _ _ _ _ _ hinner hp3
          have hoff1 : (dirAt (dirStep st parent deo name pd) st.dirEntries.length).offset
              = deo := by
            rw [dirAt_offset_core _ _ _ (dirStep_dirEntries_map st parent deo name pd)]
            have : (st.dirEntries.map dirCore ++
                [(⟨deo, (dirAt st parent).offset, name.length, name⟩ : DirCore)]).getD
                  st.dirEntries.length ⟨0, 0, 0, []⟩ =
                (⟨deo, (dirAt st parent).offset, name.length, name⟩ : DirCore) := by
              have hl : (st.dirEntries.map dirCore).length = st.dirEntries.length := by simp
              rw [← hl, getD_append_right_len]
              rfl
            rw [this]
          rw [hoff1] at hpure1
          have hlen4 : st4.dirEntries.length =
              st.dirEntries.length + 1 + ds1.length := by
            have h4 := length_of_map_append hdm1
            omega
          have hp4 : parent < st4.dirEntries.length := by omega
          obtain ⟨ds2, fs2, hpure2, hdm2, hfm2⟩ := ih _ _ _ _ _ _ _ _ _ _ _ _ h hp4
          have hoff4 : (dirAt st4 parent).offset = (dirAt st parent).offset := by
            rw [dirAt_offset_core st4 parent _ hdm1,
              dirAt_offset_core st parent _ rfl]
            rw [dirStep_dirEntries_map]
            rw [List.append_assoc]
            rw [getD_append_left _ _ parent _ (by simp [hp])]
          rw [hoff4] at hpure2
          refine ⟨⟨deo, (dirAt st parent).offset, name.length, name⟩ :: (ds1 ++ ds2),
            fs1 ++ fs2, ?_, ?_, ?_⟩
          · simp only [pureWalk, hpure1, hpure2]
          · rw [hdm2, hdm1, dirStep_dirEntries_map]
            simp
          · rw [hfm2, hfm1, dirStep_fileEntries]
            simp

/-- Dir entry offsets are consecutive in push order: each entry sits at the
running counter, advancing by `0x18 + align(nameSize, 4)`. -/
def dirLayout : Nat → List DirCore → Nat → Prop
  | lo, [], hi => lo = hi
  | lo, c :: rest, hi =>
    c.offset = lo ∧ c.nameSize = c.name.length ∧
      dirLayout (lo + DIR_ENTRY_SIZE + romAlign c.nameSize 4) rest hi

def fileLayout : Nat → List FileCore → Nat → Prop
  | lo, [], hi => lo = hi
  | lo, c :: rest, hi =>
    c.offset = lo ∧ c.nameSize = c.name.length ∧
      fileLayout (lo + FILE_ENTRY_SIZE + romAlign c.nameSize 4) rest hi

/-- File data offsets: each file's `dataOffset` is the running data counter,
`dataSize` its length, the counter advancing by `align(size, 16)`. -/
def partLayout : Nat → List FileCore → Nat → Prop
  | lo, [], hi => lo = hi
  | lo, f :: rest, hi =>
    f.dataOffset = lo ∧ f.dataSize = f.data.length ∧
      partLayout (lo + romAlign f.data.length 0x10) rest hi

theorem dirLayout_append : ∀ {l1 l2 : List DirCore} {lo mid hi : Nat},
    dirLayout lo l1 mid → dirLayout mid l2 hi → dirLayout lo (l1 ++ l2) hi := by
  intro l1
  induction l1 with
  | nil =>
    intro l2 lo mid hi h1 h2
    have : lo = mid := h1
    rw [this]
    exact h2
  | cons c rest ih =>
    intro l2 lo mid hi h1 h2
    exact ⟨h1.1, h1.2.1, ih h1.2.2 h2⟩

theorem fileLayout_append : ∀ {l1 l2 : List FileCore} {lo mid hi : Nat},
    fileLayout lo l1 mid → fileLayout mid l2 hi → fileLayout lo (l1 ++ l2) hi := by
  intro l1
  induction l1 with
  | nil =>
    intro l2 lo mid hi h1 h2
    have : lo = mid := h1
    rw [this]
    exact h2
  | cons c rest ih =>
    intro l2 lo mid hi h1 h2
    exact ⟨h1.1, h1.2.1, ih h1.2.2 h2⟩

theorem partLayout_append : ∀ {l1 l2 : List FileCore} {lo mid hi : Nat},
    partLayout lo l1 mid → partLayout mid l2 hi → partLayout lo (l1 ++ l2) hi := by
  intro l1
  induction l1 with
  | nil =>
    intro l2 lo mid hi h1 h2
    have : lo = mid := h1
    rw [this]
    exact h2
  | cons c rest ih =>
    intro l2 lo mid hi h1 h2
    exact ⟨h1.1, h1.2.1, ih h1.2.2 h2⟩

theorem pureWalk_layout : ∀ (fuel : Nat) (entries : List (List Nat × RomVal))
    (po deo feo dOff : Nat) (ds : List DirCore) (fs : List FileCore)
    (deo' feo' dOff' : Nat),
    pureWalk fuel entries po deo feo dOff = some (ds, fs, deo', feo', dOff') →
    dirLayout deo ds deo' ∧ fileLayout feo fs feo' ∧ partLayout dOff fs dOff' := by
  intro fuel
  induction fuel with
  | zero =>
    intro entries po deo feo dOff ds fs deo' feo' dOff' h
    exact absurd h (by simp [pureWalk])
  | succ fuel ih =>
    intro entries po deo feo dOff ds fs deo' feo' dOff' h
    cases entries with
    | nil =>
      simp only [pureWalk, Option.some.injEq, Prod.mk.injEq] at h
      obtain ⟨h1, h2, h3, h4, h5⟩ := h
      subst h1; subst h2; subst h3; subst h4; subst h5
      exact ⟨rfl, rfl, rfl⟩
    | cons e rest =>
      obtain ⟨name, v⟩ := e
      cases v with
      | file data =>
        simp only [pureWalk] at h
        split at h
        · exact absurd h (by simp)
        · rename_i ds0 fs0 r hrec
          obtain ⟨r1, r2, r3⟩ := r
          simp only [Option.some.injEq, Prod.mk.injEq] at h
          obtain ⟨h1, h2, h3, h4, h5⟩ := h
          subst h1; subst h2; subst h3; subst h4; subst h5
          obtain ⟨hd, hf, hp⟩ := ih _ _ _ _ _ _ _ _ _ _ hrec
          exact ⟨hd, ⟨rfl, rfl, hf⟩, ⟨rfl, rfl, hp⟩⟩
      | dir children =>
        simp only [pureWalk] at h
        split at h
        · exact absurd h (by simp)
        · rename_i ds1 fs1 deo2 feo2 dOff2 hrec1
          split at h
          · exact absurd h (by simp)
          · rename_i ds2 fs2 r hrec2
            obtain ⟨r1, r2, r3⟩ := r
            simp only [Option.some.injEq, Prod.mk.injEq] at h
            obtain ⟨h1, h2, h3, h4, h5⟩ := h
            subst h1; subst h2; subst h3; subst h4; subst h5
            obtain ⟨hd1, hf1, hp1⟩ := ih _ _ _ _ _ _ _ _ _ _ hrec1
            obtain ⟨hd2, hf2, hp2⟩ := ih _ _ _ _ _ _ _ _ _ _ hrec2
            exact ⟨⟨rfl, rfl, dirLayout_append hd1 hd2⟩,
              fileLayout_append hf1 hf2, partLayout_append hp1 hp2⟩

theorem dirLayout_bounds : ∀ {ds : List DirCore} {lo hi : Nat}, dirLayout lo ds hi →
    lo ≤ hi ∧ ∀ c ∈ ds, lo ≤ c.offset ∧
      c.offset + DIR_ENTRY_SIZE + romAlign c.nameSize 4 ≤ hi := by
  intro ds
  induction ds with
  | nil =>
    intro lo hi h
    exact ⟨le_of_eq h, by simp⟩
  | cons c rest ih =>
    intro lo hi h
    obtain ⟨hoff, _, hrest⟩ := h
    obtain ⟨hle, hall⟩ := ih hrest
    refine ⟨by omega, ?_⟩
    intro c2 hc2
    rcases List.mem_cons.mp hc2 with h1 | h2
    · subst h1
      omega
    · have := hall c2 h2
      omega

theorem fileLayout_bounds : ∀ {fs : List FileCore} {lo hi : Nat}, fileLayout lo fs hi →
    lo ≤ hi ∧ ∀ c ∈ fs, lo ≤ c.offset ∧
      c.offset + FILE_ENTRY_SIZE + romAlign c.nameSize 4 ≤ hi := by
  intro fs
  induction fs with
  | nil =>
    intro lo hi h
    exact ⟨le_of_eq h, by simp⟩
  | cons c rest ih =>
    intro lo hi h
    obtain ⟨hoff, _, hrest⟩ := h
    obtain ⟨hle, hall⟩ := ih hrest
    refine ⟨by omega, ?_⟩
    intro c2 hc2
    rcases List.mem_cons.mp hc2 with h1 | h2
    · subst h1
      omega
    · have := hall c2 h2
      omega

theorem partLayout_bounds : ∀ {fs : List FileCore} {lo hi : Nat}, partLayout lo fs hi →
    lo ≤ hi ∧ ∀ f ∈ fs, lo ≤ f.dataOffset ∧
      f.dataOffset + romAlign f.data.length 0x10 ≤ hi := by
  intro fs
  induction fs with
  | nil =>
    intro lo hi h
    exact ⟨le_of_eq h, by simp⟩
  | cons c rest ih =>
    intro lo hi h
    obtain ⟨hoff, _, hrest⟩ := h
    obtain ⟨hle, hall⟩ := ih hrest
    refine ⟨by omega, ?_⟩
    intro c2 hc2
    rcases List.mem_cons.mp hc2 with h1 | h2
    · subst h1
      omega
    · have := hall c2 h2
      omega

theorem dirLayout_pairwise : ∀ {ds : List DirCore} {lo hi : Nat}, dirLayout lo ds hi →
    List.Pairwise (fun a b => a.offset < b.offset) ds := by
  intro ds
  induction ds with
  | nil => intro lo hi _; exact List.Pairwise.nil
  | cons c rest ih =>
    intro lo hi h
    obtain ⟨hoff, _, hrest⟩ := h
    refine List.Pairwise.cons ?_ (ih hrest)
    intro b hb
    have hD : DIR_ENTRY_SIZE = 0x18 := rfl
    have := (dirLayout_bounds hrest).2 b hb
    omega

theorem fileLayout_pairwise : ∀ {fs : List FileCore} {lo hi : Nat}, fileLayout lo fs hi →
    List.Pairwise (fun a b => a.offset < b.offset) fs := by
  intro fs
  induction fs with
  | nil => intro lo hi _; exact List.Pairwise.nil
  | cons c rest ih =>
    intro lo hi h
    obtain ⟨hoff, _, hrest⟩ := h
    refine List.Pairwise.cons ?_ (ih hrest)
    intro b hb
    have hF : FILE_ENTRY_SIZE = 0x20 := rfl
    have := (fileLayout_bounds hrest).2 b hb
    omega

theorem pureWalk_parents : ∀ (fuel : Nat) (entries : List (List Nat × RomVal))
    (po deo feo dOff : Nat) (ds : List DirCore) (fs : List FileCore)
    (deo' feo' dOff' : Nat),
    pureWalk fuel entries po deo feo dOff = some (ds, fs, deo', feo', dOff') →
    (∀ c ∈ ds, c.parentOffset = po ∨ c.parentOffset ∈ ds.map (fun x => x.offset)) ∧
    (∀ f ∈ fs, f.parentOffset = po ∨ f.parentOffset ∈ ds.map (fun x => x.offset)) := by
  intro fuel
  induction fuel with
  | zero =>
    intro entries po deo feo dOff ds fs deo' feo' dOff' h
    exact absurd h (by simp [pureWalk])
  | succ fuel ih =>
    intro entries po deo feo dOff ds fs deo' feo' dOff' h
    cases entries with
    | nil =>
      simp only [pureWalk, Option.some.injEq, Prod.mk.injEq] at h
      obtain ⟨h1, h2, _⟩ := h
      subst h1; subst h2
      exact ⟨by simp, by simp⟩
    | cons e rest =>
      obtain ⟨name, v⟩ := e
      cases v with
      | file data =>
        simp only [pureWalk] at h
        split at h
        · exact absurd h (by simp)
        · rename_i ds0 fs0 r hrec
          simp only [Option.some.injEq, Prod.mk.injEq] at h
          obtain ⟨h1, h2, _⟩ := h
          subst h1; subst h2
          obtain ⟨hd, hf⟩ := ih _ _ _ _ _ _ _ _ _ _ hrec
          refine ⟨hd, ?_⟩
          intro f hf2
          rcases List.mem_cons.mp hf2 with h1 | h2
          · subst h1
            exact Or.inl rfl
          · exact hf f h2
      | dir children =>
        simp only [pureWalk] at h
        split at h
        · exact absurd h (by simp)
        · rename_i ds1 fs1 deo2 feo2 dOff2 hrec1
          split at h
          · exact absurd h (by simp)
          · rename_i ds2 fs2 r hrec2
            simp only [Option.some.injEq, Prod.mk.injEq] at h
            obtain ⟨h1, h2, _⟩ := h
            subst h1; subst h2
            obtain ⟨hd1, hf1⟩ := ih _ _ _ _ _ _ _ _ _ _ hrec1
            obtain ⟨hd2, hf2⟩ := ih _ _ _ _ _ _ _ _ _ _ hrec2
            constructor
            · intro c hc
              rcases List.mem_cons.mp hc with h1 | h2
              · subst h1
                exact Or.inl rfl
              · rcases List.mem_append.mp h2 with h3 | h4
                · rcases hd1 c h3 with h5 | h6
                  · right
                    simp [h5]
                  · right
                    simp only [List.map_cons, List.map_append, List.mem_cons,
                      List.mem_append]
                    right
                    left
                    simpa using h6
                · rcases hd2 c h4 with h5 | h6
                  · exact Or.inl h5
                  · right
                    simp only [List.map_cons, List.map_append, List.mem_cons,
                      List.mem_append]
                    right
                    right
                    simpa using h6
            · intro f hf
              rcases List.mem_append.mp hf with h3 | h4
              · rcases hf1 f h3 with h5 | h6
                · right
                  simp [h5]
                · right
                  simp only [List.map_cons, List.map_append, List.mem_cons,
                    List.mem_append]
                  right
                  left
                  simpa using h6
              · rcases hf2 f h4 with h5 | h6
                · exact Or.inl h5
                · right
                  simp only [List.map_cons, List.map_append, List.mem_cons,
                    List.mem_append]
                  right
                  right
                  simpa using h6

/-- Every entry's parent offset occurs among the offsets available before it
(`prior` plus the previously pushed entries). -/
def parentsPrecede : List Nat → List DirCore → Prop
  | _, [] => True
  | prior, c :: rest =>
    c.parentOffset ∈ prior ∧ parentsPrecede (prior ++ [c.offset]) rest

theorem parentsPrecede_mono : ∀ {ds : List DirCore} {prior prior' : List Nat},
    parentsPrecede prior ds → (∀ x ∈ prior, x ∈ prior') →
    parentsPrecede prior' ds := by
  intro ds
  induction ds with
  | nil => intro prior prior' _ _; trivial
  | cons c rest ih =>
    intro prior prior' h hsub
    refine ⟨hsub _ h.1, ih h.2 ?_⟩
    intro x hx
    rcases List.mem_append.mp hx with h1 | h2
    · exact List.mem_append.mpr (Or.inl (hsub x h1))
    · exact List.mem_append.mpr (Or.inr h2)

theorem parentsPrecede_append : ∀ {l1 l2 : List DirCore} {prior : List Nat},
    parentsPrecede prior l1 →
    parentsPrecede (prior ++ l1.map (fun c => c.offset)) l2 →
    parentsPrecede prior (l1 ++ l2) := by
  intro l1
  induction l1 with
  | nil =>
    intro l2 prior _ h2
    simpa using h2
  | cons c rest ih =>
    intro l2 prior h1 h2
    refine ⟨h1.1, ih h1.2 ?_⟩
    apply parentsPrecede_mono h2
    intro x hx
    simp only [List.map_cons, List.append_assoc, List.singleton_append] at hx ⊢
    exact hx

theorem pureWalk_precede : ∀ (fuel : Nat) (entries : List (List Nat × RomVal))
    (po deo feo dOff : Nat) (ds : List DirCore) (fs : List FileCore)
    (deo' feo' dOff' : Nat),
    pureWalk fuel entries po deo feo dOff = some (ds, fs, deo', feo', dOff') →
    ∀ prior, po ∈ prior → parentsPrecede prior ds := by
  intro fuel
  induction fuel with
  | zero =>
    intro entries po deo feo dOff ds fs deo' feo' dOff' h
    exact absurd h (by simp [pureWalk])
  | succ fuel ih =>
    intro entries po deo feo dOff ds fs deo' feo' dOff' h prior hpo
    cases entries with
    | nil =>
      simp only [pureWalk, Option.some.injEq, Prod.mk.injEq] at h
      obtain ⟨h1, _⟩ := h
      subst h1
      trivial
    | cons e rest =>
      obtain ⟨name, v⟩ := e
      cases v with
      | file data =>
        simp only [pureWalk] at h
        split at h
        · exact absurd h (by simp)
        · rename_i ds0 fs0 r hrec
          simp only [Option.some.injEq, Prod.mk.injEq] at h
          obtain ⟨h1, _⟩ := h
          subst h1
          exact ih _ _ _ _ _ _ _ _ _ _ hrec prior hpo
      | dir children =>
        simp only [pureWalk] at h
        split at h
        · exact absurd h (by simp)
        · rename_i ds1 fs1 deo2 feo2 dOff2 hrec1
          split at h
          · exact absurd h (by simp)
          · rename_i ds2 fs2 r hrec2
            simp only [Option.some.injEq, Prod.mk.injEq] at h
            obtain ⟨h1, _⟩ := h
            subst h1
            refine ⟨hpo, ?_⟩
            apply parentsPrecede_append
            · exact ih _ _ _ _ _ _ _ _ _ _ hrec1 _ (by simp)
            · apply ih _ _ _ _ _ _ _ _ _ _ hrec2
              simp only [List.mem_append] at hpo ⊢
              left
              left
              exact hpo

/-! Order theory for `sortByName` (insertion sort on byte-list names). -/

theorem byteListLt_irrefl : ∀ a : List Nat, byteListLt a a = false := by
  intro a
  induction a with
  | nil => rfl
  | cons x xs ih => simp [byteListLt, ih]

theorem byteListLt_trans : ∀ (a b c : List Nat), byteListLt a b = true →
    byteListLt b c = true → byteListLt a c = true := by
  intro a
  induction a with
  | nil =>
    intro b c hab hbc
    cases b with
    | nil => simp [byteListLt] at hab
    | cons y ys =>
      cases c with
      | nil => simp [byteListLt] at hbc
      | cons z zs => rfl
  | cons x xs ih =>
    intro b c hab hbc
    cases b with
    | nil => simp [byteListLt] at hab
    | cons y ys =>
      cases c with
      | nil => simp [byteListLt] at hbc
      | cons z zs =>
        simp only [byteListLt] at hab hbc ⊢
        by_cases hxy : x < y
        · by_cases hyz : y < z
          · rw [if_pos (by omega)]
          · rw [if_neg hyz] at hbc
            by_cases hzy : z < y
            · rw [if_pos hzy] at hbc
              exact absurd hbc (by simp)
            · rw [if_pos (by omega)]
        · rw [if_neg hxy] at hab
          by_cases hyx : y < x
          · rw [if_pos hyx] at hab
            exact absurd hab (by simp)
          · rw [if_neg hyx] at hab
            by_cases hyz : y < z
            · rw [if_pos (by omega)]
            · rw [if_neg hyz] at hbc
              by_cases hzy : z < y
              · rw [if_pos hzy] at hbc
                exact absurd hbc (by simp)
              · rw [if_neg hzy] at hbc
                rw [if_neg (by omega), if_neg (by omega)]
                exact ih ys zs hab hbc

theorem byteListLt_total : ∀ (a b : List Nat),
    byteListLt a b = true ∨ byteListLt b a = true ∨ a = b := by
  intro a
  induction a with
  | nil =>
    intro b
    cases b with
    | nil => right; right; rfl
    | cons y ys => left; rfl
  | cons x xs ih =>
    intro b
    cases b with
    | nil => right; left; rfl
    | cons y ys =>
      by_cases hxy : x < y
      · left
        simp [byteListLt, hxy]
      · by_cases hyx : y < x
        · right; left
          simp [byteListLt, hyx]
        · have hxy2 : x = y := by omega
          subst hxy2
          rcases ih ys with h1 | h2 | h3
          · left
            simp [byteListLt, h1]
          · right; left
            simp [byteListLt, h2]
          · right; right
            rw [h3]

theorem byteListLt_asymm {a b : List Nat} (h : byteListLt a b = true) :
    byteListLt b a = false := by
  by_cases h2 : byteListLt b a = true
  · have := byteListLt_trans a b a h h2
    rw [byteListLt_irrefl] at this
    exact absurd this (by simp)
  · simpa using h2

/-- "p sorts no later than q": q's name is not strictly below p's. -/
def nameLe (p q : List Nat × RomVal) : Prop := byteListLt q.1 p.1 = false

theorem insertSorted_perm (x : List Nat × RomVal) :
    ∀ l : List (List Nat × RomVal), List.Perm (insertSorted x l) (x :: l) := by
  intro l
  induction l with
  | nil => exact List.Perm.refl _
  | cons y ys ih =>
    simp only [insertSorted]
    split
    · exact List.Perm.trans (List.Perm.cons y ih) (List.Perm.swap x y ys)
    · exact List.Perm.refl _

theorem sortByName_perm (l : List (List Nat × RomVal)) :
    List.Perm (sortByName l) l := by
  induction l with
  | nil => exact List.Perm.refl _
  | cons x xs ih =>
    have h1 : sortByName (x :: xs) = insertSorted x (sortByName xs) := rfl
    rw [h1]
    exact List.Perm.trans (insertSorted_perm x (sortByName xs)) (List.Perm.cons x ih)

theorem nameLe_trans3 {p q r : List Nat × RomVal}
    (h1 : nameLe p q) (h2 : nameLe q r) : nameLe p r := by
  unfold nameLe at h1 h2 ⊢
  by_cases h : byteListLt r.1 p.1 = true
  · rcases byteListLt_total q.1 r.1 with ha | hb | hc
    · have := byteListLt_trans _ _ _ ha h
      rw [this] at h1
      exact absurd h1 (by simp)
    · rw [hb] at h2
      exact absurd h2 (by simp)
    · rw [← hc] at h
      rw [h] at h1
      exact absurd h1 (by simp)
  · simpa using h

theorem insertSorted_sorted (x : List Nat × RomVal) :
    ∀ l : List (List Nat × RomVal), List.Pairwise nameLe l →
      List.Pairwise nameLe (insertSorted x l) := by
  intro l
  induction l with
  | nil => intro _; simp [insertSorted, List.Pairwise.nil]
  | cons y ys ih =>
    intro h
    obtain ⟨hy, hys⟩ := List.pairwise_cons.mp h
    simp only [insertSorted]
    split
    · rename_i hlt
      refine List.pairwise_cons.mpr ⟨?_, ih hys⟩
      intro z hz
      have hz2 := (insertSorted_perm x ys).mem_iff.mp hz
      rcases List.mem_cons.mp hz2 with h1 | h2
      · subst h1
        exact byteListLt_asymm hlt
      · exact hy z h2
    · rename_i hnlt
      refine List.pairwise_cons.mpr ⟨?_, h⟩
      intro z hz
      rcases List.mem_cons.mp hz with h1 | h2
      · subst h1
        simpa using hnlt
      · exact nameLe_trans3 (p := x) (q := y) (by simpa using hnlt) (hy z h2)

theorem sortByName_sorted (l : List (List Nat × RomVal)) :
    List.Pairwise nameLe (sortByName l) := by
  induction l with
  | nil => exact List.Pairwise.nil
  | cons x xs ih => exact insertSorted_sorted x (sortByName xs) ih

theorem sorted_perm_eq : ∀ (l1 l2 : List (List Nat × RomVal)),
    List.Perm l1 l2 → List.Pairwise nameLe l1 → List.Pairwise nameLe l2 →
    (l1.map (fun p => p.1)).Nodup → l1 = l2 := by
  intro l1
  induction l1 with
  | nil =>
    intro l2 hp _ _ _
    exact (List.Perm.nil_eq hp).symm ▸ rfl
  | cons x xs ih =>
    intro l2 hp hs1 hs2 hnd
    cases l2 with
    | nil => exact absurd hp.symm (by simp)
    | cons y ys =>
      obtain ⟨hx1, hxs1⟩ := List.pairwise_cons.mp hs1
      obtain ⟨hy2, hys2⟩ := List.pairwise_cons.mp hs2
      have hxy : x = y := by
        have hxin : x ∈ y :: ys := hp.mem_iff.mp (by simp)
        have hyin : y ∈ x :: xs := hp.symm.mem_iff.mp (by simp)
        rcases List.mem_cons.mp hxin with h1 | h2
        · exact h1
        · rcases List.mem_cons.mp hyin with h3 | h4
          · exact h3.symm
          · have hle1 : nameLe x y := hx1 y h4
            have hle2 : nameLe y x := hy2 x h2
            unfold nameLe at hle1 hle2
            rcases byteListLt_total x.1 y.1 with ha | hb | hc
            · rw [ha] at hle2
              exact absurd hle2 (by simp)
            · rw [hb] at hle1
              exact absurd hle1 (by simp)
            · exfalso
              simp only [List.map_cons, List.nodup_cons] at hnd
              exact hnd.1 (hc ▸ List.mem_map_of_mem (fun p => p.1) h4)
      subst hxy
      have htail : List.Perm xs ys := hp.cons_inv
      have : xs = ys := by
        apply ih ys htail hxs1 hys2
        simp only [List.map_cons, List.nodup_cons] at hnd
        exact hnd.2
      rw [this]

def isDirP : (List Nat × RomVal) → Bool
  | (_, RomVal.dir _) => true
  | (_, RomVal.file _) => false

/-- A directory's subdirectory children, sorted by name (as name/value
pairs). -/
def dirKidsOf (cs : List (List Nat × RomVal)) : List (List Nat × RomVal) :=
  (sortByName cs).filter isDirP

def fileKidsOf (cs : List (List Nat × RomVal)) : List (List Nat × RomVal) :=
  (sortByName cs).filter (fun q => !(isDirP q))

def forestOf : RomVal → List (List Nat × RomVal)
  | RomVal.dir cs => cs
  | RomVal.file _ => []

/-- The entry tables represent the forest `cs` at parent offset `po`: the
file entries filtered by parent are exactly the sorted file children, the dir
entries filtered by parent carry the sorted subdirectory names, and each such
dir entry's offset recursively represents the corresponding subdirectory. -/
inductive RepAt (dEs : List DirCore) (fEs : List FileCore) :
    Nat → List (List Nat × RomVal) → Prop where
  | intro (po : Nat) (cs : List (List Nat × RomVal))
      (hfiles : (fEs.filter (fun f => f.parentOffset == po)).map
          (fun f => (f.name, RomVal.file f.data)) = fileKidsOf cs)
      (hnames : (dEs.filter (fun e => e.parentOffset == po)).map (fun e => e.name) =
          (dirKidsOf cs).map (fun q => q.1))
      (hrec : ∀ i, i < (dirKidsOf cs).length →
          RepAt dEs fEs
            ((dEs.filter (fun e => e.parentOffset == po)).getD i ⟨0, 0, 0, []⟩).offset
            (forestOf ((dirKidsOf cs).getD i ([], RomVal.dir [])).2)) :
      RepAt dEs fEs po cs

theorem getD_mem {α : Type} (l : List α) (i : Nat) (d : α) (h : i < l.length) :
    l.getD i d ∈ l := by
  rw [List.getD_eq_getElem?_getD, List.getElem?_eq_getElem h]
  exact List.getElem_mem _

theorem RepAt_frame : ∀ {dEs : List DirCore} {fEs : List FileCore} {po : Nat}
    {cs : List (List Nat × RomVal)}, RepAt dEs fEs po cs →
    ∀ (preD postD : List DirCore) (preF postF : List FileCore),
    (∀ e ∈ preD ++ postD, e.parentOffset ≠ po ∧
      e.parentOffset ∉ dEs.map (fun c => c.offset)) →
    (∀ f ∈ preF ++ postF, f.parentOffset ≠ po ∧
      f.parentOffset ∉ dEs.map (fun c => c.offset)) →
    RepAt (preD ++ dEs ++ postD) (preF ++ fEs ++ postF) po cs := by
  intro dEs fEs po cs h
  induction h with
  | intro po cs hfiles hnames hrec ih =>
    intro preD postD preF postF hD hF
    have hfilD : ∀ po', (po' = po ∨ po' ∈ dEs.map (fun c => c.offset)) →
        (preD ++ dEs ++ postD).filter (fun e => e.parentOffset == po') =
          dEs.filter (fun e => e.parentOffset == po') := by
      intro po' hpo'
      rw [List.append_assoc, List.filter_append, List.filter_append]
      have h1 : preD.filter (fun e => e.parentOffset == po') = [] := by
        rw [List.filter_eq_nil_iff]
        intro e he
        have := hD e (List.mem_append.mpr (Or.inl he))
        simp only [beq_iff_eq]
        rcases hpo' with ha | hb
        · rw [ha]; exact this.1
        · intro hc; rw [hc] at this; exact this.2 hb
      have h2 : postD.filter (fun e => e.parentOffset == po') = [] := by
        rw [List.filter_eq_nil_iff]
        intro e he
        have := hD e (List.mem_append.mpr (Or.inr he))
        simp only [beq_iff_eq]
        rcases hpo' with ha | hb
        · rw [ha]; exact this.1
        · intro hc; rw [hc] at this; exact this.2 hb
      rw [h1, h2]
      simp
    have hfilF : (preF ++ fEs ++ postF).filter (fun f => f.parentOffset == po) =
        fEs.filter (fun f => f.parentOffset == po) := by
      rw [List.append_assoc, List.filter_append, List.filter_append]
      have h1 : preF.filter (fun f => f.parentOffset == po) = [] := by
        rw [List.filter_eq_nil_iff]
        intro f hf
        have := hF f (List.mem_append.mpr (Or.inl hf))
        simp only [beq_iff_eq]
        exact this.1
      have h2 : postF.filter (fun f => f.parentOffset == po) = [] := by
        rw [List.filter_eq_nil_iff]
        intro f hf
        have := hF f (List.mem_append.mpr (Or.inr hf))
        simp only [beq_iff_eq]
        exact this.1
      rw [h1, h2]
      simp
    refine RepAt.intro po cs ?_ ?_ ?_
    · rw [hfilF]
      exact hfiles
    · rw [hfilD po (Or.inl rfl)]
      exact hnames
    · intro i hi
      rw [hfilD po (Or.inl rfl)]
      have hlen : (dEs.filter (fun e => e.parentOffset == po)).length =
          (dirKidsOf cs).length := by
        have := congrArg List.length hnames
        simpa using this
      have hmem : (dEs.filter (fun e => e.parentOffset == po)).getD i ⟨0, 0, 0, []⟩ ∈
          dEs.filter (fun e => e.parentOffset == po) :=
        getD_mem _ i _ (by omega)
      have hmem2 : (dEs.filter (fun e => e.parentOffset == po)).getD i ⟨0, 0, 0, []⟩ ∈
          dEs := List.mem_of_mem_filter hmem
      exact ih i hi preD postD preF postF
        (fun e he => ⟨fun hc => (hD e he).2
            (by rw [hc]; exact List.mem_map_of_mem _ hmem2), (hD e he).2⟩)
        (fun f hf => ⟨fun hc => (hF f hf).2
            (by rw [hc]; exact List.mem_map_of_mem _ hmem2), (hF f hf).2⟩)

theorem dirLayout_offset_mem {ds : List DirCore} {lo hi : Nat} (h : dirLayout lo ds hi) :
    ∀ x ∈ ds.map (fun c => c.offset), lo ≤ x ∧ x < hi := by
  intro x hx
  obtain ⟨c, hc, hcx⟩ := List.mem_map.mp hx
  have hb := (dirLayout_bounds h).2 c hc
  have hD : DIR_ENTRY_SIZE = 0x18 := rfl
  omega

theorem pureWalk_rep_go : ∀ (fuel : Nat) (scs : List (List Nat × RomVal))
    (po deo feo dOff : Nat) (ds : List DirCore) (fs : List FileCore)
    (deo' feo' dOff' : Nat),
    pureWalk fuel scs po deo feo dOff = some (ds, fs, deo', feo', dOff') →
    po < deo →
    ((fs.filter (fun f => f.parentOffset == po)).map
        (fun f => (f.name, RomVal.file f.data)) = scs.filter (fun q => !(isDirP q))) ∧
    ((ds.filter (fun e => e.parentOffset == po)).map (fun e => e.name) =
        (scs.filter isDirP).map (fun q => q.1)) ∧
    (∀ i, i < (scs.filter isDirP).length →
      RepAt ds fs ((ds.filter (fun e => e.parentOffset == po)).getD i ⟨0, 0, 0, []⟩).offset
        (forestOf ((scs.filter isDirP).getD i ([], RomVal.dir [])).2)) := by
  intro fuel
  induction fuel with
  | zero =>
    intro scs po deo feo dOff ds fs deo' feo' dOff' h
    exact absurd h (by simp [pureWalk])
  | succ fuel ih =>
    intro scs po deo feo dOff ds fs deo' feo' dOff' h hpo
    cases scs with
    | nil =>
      simp only [pureWalk, Option.some.injEq, Prod.mk.injEq] at h
      obtain ⟨h1, h2, _⟩ := h
      subst h1; subst h2
      exact ⟨rfl, rfl, fun i hi => by simp at hi⟩
    | cons e rest =>
      obtain ⟨name, v⟩ := e
      cases v with
      | file data =>
        simp only [pureWalk] at h
        split at h
        · exact absurd h (by simp)
        · rename_i ds0 fs0 r hrec
          simp only [Option.some.injEq, Prod.mk.injEq] at h
          obtain ⟨h1, h2, _⟩ := h
          subst h1; subst h2
          obtain ⟨hc1, hc2, hc3⟩ := ih _ _ _ _ _ _ _ _ _ _ hrec hpo
          have hlay := (pureWalk_layout _ _ _ _ _ _ _ _ _ _ _ hrec).1
          have hlen2 : (ds0.filter (fun e => e.parentOffset == po)).length =
              (rest.filter isDirP).length := by
            have := congrArg List.length hc2
            simpa using this
          refine ⟨?_, ?_, ?_⟩
          · simp [List.filter_cons, isDirP, hc1]
          · simpa [isDirP] using hc2
          · intro i hi
            have hi2 : i < (rest.filter isDirP).length := by
              simpa [isDirP] using hi
            have hrep := hc3 i hi2
            have hchild_mem : ((ds0.filter (fun e => e.parentOffset == po)).getD i
                ⟨0, 0, 0, []⟩) ∈ ds0 := by
              apply List.mem_of_mem_filter (p := fun e => e.parentOffset == po)
              apply getD_mem
              omega
            have hchild_off := dirLayout_offset_mem hlay _
              (List.mem_map_of_mem _ hchild_mem)
            have hframe := RepAt_frame hrep [] []
              [⟨feo, po, dOff, data.length, name.length, name, data⟩] []
              (by simp)
              (by
                intro f hf
                simp only [List.append_nil, List.mem_singleton] at hf
                subst hf
                refine ⟨?_, ?_⟩
                · show po ≠ _
                  omega
                · show po ∉ _
                  intro hin
                  have := dirLayout_offset_mem hlay _ hin
                  omega)
            simp only [List.nil_append, List.append_nil] at hframe
            simp only [List.filter_cons, isDirP, Bool.not_true, Bool.not_false] at hi ⊢
            simpa [isDirP] using hframe
      | dir children =>
        simp only [pureWalk] at h
        split at h
        · exact absurd h (by simp)
        · rename_i ds1 fs1 deo2 feo2 dOff2 hrec1
          split at h
          · exact absurd h (by simp)
          · rename_i ds2 fs2 r hrec2
            simp only [Option.some.injEq, Prod.mk.injEq] at h
            obtain ⟨h1, h2, _⟩ := h
            subst h1; subst h2
            have hD : DIR_ENTRY_SIZE = 0x18 := rfl
            have hlay1 := (pureWalk_layout _ _ _ _ _ _ _ _ _ _ _ hrec1).1
            have hlay2 := (pureWalk_layout _ _ _ _ _ _ _ _ _ _ _ hrec2).1
            have hflay1 := (pureWalk_layout _ _ _ _ _ _ _ _ _ _ _ hrec1).2.1
            have hpar1 := pureWalk_parents _ _ _ _ _ _ _ _ _ _ _ hrec1
            have hpar2 := pureWalk_parents _ _ _ _ _ _ _ _ _ _ _ hrec2
            have hdeo2 : deo + DIR_ENTRY_SIZE + romAlign name.length 4 ≤ deo2 :=
              (dirLayout_bounds hlay1).1
            obtain ⟨ic1, ic2, ic3⟩ := ih _ _ _ _ _ _ _ _ _ _ hrec1 (by omega)
            have hrepInner : RepAt ds1 fs1 deo children :=
              RepAt.intro deo children ic1 ic2 ic3
            obtain ⟨oc1, oc2, oc3⟩ := ih _ _ _ _ _ _ _ _ _ _ hrec2 (by omega)
            have hfilds1 : ds1.filter (fun e => e.parentOffset == po) = [] := by
              rw [List.filter_eq_nil_iff]
              intro c hc
              simp only [beq_iff_eq]
              intro hcp
              rcases hpar1.1 c hc with hA | hB
              · omega
              · have := dirLayout_offset_mem hlay1 _ (by simpa using hB)
                omega
            have hfilfs1 : fs1.filter (fun f => f.parentOffset == po) = [] := by
              rw [List.filter_eq_nil_iff]
              intro c hc
              simp only [beq_iff_eq]
              intro hcp
              rcases hpar1.2 c hc with hA | hB
              · omega
              · have := dirLayout_offset_mem hlay1 _ (by simpa using hB)
                omega
            have hdf : ((⟨deo, po, name.length, name⟩ : DirCore) :: (ds1 ++ ds2)).filter
                (fun e => e.parentOffset == po) =
                (⟨deo, po, name.length, name⟩ : DirCore) ::
                  ds2.filter (fun e => e.parentOffset == po) := by
              simp [List.filter_cons, List.filter_append, hfilds1]
            have hlen2 : (ds2.filter (fun e => e.parentOffset == po)).length =
                (rest.filter isDirP).length := by
              have := congrArg List.length oc2
              simpa using this
            have hRHS : (((name, RomVal.dir children) :: rest).filter isDirP) =
                (name, RomVal.dir children) :: rest.filter isDirP := by
              simp [isDirP]
            refine ⟨?_, ?_, ?_⟩
            · rw [List.filter_append, hfilfs1, List.nil_append]
              simpa [isDirP] using oc1
            · rw [hdf, hRHS]
              simpa using oc2
            · intro i hi
              rw [hdf, hRHS]
              rw [hRHS] at hi
              cases i with
              | zero =>
                simp only [List.getD_cons_zero]
                show RepAt _ _ deo (forestOf (RomVal.dir children))
                have hframe := RepAt_frame hrepInner
                  [⟨deo, po, name.length, name⟩] ds2 [] fs2
                  (by
                    intro c hc
                    rcases List.mem_append.mp hc with h1 | h2
                    · simp only [List.mem_singleton] at h1
                      subst h1
                      refine ⟨?_, ?_⟩
                      · show po ≠ deo
                        omega
                      · show po ∉ _
                        intro hin
                        have := dirLayout_offset_mem hlay1 _ hin
                        omega
                    · rcases hpar2.1 c h2 with hA | hB
                      · refine ⟨?_, ?_⟩
                        · omega
                        · rw [hA]
                          intro hin
                          have := dirLayout_offset_mem hlay1 _ hin
                          omega
                      · have hc2 := dirLayout_offset_mem hlay2 _ hB
                        refine ⟨?_, ?_⟩
                        · omega
                        · intro hin
                          have := dirLayout_offset_mem hlay1 _ hin
                          omega)
                  (by
                    intro f hf
                    simp only [List.nil_append] at hf
                    rcases hpar2.2 f hf with hA | hB
                    · refine ⟨?_, ?_⟩
                      · omega
                      · rw [hA]
                        intro hin
                        have := dirLayout_offset_mem hlay1 _ hin
                        omega
                    · have hc2 := dirLayout_offset_mem hlay2 _ hB
                      refine ⟨?_, ?_⟩
                      · omega
                      · intro hin
                        have := dirLayout_offset_mem hlay1 _ hin
                        omega)
                simpa [forestOf] using hframe
              | succ j =>
                simp only [List.getD_cons_succ]
                simp only [List.length_cons] at hi
                have hij : j < (rest.filter isDirP).length := by omega
                have hrep := oc3 j hij
                have hchild_mem : ((ds2.filter (fun e => e.parentOffset == po)).getD j
                    ⟨0, 0, 0, []⟩) ∈ ds2 := by
                  apply List.mem_of_mem_filter (p := fun e => e.parentOffset == po)
                  apply getD_mem
                  omega
                have hchild_off := dirLayout_offset_mem hlay2 _
                  (List.mem_map_of_mem _ hchild_mem)
                have hframe := RepAt_frame hrep
                  ((⟨deo, po, name.length, name⟩ : DirCore) :: ds1) [] fs1 []
                  (by
                    intro c hc
                    simp only [List.append_nil, List.mem_cons] at hc
                    rcases hc with h1 | h2
                    · subst h1
                      refine ⟨?_, ?_⟩
                      · show po ≠ _
                        omega
                      · show po ∉ _
                        intro hin
                        have := dirLayout_offset_mem hlay2 _ hin
                        omega
                    · rcases hpar1.1 c h2 with hA | hB
                      · refine ⟨?_, ?_⟩
                        · omega
                        · rw [hA]
                          intro hin
                          have := dirLayout_offset_mem hlay2 _ hin
                          omega
                      · have hc2 := dirLayout_offset_mem hlay1 _ hB
                        refine ⟨?_, ?_⟩
                        · omega
                        · intro hin
                          have := dirLayout_offset_mem hlay2 _ hin
                          omega)
                  (by
                    intro f hf
                    simp only [List.append_nil] at hf
                    rcases hpar1.2 f hf with hA | hB
                    · refine ⟨?_, ?_⟩
                      · omega
                      · rw [hA]
                        intro hin
                        have := dirLayout_offset_mem hlay2 _ hin
                        omega
                    · have hc2 := dirLayout_offset_mem hlay1 _ hB
                      refine ⟨?_, ?_⟩
                      · omega
                      · intro hin
                        have := dirLayout_offset_mem hlay2 _ hin
                        omega)
                simpa using hframe

theorem pureWalk_rep (fuel : Nat) (cs : List (List Nat × RomVal))
    (po deo feo dOff : Nat) (ds : List DirCore) (fs : List FileCore)
    (deo' feo' dOff' : Nat)
    (h : pureWalk fuel (sortByName cs) po deo feo dOff =
      some (ds, fs, deo', feo', dOff'))
    (hpo : po < deo) : RepAt ds fs po cs := by
  obtain ⟨h1, h2, h3⟩ := pureWalk_rep_go _ _ _ _ _ _ _ _ _ _ _ h hpo
  exact RepAt.intro po cs h1 h2 h3

/-! The decode store: `Map.get`/`Map.set` laws and the characterization of
`buildDirs`/`buildFiles`. -/

theorem storeGet_storeSet : ∀ (store : RomStore) (k : Nat)
    (v : List (List Nat × RomRef)) (k' : Nat),
    storeGet (storeSet store k v) k' = if k' = k then some v else storeGet store k' := by
  intro store
  induction store with
  | nil =>
    intro k v k'
    by_cases h : k' = k
    · subst h
      simp [storeSet, storeGet]
    · have hbeq : (k == k') = false := beq_eq_false_iff_ne.mpr (fun hc => h hc.symm)
      simp [storeSet, storeGet, List.find?, hbeq, if_neg h]
  | cons p rest ih =>
    intro k v k'
    obtain ⟨o, c⟩ := p
    simp only [storeSet]
    by_cases hok : o = k
    · subst hok
      rw [if_pos rfl]
      by_cases h : k' = o
      · subst h
        simp [storeGet, List.find?]
      · have h1 : (o == k') = false := beq_eq_false_iff_ne.mpr (fun hc => h hc.symm)
        simp [storeGet, List.find?, h1, if_neg h]
    · rw [if_neg hok]
      by_cases h2 : o = k'
      · subst h2
        rw [if_neg hok]
        simp [storeGet, List.find?]
      · have h3 : (o == k') = false := beq_eq_false_iff_ne.mpr h2
        simp only [storeGet, List.find?, h3]
        exact ih k v k'

theorem storeGet_nil (o : Nat) : storeGet ([] : RomStore) o = none := rfl

theorem objInsert_fresh (k : List Nat) (v : RomRef) :
    ∀ l : List (List Nat × RomRef), k ∉ l.map (fun p => p.1) →
      objInsert k v l = l ++ [(k, v)] := by
  intro l
  induction l with
  | nil => intro _; rfl
  | cons p rest ih =>
    intro h
    obtain ⟨k2, v2⟩ := p
    simp only [List.map_cons, List.mem_cons] at h
    push_neg at h
    simp only [objInsert]
    rw [if_neg (by exact fun hc => h.1 hc.symm)]
    rw [ih h.2]
    simp

/-- Each entry's offset is fresh and (for non-root entries) its parent offset
was seen before it. -/
def dirListOk : List Nat → List DirEntry → Prop
  | _, [] => True
  | prior, e :: rest =>
    e.offset ∉ prior ∧ (e.offset ≠ 0 → e.parentOffset ∈ prior) ∧
      dirListOk (prior ++ [e.offset]) rest

/-- The dir children a finished decode store holds at offset `o`. -/
def dirKidsE (entries : List DirEntry) (o : Nat) : List (List Nat × RomRef) :=
  (entries.filter (fun e => e.parentOffset == o && e.offset != 0)).map
    (fun e => (e.name, RomRef.dirRef e.offset))

theorem buildDirs_cons_nonzero (e : DirEntry) (rest : List DirEntry)
    (store : RomStore) (pc : List (List Nat × RomRef))
    (hz : ¬ e.offset = 0)
    (hget : storeGet (storeSet store e.offset []) e.parentOffset = some pc) :
    buildDirs (e :: rest) store =
      buildDirs rest (storeSet (storeSet store e.offset [])
        e.parentOffset (objInsert e.name (RomRef.dirRef e.offset) pc)) := by
  simp only [buildDirs, if_neg hz, hget]

theorem buildDirs_go : ∀ (rest processed : List DirEntry) (store : RomStore),
    (∀ o, storeGet store o =
      if o ∈ processed.map (fun e => e.offset) then some (dirKidsE processed o)
      else none) →
    dirListOk (processed.map (fun e => e.offset)) rest →
    (∀ c ∈ processed, c.offset ≠ 0 →
      c.parentOffset ∈ processed.map (fun e => e.offset)) →
    (∀ o, (((processed ++ rest).filter
      (fun e => e.parentOffset == o && e.offset != 0)).map (fun e => e.name)).Nodup) →
    ∃ store', buildDirs rest store = some store' ∧
      ∀ o, storeGet store' o =
        if o ∈ (processed ++ rest).map (fun e => e.offset) then
          some (dirKidsE (processed ++ rest) o) else none := by
  intro rest
  induction rest with
  | nil =>
    intro processed store hinv _ _ _
    refine ⟨store, rfl, ?_⟩
    intro o
    rw [List.append_nil]
    exact hinv o
  | cons e rest ih =>
    intro processed store hinv hok hpar hnames
    obtain ⟨hfresh, hparent, hok2⟩ := hok
    by_cases hzero : e.offset = 0
    · have hstep : ∀ o, storeGet (storeSet store e.offset []) o =
          if o ∈ (processed ++ [e]).map (fun e2 => e2.offset) then
            some (dirKidsE (processed ++ [e]) o) else none := by
        intro o
        rw [storeGet_storeSet]
        by_cases h1 : o = e.offset
        · subst h1
          rw [if_pos rfl, if_pos (by simp)]
          have : dirKidsE (processed ++ [e]) e.offset = [] := by
            unfold dirKidsE
            rw [List.filter_append]
            have hA : processed.filter
                (fun e2 => e2.parentOffset == e.offset && e2.offset != 0) = [] := by
              rw [List.filter_eq_nil_iff]
              intro c hc
              simp only [Bool.and_eq_true, beq_iff_eq, bne_iff_ne, ne_eq, not_and]
              intro hcp
              intro hcz
              have := hpar c hc hcz
              rw [hcp] at this
              exact hfresh this
            have hB : List.filter
                (fun e2 => e2.parentOffset == e.offset && e2.offset != 0) [e] = [] := by
              simp [hzero]
            rw [hA, hB]
            rfl
          rw [this]
        · rw [if_neg h1, hinv o]
          by_cases h2 : o ∈ processed.map (fun e2 => e2.offset)
          · rw [if_pos h2, if_pos (by simp [h2])]
            have : dirKidsE (processed ++ [e]) o = dirKidsE processed o := by
              unfold dirKidsE
              rw [List.filter_append]
              have hB : List.filter
                  (fun e2 => e2.parentOffset == o && e2.offset != 0) [e] = [] := by
                simp [hzero]
              rw [hB, List.append_nil]
            rw [this]
          · rw [if_neg h2, if_neg (by
              simp only [List.map_append, List.map_cons, List.map_nil,
                List.mem_append, List.mem_singleton]
              push_neg
              exact ⟨h2, h1⟩)]
      have := ih (processed ++ [e]) (storeSet store e.offset []) hstep
        (by simpa using hok2)
        (by
          intro c hc hcz
          rcases List.mem_append.mp hc with h1 | h2
          · have := hpar c h1 hcz
            simp only [List.map_append, List.mem_append]
            exact Or.inl this
          · simp only [List.mem_singleton] at h2
            subst h2
            exact absurd hzero hcz)
        (by
          intro o
          have := hnames o
          rw [List.append_assoc]
          simpa using this)
      obtain ⟨store', hbuild, hfinal⟩ := this
      refine ⟨store', ?_, ?_⟩
      · simp only [buildDirs, if_pos hzero]
        exact hbuild
      · intro o
        rw [hfinal o]
        rw [List.append_assoc]
        simp
    · have hparmem := hparent hzero
      have hget : storeGet (storeSet store e.offset []) e.parentOffset =
          some (dirKidsE processed e.parentOffset) := by
        rw [storeGet_storeSet]
        rw [if_neg (by intro hc; rw [hc] at hparmem; exact hfresh hparmem)]
        rw [hinv, if_pos hparmem]
      have hfreshname : e.name ∉ (dirKidsE processed e.parentOffset).map
          (fun p => p.1) := by
        have hn := hnames e.parentOffset
        rw [List.filter_append] at hn
        have hes : List.filter
            (fun e2 => e2.parentOffset == e.parentOffset && e2.offset != 0)
            (e :: rest) =
            e :: List.filter
              (fun e2 => e2.parentOffset == e.parentOffset && e2.offset != 0) rest := by
          rw [List.filter_cons]
          rw [if_pos (by simp [hzero])]
        rw [hes, List.map_append, List.map_cons] at hn
        rw [List.nodup_append] at hn
        intro hmem
        have hmem2 : e.name ∈ (processed.filter
            (fun e2 => e2.parentOffset == e.parentOffset && e2.offset != 0)).map
            (fun e2 => e2.name) := by
          unfold dirKidsE at hmem
          obtain ⟨p, hp, hpe⟩ := List.mem_map.mp hmem
          obtain ⟨c, hc, hce⟩ := List.mem_map.mp hp
          apply List.mem_map.mpr
          refine ⟨c, hc, ?_⟩
          rw [← hpe, ← hce]
        exact (hn.2.2 hmem2) (List.mem_cons_self _ _)
      have hstep : ∀ o, storeGet (storeSet (storeSet store e.offset [])
          e.parentOffset (dirKidsE processed e.parentOffset ++
            [(e.name, RomRef.dirRef e.offset)])) o =
          if o ∈ (processed ++ [e]).map (fun e2 => e2.offset) then
            some (dirKidsE (processed ++ [e]) o) else none := by
        intro o
        rw [storeGet_storeSet, storeGet_storeSet]
        by_cases h1 : o = e.parentOffset
        · rw [if_pos h1, if_pos (by rw [h1]; simp [hparmem])]
          have heq : dirKidsE (processed ++ [e]) o = dirKidsE processed o ++
              [(e.name, RomRef.dirRef e.offset)] := by
            unfold dirKidsE
            rw [List.filter_append]
            have hB : List.filter
                (fun e2 => e2.parentOffset == o && e2.offset != 0) [e] = [e] := by
              simp only [List.filter_cons, List.filter_nil]
              rw [if_pos (by simp [hzero, h1])]
            rw [hB, List.map_append]
            rfl
          rw [heq, h1]
        · rw [if_neg h1]
          by_cases h2 : o = e.offset
          · rw [if_pos h2, if_pos (by rw [h2]; simp)]
            have heq : dirKidsE (processed ++ [e]) o = [] := by
              unfold dirKidsE
              rw [List.filter_append]
              have hA : processed.filter
                  (fun e2 => e2.parentOffset == o && e2.offset != 0) = [] := by
                rw [List.filter_eq_nil_iff]
                intro c hc
                simp only [Bool.and_eq_true, beq_iff_eq, bne_iff_ne, ne_eq, not_and]
                intro hcp hcz
                have hm := hpar c hc hcz
                rw [hcp, h2] at hm
                exact hfresh hm
              have hB : List.filter
                  (fun e2 => e2.parentOffset == o && e2.offset != 0) [e] = [] := by
                simp only [List.filter_cons, List.filter_nil]
                rw [if_neg (by
                  simp only [Bool.and_eq_true, beq_iff_eq, bne_iff_ne, ne_eq]
                  intro hc
                  exact h1 hc.1.symm)]
              rw [hA, hB]
              rfl
            rw [heq]
          · rw [if_neg h2, hinv o]
            by_cases h3 : o ∈ processed.map (fun e2 => e2.offset)
            · rw [if_pos h3, if_pos (by simp [h3])]
              have heq : dirKidsE (processed ++ [e]) o = dirKidsE processed o := by
                unfold dirKidsE
                rw [List.filter_append]
                have hB : List.filter
                    (fun e2 => e2.parentOffset == o && e2.offset != 0) [e] = [] := by
                  simp only [List.filter_cons, List.filter_nil]
                  rw [if_neg (by
                    simp only [Bool.and_eq_true, beq_iff_eq, bne_iff_ne, ne_eq]
                    intro hc
                    exact h1 hc.1.symm)]
                rw [hB, List.append_nil]
              rw [heq]
            · rw [if_neg h3, if_neg (by
                simp only [List.map_append, List.mem_append]
                push_neg
                refine ⟨h3, ?_⟩
                simp only [List.map_cons, List.map_nil, List.mem_singleton]
                exact fun hc => h2 hc)]
      have := ih (processed ++ [e]) _ hstep
        (by simpa using hok2)
        (by
          intro c hc hcz
          rcases List.mem_append.mp hc with h1 | h2
          · have := hpar c h1 hcz
            simp only [List.map_append, List.mem_append]
            exact Or.inl this
          · simp only [List.mem_singleton] at h2
            subst h2
            simp only [List.map_append, List.mem_append]
            exact Or.inl hparmem)
        (by
          intro o
          have := hnames o
          rw [List.append_assoc]
          simpa using this)
      obtain ⟨store', hbuild, hfinal⟩ := this
      refine ⟨store', ?_, ?_⟩
      · rw [buildDirs_cons_nonzero e rest store _ hzero hget,
          objInsert_fresh _ _ _ hfreshname]
        exact hbuild
      · intro o
        rw [hfinal o]
        rw [List.append_assoc]
        simp

/-- The file children a finished decode store holds at offset `o` (with the
file bytes sliced out of the image). -/
def fileKidsE (image : List Nat) (dataBase : Nat) (l : List PFileEntry) (o : Nat) :
    List (List Nat × RomRef) :=
  (l.filter (fun f => f.parentOffset == o)).map
    (fun f => (f.name, RomRef.fileRef (sliceBytes image (dataBase + f.dataOffset)
      (dataBase + f.dataOffset + f.dataSize))))

theorem buildFiles_cons (image : List Nat) (dataBase : Nat) (f : PFileEntry)
    (rest : List PFileEntry) (store : RomStore) (pc : List (List Nat × RomRef))
    (hget : storeGet store f.parentOffset = some pc) :
    buildFiles image dataBase (f :: rest) store =
      buildFiles image dataBase rest (storeSet store f.parentOffset
        (objInsert f.name
          (RomRef.fileRef (sliceBytes image (dataBase + f.dataOffset)
            (dataBase + f.dataOffset + f.dataSize))) pc)) := by
  simp only [buildFiles, hget]

theorem buildFiles_go : ∀ (rest processed : List PFileEntry) (image : List Nat)
    (dataBase : Nat) (dirEntries : List DirEntry) (store : RomStore),
    (∀ o, storeGet store o =
      if o ∈ dirEntries.map (fun e => e.offset) then
        some (dirKidsE dirEntries o ++ fileKidsE image dataBase processed o)
      else none) →
    (∀ f ∈ rest, f.parentOffset ∈ dirEntries.map (fun e => e.offset)) →
    (∀ o, (((dirKidsE dirEntries o).map (fun p => p.1)) ++
      (((processed ++ rest).filter (fun f => f.parentOffset == o)).map
        (fun f => f.name))).Nodup) →
    ∃ store', buildFiles image dataBase rest store = some store' ∧
      ∀ o, storeGet store' o =
        if o ∈ dirEntries.map (fun e => e.offset) then
          some (dirKidsE dirEntries o ++
            fileKidsE image dataBase (processed ++ rest) o)
        else none := by
  intro rest
  induction rest with
  | nil =>
    intro processed image dataBase dirEntries store hinv _ _
    refine ⟨store, rfl, ?_⟩
    intro o
    rw [List.append_nil]
    exact hinv o
  | cons f rest ih =>
    intro processed image dataBase dirEntries store hinv hpar hnames
    have hparmem := hpar f (by simp)
    have hget : storeGet store f.parentOffset =
        some (dirKidsE dirEntries f.parentOffset ++
          fileKidsE image dataBase processed f.parentOffset) := by
      rw [hinv, if_pos hparmem]
    have hfreshname : f.name ∉ ((dirKidsE dirEntries f.parentOffset ++
        fileKidsE image dataBase processed f.parentOffset).map (fun p => p.1)) := by
      have hn := hnames f.parentOffset
      rw [List.filter_append] at hn
      have hes : List.filter (fun f2 => f2.parentOffset == f.parentOffset)
          (f :: rest) =
          f :: List.filter (fun f2 => f2.parentOffset == f.parentOffset) rest := by
        rw [List.filter_cons, if_pos (by simp)]
      rw [hes, List.map_append, List.map_cons] at hn
      intro hmem
      rw [List.map_append] at hmem
      have hkeys1 : (dirKidsE dirEntries f.parentOffset).map (fun p => p.1) =
          (dirKidsE dirEntries f.parentOffset).map (fun p => p.1) := rfl
      rcases List.mem_append.mp hmem with hA | hB
      · rw [List.nodup_append] at hn
        exact (hn.2.2 hA) (by simp)
      · have hB2 : f.name ∈ (processed.filter
            (fun f2 => f2.parentOffset == f.parentOffset)).map
            (fun f2 => f2.name) := by
          unfold fileKidsE at hB
          obtain ⟨p, hp, hpe⟩ := List.mem_map.mp hB
          obtain ⟨c, hc, hce⟩ := List.mem_map.mp hp
          apply List.mem_map.mpr
          refine ⟨c, hc, ?_⟩
          rw [← hpe, ← hce]
        rw [List.nodup_append] at hn
        have hn2 := hn.2.1
        rw [List.nodup_append] at hn2
        exact (hn2.2.2 hB2) (by simp)
    have hstep : ∀ o, storeGet (storeSet store f.parentOffset
        ((dirKidsE dirEntries f.parentOffset ++
          fileKidsE image dataBase processed f.parentOffset) ++
          [(f.name, RomRef.fileRef (sliceBytes image (dataBase + f.dataOffset)
            (dataBase + f.dataOffset + f.dataSize)))])) o =
        if o ∈ dirEntries.map (fun e => e.offset) then
          some (dirKidsE dirEntries o ++
            fileKidsE image dataBase (processed ++ [f]) o)
        else none := by
      intro o
      rw [storeGet_storeSet]
      by_cases h1 : o = f.parentOffset
      · rw [if_pos h1, if_pos (by rw [h1]; exact hparmem)]
        have heq : fileKidsE image dataBase (processed ++ [f]) o =
            fileKidsE image dataBase processed o ++
              [(f.name, RomRef.fileRef (sliceBytes image (dataBase + f.dataOffset)
                (dataBase + f.dataOffset + f.dataSize)))] := by
          unfold fileKidsE
          rw [List.filter_append]
          have hB : List.filter (fun f2 => f2.parentOffset == o) [f] = [f] := by
            simp only [List.filter_cons, List.filter_nil]
            rw [if_pos (by simp [h1])]
          rw [hB, List.map_append]
          rfl
        rw [heq, h1, List.append_assoc]
      · rw [if_neg h1]
        rw [hinv o]
        by_cases h2 : o ∈ dirEntries.map (fun e => e.offset)
        · rw [if_pos h2, if_pos h2]
          have heq : fileKidsE image dataBase (processed ++ [f]) o =
              fileKidsE image dataBase processed o := by
            unfold fileKidsE
            rw [List.filter_append]
            have hB : List.filter (fun f2 => f2.parentOffset == o) [f] = [] := by
              simp only [List.filter_cons, List.filter_nil]
              rw [if_neg (by
                simp only [beq_iff_eq]
                intro hc
                exact h1 hc.symm)]
            rw [hB, List.append_nil]
          rw [heq]
        · rw [if_neg h2, if_neg h2]
    have := ih (processed ++ [f]) image dataBase dirEntries _ hstep
      (fun g hg => hpar g (by simp [hg]))
      (by
        intro o
        have := hnames o
        rw [List.append_assoc]
        simpa using this)
    obtain ⟨store', hbuild, hfinal⟩ := this
    refine ⟨store', ?_, ?_⟩
    · rw [buildFiles_cons image dataBase f rest store _ hget,
        objInsert_fresh _ _ _ hfreshname]
      exact hbuild
    · intro o
      rw [hfinal o]
      rw [List.append_assoc]
      simp

/-! Well-formedness of an input tree: unique names per directory, bounded
depth (the fuel doubles as a depth bound). -/

def keyMem (k : List Nat) : List (List Nat) → Bool
  | [] => false
  | k2 :: rest => (k2 == k) || keyMem k rest

theorem keyMem_iff (k : List Nat) : ∀ l : List (List Nat),
    keyMem k l = true ↔ k ∈ l := by
  intro l
  induction l with
  | nil => simp [keyMem]
  | cons k2 rest ih =>
    simp only [keyMem, Bool.or_eq_true, beq_iff_eq, List.mem_cons, ih]
    constructor
    · intro h
      rcases h with h1 | h2
      · exact Or.inl h1.symm
      · exact Or.inr h2
    · intro h
      rcases h with h1 | h2
      · exact Or.inl h1.symm
      · exact Or.inr h2

def noDupKeys : List (List Nat) → Bool
  | [] => true
  | k :: rest => !(keyMem k rest) && noDupKeys rest

theorem noDupKeys_iff : ∀ l : List (List Nat), noDupKeys l = true ↔ l.Nodup := by
  intro l
  induction l with
  | nil => simp [noDupKeys]
  | cons k rest ih =>
    simp only [noDupKeys, Bool.and_eq_true, Bool.not_eq_true', List.nodup_cons]
    rw [ih]
    constructor
    · intro ⟨h1, h2⟩
      refine ⟨?_, h2⟩
      intro hc
      have := (keyMem_iff k rest).mpr hc
      rw [h1] at this
      exact absurd this (by simp)
    · intro ⟨h1, h2⟩
      refine ⟨?_, h2⟩
      by_cases hc : keyMem k rest = true
      · exact absurd ((keyMem_iff k rest).mp hc) h1
      · simpa using hc

def wfB : Nat → List (List Nat × RomVal) → Bool
  | 0, _ => false
  | n + 1, cs => noDupKeys (cs.map (fun p => p.1)) &&
      cs.all (fun p => match p.2 with
        | RomVal.file _ => true
        | RomVal.dir cs2 => wfB n cs2)

theorem wfB_succ_nodup {n : Nat} {cs : List (List Nat × RomVal)}
    (h : wfB (n + 1) cs = true) : (cs.map (fun p => p.1)).Nodup := by
  simp only [wfB, Bool.and_eq_true] at h
  exact (noDupKeys_iff _).mp h.1

theorem wfB_succ_child {n : Nat} {cs : List (List Nat × RomVal)}
    (h : wfB (n + 1) cs = true) : ∀ p ∈ cs, ∀ cs2, p.2 = RomVal.dir cs2 →
    wfB n cs2 = true := by
  simp only [wfB, Bool.and_eq_true, List.all_eq_true] at h
  intro p hp cs2 hp2
  have := h.2 p hp
  rw [hp2] at this
  exact this

theorem wfB_mono : ∀ (n m : Nat) (cs : List (List Nat × RomVal)),
    wfB n cs = true → n ≤ m → wfB m cs = true := by
  intro n
  induction n with
  | zero => intro m cs h _; simp [wfB] at h
  | succ n ih =>
    intro m cs h hle
    cases m with
    | zero => omega
    | succ m =>
      simp only [wfB, Bool.and_eq_true, List.all_eq_true] at h ⊢
      refine ⟨h.1, ?_⟩
      intro p hp
      have hthis := h.2 p hp
      obtain ⟨nm, v⟩ := p
      cases v with
      | file d => exact hthis
      | dir cs2 => exact ih m cs2 hthis (by omega)

/-- Canonicalization succeeds at any fuel at least the tree's wf depth. -/
theorem wfB_sortForest : ∀ (n : Nat) (cs : List (List Nat × RomVal)),
    wfB n cs = true → ∀ k, n ≤ k → ∃ r, sortChildrenWith (sortTreeF k) cs = some r := by
  intro n
  induction n with
  | zero => intro cs h; simp [wfB] at h
  | succ n ih =>
    intro cs h k hk
    cases k with
    | zero => omega
    | succ k =>
      induction cs with
      | nil => exact ⟨[], rfl⟩
      | cons p rest ihl =>
        have hrest : wfB (n + 1) rest = true := by
          simp only [wfB, Bool.and_eq_true, List.all_eq_true] at h ⊢
          refine ⟨?_, fun q hq => h.2 q (by simp [hq])⟩
          have := h.1
          simp only [List.map_cons, noDupKeys, Bool.and_eq_true] at this
          exact this.2
        obtain ⟨r, hr⟩ := ihl hrest
        obtain ⟨name, v⟩ := p
        cases v with
        | file d =>
          refine ⟨(name, RomVal.file d) :: r, ?_⟩
          simp only [sortChildrenWith, sortTreeF, hr]
        | dir cs2 =>
          have hc2 : wfB n cs2 = true :=
            wfB_succ_child h (name, RomVal.dir cs2) (by simp) cs2 rfl
          obtain ⟨r2, hr2⟩ := ih cs2 hc2 k (by omega)
          refine ⟨(name, RomVal.dir (sortByName r2)) :: r, ?_⟩
          simp only [sortChildrenWith, sortTreeF, hr2, hr]

/-- Resolve `matChildren` when every entry resolves through `g`. -/
theorem matChildren_resolve (rec : Nat → Option RomVal)
    (g : (List Nat × RomRef) → RomVal) :
    ∀ l : List (List Nat × RomRef),
      (∀ q ∈ l, match q.2 with
        | RomRef.fileRef d => g q = RomVal.file d
        | RomRef.dirRef off => rec off = some (g q)) →
      matChildren rec l = some (l.map (fun q => (q.1, g q))) := by
  intro l
  induction l with
  | nil => intro _; rfl
  | cons q rest ih =>
    intro h
    have hq := h q (by simp)
    have hrest := ih (fun q2 hq2 => h q2 (by simp [hq2]))
    obtain ⟨name, r⟩ := q
    cases r with
    | fileRef d =>
      simp only at hq
      simp only [matChildren, hrest, List.map_cons]
      rw [hq]
    | dirRef off =>
      simp only at hq
      simp only [matChildren, hrest, hq, List.map_cons]

def dirKidsC (cs : List DirCore) (o : Nat) : List (List Nat × RomRef) :=
  (cs.filter (fun c => c.parentOffset == o && c.offset != 0)).map
    (fun c => (c.name, RomRef.dirRef c.offset))

def fileKidsC (fs : List FileCore) (o : Nat) : List (List Nat × RomRef) :=
  (fs.filter (fun f => f.parentOffset == o)).map
    (fun f => (f.name, RomRef.fileRef f.data))

theorem sortChildrenWith_resolve (rec : RomVal → Option RomVal)
    (g : (List Nat × RomVal) → RomVal) :
    ∀ l : List (List Nat × RomVal),
      (∀ q ∈ l, rec q.2 = some (g q)) →
      sortChildrenWith rec l = some (l.map (fun q => (q.1, g q))) := by
  intro l
  induction l with
  | nil => intro _; rfl
  | cons q rest ih =>
    intro h
    have hq := h q (by simp)
    have hrest := ih (fun q2 hq2 => h q2 (by simp [hq2]))
    obtain ⟨name, v⟩ := q
    simp only [sortChildrenWith, hq, hrest, List.map_cons]

theorem sortTreeF_file (k : Nat) (d : List Nat) :
    sortTreeF (k + 1) (RomVal.file d) = some (RomVal.file d) := rfl

theorem sortTreeF_dir (k : Nat) (l : List (List Nat × RomVal)) :
    sortTreeF (k + 1) (RomVal.dir l) = (sortForestF k l).map RomVal.dir := by
  simp only [sortTreeF, sortForestF]
  cases h : sortChildrenWith (sortTreeF k) l <;> simp

theorem sortForestF_eq_map (k : Nat) (l : List (List Nat × RomVal)) :
    sortForestF k l = (sortChildrenWith (sortTreeF k) l).map sortByName := by
  simp only [sortForestF]
  cases h : sortChildrenWith (sortTreeF k) l <;> simp

/-- Materializing a represented directory yields a forest canonically equal
to the input forest. -/
theorem matF_rep : ∀ (n : Nat) (cs : List (List Nat × RomVal)) (po : Nat)
    (ds : List DirCore) (fs : List FileCore) (store : RomStore)
    (allD : List DirCore) (m : Nat),
    wfB n cs = true →
    n ≤ m →
    RepAt ds fs po cs →
    (∀ o, storeGet store o = if o ∈ allD.map (fun c => c.offset) then
      some (dirKidsC allD o ++ fileKidsC fs o) else none) →
    (∀ o, dirKidsC allD o =
      (ds.filter (fun c => c.parentOffset == o)).map
        (fun c => (c.name, RomRef.dirRef c.offset))) →
    (∀ c ∈ ds, c.offset ∈ allD.map (fun c2 => c2.offset)) →
    po ∈ allD.map (fun c => c.offset) →
    ∃ out, matF m store po = some (RomVal.dir out) ∧
      ∀ k, n ≤ k → sortForestF k out = sortForestF k cs := by
  intro n
  induction n with
  | zero =>
    intro cs po ds fs store allD m h
    simp [wfB] at h
  | succ n ih =>
    intro cs po ds fs store allD m hwf hnm hrep hstore hview hsub hpomem
    cases hrep with
    | intro _ _ hfiles hnames hrec =>
      cases m with
      | zero => omega
      | succ m =>
        have hchild : storeGet store po = some (
            (ds.filter (fun c => c.parentOffset == po)).map
              (fun c => (c.name, RomRef.dirRef c.offset)) ++
            (fs.filter (fun f => f.parentOffset == po)).map
              (fun f => (f.name, RomRef.fileRef f.data))) := by
          rw [hstore po, if_pos hpomem, hview po]
          rfl
        have hlen : (ds.filter (fun c => c.parentOffset == po)).length =
            (dirKidsOf cs).length := by
          have := congrArg List.length hnames
          simpa using this
        have hname_i : ∀ (i : Nat) (hi : i < (dirKidsOf cs).length),
            ((ds.filter (fun c => c.parentOffset == po)).getD i
              ⟨0, 0, 0, []⟩).name = ((dirKidsOf cs).getD i ([], RomVal.dir [])).1 := by
          intro i hi
          have hi2 : i < (ds.filter (fun c => c.parentOffset == po)).length := by omega
          have h1 := congrArg (fun l => l.getD i ([] : List Nat)) hnames
          simp only at h1
          rw [List.getD_eq_getElem _ _ (by simpa using hi2),
            List.getD_eq_getElem _ _ (by simpa using hi),
            List.getElem_map, List.getElem_map] at h1
          rw [List.getD_eq_getElem _ _ hi2, List.getD_eq_getElem _ _ hi]
          exact h1
        have hmain : ∀ (i : Nat) (hi : i < (dirKidsOf cs).length),
            ∃ cs2 out_i,
              ((dirKidsOf cs).getD i ([], RomVal.dir [])).2 = RomVal.dir cs2 ∧
              wfB n cs2 = true ∧
              matF m store (((ds.filter (fun c => c.parentOffset == po)).getD i
                ⟨0, 0, 0, []⟩).offset) = some (RomVal.dir out_i) ∧
              ∀ k, n ≤ k → sortForestF k out_i = sortForestF k cs2 := by
          intro i hi
          have hkmem0 : (dirKidsOf cs).getD i ([], RomVal.dir []) ∈ dirKidsOf cs :=
            getD_mem _ i _ hi
          have hkfilt := List.mem_filter.mp hkmem0
          have hkmem : (dirKidsOf cs).getD i ([], RomVal.dir []) ∈ cs :=
            (sortByName_perm cs).mem_iff.mp hkfilt.1
          obtain ⟨cs2, hcs2⟩ : ∃ cs2,
              ((dirKidsOf cs).getD i ([], RomVal.dir [])).2 = RomVal.dir cs2 := by
            cases hq : ((dirKidsOf cs).getD i ([], RomVal.dir [])).2 with
            | dir cs2 => exact ⟨cs2, rfl⟩
            | file d =>
              exfalso
              have hkd := hkfilt.2
              rcases hk2 : (dirKidsOf cs).getD i ([], RomVal.dir []) with ⟨kn, kv⟩
              rw [hk2] at hkd hq
              simp only at hq
              rw [hq] at hkd
              simp [isDirP] at hkd
          have hwf2 : wfB n cs2 = true :=
            wfB_succ_child hwf _ hkmem cs2 hcs2
          have hrepi := hrec i hi
          rw [hcs2] at hrepi
          simp only [forestOf] at hrepi
          have hi2 : i < (ds.filter (fun c => c.parentOffset == po)).length := by omega
          have hcmem : ((ds.filter (fun c => c.parentOffset == po)).getD i
              ⟨0, 0, 0, []⟩) ∈ ds :=
            List.mem_of_mem_filter (getD_mem _ i _ hi2)
          obtain ⟨out_i, hmat_i, hsort_i⟩ := ih cs2 _ ds fs store allD m hwf2
            (by omega) hrepi hstore hview hsub (hsub _ hcmem)
          exact ⟨cs2, out_i, hcs2, hwf2, hmat_i, hsort_i⟩
        have hout : matF (m + 1) store po = some (RomVal.dir
            ((((ds.filter (fun c => c.parentOffset == po)).map
              (fun c => (c.name, RomRef.dirRef c.offset)) ++
            (fs.filter (fun f => f.parentOffset == po)).map
              (fun f => (f.name, RomRef.fileRef f.data))).map
              (fun q => (q.1, (fun q2 : List Nat × RomRef => match q2.2 with
                | RomRef.fileRef d => RomVal.file d
                | RomRef.dirRef off => match matF m store off with
                  | some v => v
                  | none => RomVal.dir []) q))))) := by
          have hres := matChildren_resolve (matF m store)
            (fun q2 : List Nat × RomRef => match q2.2 with
              | RomRef.fileRef d => RomVal.file d
              | RomRef.dirRef off => match matF m store off with
                | some v => v
                | none => RomVal.dir [])
            ((ds.filter (fun c => c.parentOffset == po)).map
              (fun c => (c.name, RomRef.dirRef c.offset)) ++
            (fs.filter (fun f => f.parentOffset == po)).map
              (fun f => (f.name, RomRef.fileRef f.data)))
            (by
              intro q hq
              rcases List.mem_append.mp hq with hqd | hqf
              · obtain ⟨c, hcmem, hcq⟩ := List.mem_map.mp hqd
                obtain ⟨i, hilt, hieq⟩ := List.getElem_of_mem hcmem
                have hi : i < (dirKidsOf cs).length := by
                  have := hilt
                  omega
                obtain ⟨cs2, out_i, _, _, hmat_i, _⟩ := hmain i hi
                rw [List.getD_eq_getElem _ _ hilt, hieq] at hmat_i
                rw [← hcq]
                simp only [hmat_i]
              · obtain ⟨f, hfmem, hfq⟩ := List.mem_map.mp hqf
                rw [← hfq])
          simp only [matF, hchild, hres]
        refine ⟨_, hout, ?_⟩
        intro k hk
        cases k with
        | zero => omega
        | succ k =>
          have hnk : n ≤ k := by omega
          set G : (List Nat × RomRef) → RomVal := (fun q2 => match q2.2 with
            | RomRef.fileRef d => RomVal.file d
            | RomRef.dirRef off => match matF m store off with
              | some v => v
              | none => RomVal.dir []) with hGdef
          set GS : (List Nat × RomVal) → RomVal := (fun q => match q.2 with
            | RomVal.file d => RomVal.file d
            | RomVal.dir l => match sortForestF k l with
              | some r => RomVal.dir r
              | none => RomVal.dir []) with hGSdef
          have hA := sortChildrenWith_resolve (sortTreeF (k + 1)) GS
            (((ds.filter (fun c => c.parentOffset == po)).map
              (fun c => (c.name, RomRef.dirRef c.offset)) ++
            (fs.filter (fun f => f.parentOffset == po)).map
              (fun f => (f.name, RomRef.fileRef f.data))).map
              (fun q => (q.1, G q)))
            (by
              intro q hq
              obtain ⟨q0, hq0mem, hq0eq⟩ := List.mem_map.mp hq
              rcases List.mem_append.mp hq0mem with hqd | hqf
              · obtain ⟨c, hcmem, hcq⟩ := List.mem_map.mp hqd
                obtain ⟨i, hilt, hieq⟩ := List.getElem_of_mem hcmem
                have hi : i < (dirKidsOf cs).length := by omega
                obtain ⟨cs2, out_i, hkid2, hwf2, hmat_i, hsort_i⟩ := hmain i hi
                rw [List.getD_eq_getElem _ _ hilt, hieq] at hmat_i
                obtain ⟨r, hr⟩ := wfB_sortForest n cs2 hwf2 k hnk
                have hfor2 : sortForestF k cs2 = some (sortByName r) := by
                  rw [sortForestF_eq_map, hr]
                  rfl
                have hfor1 : sortForestF k out_i = some (sortByName r) := by
                  rw [hsort_i k hnk, hfor2]
                rw [← hq0eq, ← hcq]
                simp only [hGdef, hGSdef, hmat_i, sortTreeF_dir, hfor1]
                rfl
              · obtain ⟨f, hfmem, hfq⟩ := List.mem_map.mp hqf
                rw [← hq0eq, ← hfq]
                simp only [hGdef, hGSdef]
                rfl)
          have hB := sortChildrenWith_resolve (sortTreeF (k + 1)) GS cs
            (by
              intro q hq
              obtain ⟨qn, qv⟩ := q
              cases qv with
              | file d => simp only [hGSdef]; rfl
              | dir cs2 =>
                have hwf2 : wfB n cs2 = true :=
                  wfB_succ_child hwf (qn, RomVal.dir cs2) hq cs2 rfl
                obtain ⟨r, hr⟩ := wfB_sortForest n cs2 hwf2 k hnk
                have hfor2 : sortForestF k cs2 = some (sortByName r) := by
                  rw [sortForestF_eq_map, hr]
                  rfl
                simp only [hGSdef, sortTreeF_dir, hfor2]
                rfl)
          have hseg1 : (ds.filter (fun c => c.parentOffset == po)).map
              (fun c => (c.name, GS (c.name, G (c.name, RomRef.dirRef c.offset)))) =
              (dirKidsOf cs).map (fun q => (q.1, GS q)) := by
            apply List.ext_getElem
            · simp [hlen]
            · intro i h1 h2
              simp only [List.getElem_map]
              have hi : i < (dirKidsOf cs).length := by
                simp only [List.length_map] at h2
                exact h2
              have hilt : i < (ds.filter (fun c => c.parentOffset == po)).length := by
                simp only [List.length_map] at h1
                exact h1
              obtain ⟨cs2, out_i, hkid2, hwf2, hmat_i, hsort_i⟩ := hmain i hi
              rw [List.getD_eq_getElem _ _ hilt] at hmat_i
              rw [List.getD_eq_getElem _ _ hi] at hkid2
              obtain ⟨r, hr⟩ := wfB_sortForest n cs2 hwf2 k hnk
              have hfor2 : sortForestF k cs2 = some (sortByName r) := by
                rw [sortForestF_eq_map, hr]
                rfl
              have hfor1 : sortForestF k out_i = some (sortByName r) := by
                rw [hsort_i k hnk, hfor2]
              have hname := hname_i i hi
              rw [List.getD_eq_getElem _ _ hilt, List.getD_eq_getElem _ _ hi] at hname
              rw [Prod.ext_iff]
              refine ⟨hname, ?_⟩
              simp only [hGdef, hGSdef, hmat_i, hfor1, hfor2, hkid2]
          have hseg2 : (fs.filter (fun f => f.parentOffset == po)).map
              (fun f => (f.name, GS (f.name, G (f.name, RomRef.fileRef f.data)))) =
              (fileKidsOf cs).map (fun q => (q.1, GS q)) := by
            have h1 : (fs.filter (fun f => f.parentOffset == po)).map
                (fun f => (f.name, GS (f.name, G (f.name, RomRef.fileRef f.data)))) =
                (fs.filter (fun f => f.parentOffset == po)).map
                  (fun f => (f.name, RomVal.file f.data)) := by
              apply List.map_congr_left
              intro f _
              simp only [hGdef, hGSdef]
            have h2 : (fileKidsOf cs).map (fun q => (q.1, GS q)) = fileKidsOf cs := by
              have hptw : ∀ q ∈ fileKidsOf cs, (fun q : List Nat × RomVal =>
                  (q.1, GS q)) q = id q := by
                intro q hq
                have hflt := (List.mem_filter.mp hq).2
                obtain ⟨qn, qv⟩ := q
                cases qv with
                | file d => simp only [hGSdef]; rfl
                | dir l => simp [isDirP] at hflt
              rw [List.map_congr_left hptw, List.map_id]
            rw [h1, h2, hfiles]
          have hAeq : (((ds.filter (fun c => c.parentOffset == po)).map
              (fun c => (c.name, RomRef.dirRef c.offset)) ++
              (fs.filter (fun f => f.parentOffset == po)).map
                (fun f => (f.name, RomRef.fileRef f.data))).map
              (fun q => (q.1, G q))).map (fun q => (q.1, GS q)) =
              (dirKidsOf cs).map (fun q => (q.1, GS q)) ++
              (fileKidsOf cs).map (fun q => (q.1, GS q)) := by
            rw [List.map_map, List.map_append, List.map_map, List.map_map]
            rw [← hseg1, ← hseg2]
            rfl
          have hperm1 : List.Perm (dirKidsOf cs ++ fileKidsOf cs) cs :=
            (List.filter_append_perm isDirP (sortByName cs)).trans (sortByName_perm cs)
          have hpermAB : List.Perm
              ((((ds.filter (fun c => c.parentOffset == po)).map
                (fun c => (c.name, RomRef.dirRef c.offset)) ++
                (fs.filter (fun f => f.parentOffset == po)).map
                  (fun f => (f.name, RomRef.fileRef f.data))).map
                (fun q => (q.1, G q))).map (fun q => (q.1, GS q)))
              (cs.map (fun q => (q.1, GS q))) := by
            rw [hAeq]
            have := hperm1.map (fun q : List Nat × RomVal => (q.1, GS q))
            simpa using this
          have hkeys : ((sortByName ((((ds.filter (fun c => c.parentOffset == po)).map
              (fun c => (c.name, RomRef.dirRef c.offset)) ++
              (fs.filter (fun f => f.parentOffset == po)).map
                (fun f => (f.name, RomRef.fileRef f.data))).map
              (fun q => (q.1, G q))).map (fun q => (q.1, GS q)))).map
              (fun p => p.1)).Nodup := by
            have hk1 := (sortByName_perm ((((ds.filter
                (fun c => c.parentOffset == po)).map
                (fun c => (c.name, RomRef.dirRef c.offset)) ++
                (fs.filter (fun f => f.parentOffset == po)).map
                  (fun f => (f.name, RomRef.fileRef f.data))).map
                (fun q => (q.1, G q))).map (fun q => (q.1, GS q)))).map
              (fun p : List Nat × RomVal => p.1)
            have hk2 := hpermAB.map (fun p : List Nat × RomVal => p.1)
            have hk3 : (cs.map (fun q : List Nat × RomVal => (q.1, GS q))).map
                (fun p => p.1) = cs.map (fun p => p.1) := by
              rw [List.map_map]
              apply List.map_congr_left
              intro q _
              rfl
            have hk4 : (cs.map (fun p => p.1)).Nodup := wfB_succ_nodup hwf
            refine (hk1.trans (hk2.trans ?_)).nodup_iff.mpr hk4
            rw [hk3]
          have hfinal : sortByName ((((ds.filter (fun c => c.parentOffset == po)).map
              (fun c => (c.name, RomRef.dirRef c.offset)) ++
              (fs.filter (fun f => f.parentOffset == po)).map
                (fun f => (f.name, RomRef.fileRef f.data))).map
              (fun q => (q.1, G q))).map (fun q => (q.1, GS q))) =
              sortByName (cs.map (fun q => (q.1, GS q))) :=
            sorted_perm_eq _ _
              ((sortByName_perm _).trans (hpermAB.trans (sortByName_perm _).symm))
              (sortByName_sorted _) (sortByName_sorted _) hkeys
          rw [sortForestF_eq_map, sortForestF_eq_map, hA, hB]
          simp only [Option.map_some']
          rw [hfinal]

/-! Byte-level lemmas: little-endian field round-trips and table slicing. -/

theorem natToBytesLE_four (v : Nat) : natToBytesLE 4 v =
    [v % 256, v / 256 % 256, v / 256 / 256 % 256, v / 256 / 256 / 256 % 256] := rfl

theorem natToBytesLE_eight (v : Nat) : natToBytesLE 8 v =
    [v % 256, v / 256 % 256, v / 256 / 256 % 256, v / 256 / 256 / 256 % 256,
     v / 256 / 256 / 256 / 256 % 256, v / 256 / 256 / 256 / 256 / 256 % 256,
     v / 256 / 256 / 256 / 256 / 256 / 256 % 256,
     v / 256 / 256 / 256 / 256 / 256 / 256 / 256 % 256] := rfl

theorem readU32LE_natToBytesLE (v : Nat) (rest : List Nat) (hv : v < 2 ^ 32) :
    readU32LE (natToBytesLE 4 v ++ rest) 0 = v := by
  rw [natToBytesLE_four]
  show v % 256 + 256 * (v / 256 % 256) + 256 ^ 2 * (v / 256 / 256 % 256) +
    256 ^ 3 * (v / 256 / 256 / 256 % 256) = v
  norm_num
  omega

theorem readU64LE_natToBytesLE (v : Nat) (rest : List Nat) (hv : v < 2 ^ 64) :
    readU64LE (natToBytesLE 8 v ++ rest) 0 = v := by
  rw [natToBytesLE_eight]
  show (v % 256 + 256 * (v / 256 % 256) + 256 ^ 2 * (v / 256 / 256 % 256) +
      256 ^ 3 * (v / 256 / 256 / 256 % 256)) +
    256 ^ 4 * (v / 256 / 256 / 256 / 256 % 256 +
      256 * (v / 256 / 256 / 256 / 256 / 256 % 256) +
      256 ^ 2 * (v / 256 / 256 / 256 / 256 / 256 / 256 % 256) +
      256 ^ 3 * (v / 256 / 256 / 256 / 256 / 256 / 256 / 256 % 256)) = v
  norm_num
  omega

theorem byteAt_drop (l : List Nat) (off k : Nat) :
    byteAt (l.drop off) k = byteAt l (off + k) := by
  simp [byteAt, List.getD_eq_getElem?_getD, List.getElem?_drop]

theorem readU32LE_drop (l : List Nat) (off : Nat) :
    readU32LE l off = readU32LE (l.drop off) 0 := by
  simp only [readU32LE, byteAt_drop, Nat.add_zero, Nat.zero_add]

theorem readU64LE_drop (l : List Nat) (off : Nat) :
    readU64LE l off = readU64LE (l.drop off) 0 := by
  simp only [readU64LE, readU32LE, byteAt_drop, Nat.add_zero, Nat.zero_add,
    Nat.add_assoc]

theorem drop_chunk (c X : List Nat) (k : Nat) :
    (c ++ X).drop (c.length + k) = X.drop k := by
  rw [List.drop_append]

/-- Slicing is taking after dropping. -/
theorem sliceBytes_drop_take (l : List Nat) (a b : Nat) :
    sliceBytes l a b = (l.drop a).take (b - a) := by
  unfold sliceBytes
  rw [List.drop_take]

/-! Table serialization: the `writeBytes` folds write consecutive, padded
records into a zero buffer, so the table is the concatenation of the
records. -/

theorem romAlign_ge (n k : Nat) (hk : 0 < k) : n ≤ romAlign n k := by
  unfold romAlign
  by_cases h : n % k = 0
  · rw [if_pos h]
  · rw [if_neg h]
    have := Nat.mod_le n k
    have := Nat.mod_lt n hk
    omega

theorem romAlign_add_left (a n k : Nat) (hk : 0 < k) (h : k ∣ a) :
    romAlign (a + n) k = a + romAlign n k := by
  obtain ⟨c, rfl⟩ := h
  have h1 : (k * c + n) % k = n % k := Nat.mul_add_mod k c n
  have h2 := Nat.mod_le n k
  unfold romAlign
  rw [h1]
  by_cases h3 : n % k = 0
  · rw [if_pos h3, if_pos h3]
  · rw [if_neg h3, if_neg h3]
    omega

theorem writeBytes_append_at (A Z b : List Nat) (hb : b.length ≤ Z.length) :
    writeBytes (A ++ Z) A.length b = A ++ (b ++ Z.drop b.length) := by
  unfold writeBytes
  rw [List.take_left]
  have h1 : (A ++ Z).length - A.length = Z.length := by
    simp
  rw [h1, List.take_all_of_le hb, drop_chunk]
  simp

/-- The bytes the fold lays down from position `start` to `total`: each
record's bytes, zero padding to its stride, trailing zeros after the last. -/
def chunksOut {α : Type} (bytesF : α → List Nat) (strideF : α → Nat) :
    List α → Nat → Nat → List Nat
  | [], start, total => List.replicate (total - start) 0
  | e :: rest, start, total =>
    bytesF e ++ List.replicate (strideF e - (bytesF e).length) 0 ++
      chunksOut bytesF strideF rest (start + strideF e) total

/-- Consecutive-record layout: each record sits at the running offset, fits
its stride, and the offsets exactly fill `[start, total)`. -/
def chunksOk {α : Type} (offF : α → Nat) (bytesF : α → List Nat)
    (strideF : α → Nat) : List α → Nat → Nat → Prop
  | [], start, total => start = total
  | e :: rest, start, total =>
    offF e = start ∧ (bytesF e).length ≤ strideF e ∧ 0 < strideF e ∧
      chunksOk offF bytesF strideF rest (start + strideF e) total

theorem chunksOk_le {α : Type} (offF : α → Nat) (bytesF : α → List Nat)
    (strideF : α → Nat) : ∀ (l : List α) (s t : Nat),
    chunksOk offF bytesF strideF l s t → s ≤ t := by
  intro l
  induction l with
  | nil => intro s t h; exact le_of_eq h
  | cons e rest ih =>
    intro s t h
    have := ih _ _ h.2.2.2
    omega

theorem length_chunksOut {α : Type} (offF : α → Nat) (bytesF : α → List Nat)
    (strideF : α → Nat) : ∀ (l : List α) (s t : Nat),
    chunksOk offF bytesF strideF l s t →
    (chunksOut bytesF strideF l s t).length = t - s := by
  intro l
  induction l with
  | nil =>
    intro s t h
    simp [chunksOut]
  | cons e rest ih =>
    intro s t h
    obtain ⟨hoff, hlen, hpos, hrest⟩ := h
    have hle := chunksOk_le _ _ _ _ _ _ hrest
    simp only [chunksOut, List.length_append, List.length_replicate, ih _ _ hrest]
    omega

theorem foldl_writeBytes_chunksOut {α : Type} (offF : α → Nat)
    (bytesF : α → List Nat) (strideF : α → Nat) :
    ∀ (entries : List α) (A : List Nat) (total : Nat),
    chunksOk offF bytesF strideF entries A.length total →
    entries.foldl (fun buf e => writeBytes buf (offF e) (bytesF e))
      (A ++ List.replicate (total - A.length) 0) =
      A ++ chunksOut bytesF strideF entries A.length total := by
  intro entries
  induction entries with
  | nil =>
    intro A total h
    simp [chunksOut]
  | cons e rest ih =>
    intro A total h
    obtain ⟨hoff, hlen, hpos, hrest⟩ := h
    have hle := chunksOk_le _ _ _ _ _ _ hrest
    simp only [List.foldl_cons]
    rw [hoff]
    have hzlen : (bytesF e).length ≤ (List.replicate (total - A.length) 0).length := by
      simp
      omega
    rw [writeBytes_append_at A _ _ hzlen]
    have hdrop : (List.replicate (total - A.length) (0 : Nat)).drop (bytesF e).length =
        List.replicate (strideF e - (bytesF e).length) 0 ++
          List.replicate (total - (A.length + strideF e)) 0 := by
      rw [List.drop_replicate, ← List.replicate_add]
      congr 1
      omega
    rw [hdrop]
    have hA' : (A ++ (bytesF e ++ List.replicate (strideF e - (bytesF e).length) 0)).length
        = A.length + strideF e := by
      simp
      omega
    have := ih (A ++ (bytesF e ++ List.replicate (strideF e - (bytesF e).length) 0))
      total (by rw [hA']; exact hrest)
    rw [hA'] at this
    calc (rest.foldl (fun buf e2 => writeBytes buf (offF e2) (bytesF e2))
          (A ++ (bytesF e ++ (List.replicate (strideF e - (bytesF e).length) 0 ++
            List.replicate (total - (A.length + strideF e)) 0))))
        = rest.foldl (fun buf e2 => writeBytes buf (offF e2) (bytesF e2))
          ((A ++ (bytesF e ++ List.replicate (strideF e - (bytesF e).length) 0)) ++
            List.replicate (total - (A.length + strideF e)) 0) := by
          simp [List.append_assoc]
      _ = (A ++ (bytesF e ++ List.replicate (strideF e - (bytesF e).length) 0)) ++
            chunksOut bytesF strideF rest (A.length + strideF e) total := this
      _ = A ++ chunksOut bytesF strideF (e :: rest) A.length total := by
          simp [chunksOut, List.append_assoc]

def dirStride (e : DirEntry) : Nat := DIR_ENTRY_SIZE + romAlign e.nameSize 4

def fileStride (e : FileEntry) : Nat := FILE_ENTRY_SIZE + romAlign e.nameSize 4

theorem length_dirEntryBytes (e : DirEntry) :
    (dirEntryBytes e).length = 24 + e.name.length := by
  simp [dirEntryBytes, length_natToBytesLE]
  omega

theorem length_fileEntryBytes (e : FileEntry) :
    (fileEntryBytes e).length = 32 + e.name.length := by
  simp [fileEntryBytes, length_natToBytesLE]
  omega

theorem dirLayout_chunksOk : ∀ (entries : List DirEntry) (cs : List DirCore)
    (lo hi : Nat), entries.map dirCore = cs → dirLayout lo cs hi →
    chunksOk (fun e => e.offset) dirEntryBytes dirStride entries lo hi := by
  intro entries
  induction entries with
  | nil =>
    intro cs lo hi hmap hlay
    rw [← hmap] at hlay
    exact hlay
  | cons e rest ih =>
    intro cs lo hi hmap hlay
    rw [← hmap] at hlay
    obtain ⟨hoff, hns, hrest⟩ := hlay
    refine ⟨hoff, ?_, ?_, ?_⟩
    · rw [length_dirEntryBytes]
      have h1 : (dirCore e).nameSize = e.nameSize := rfl
      have h2 : (dirCore e).name = e.name := rfl
      rw [h1, h2] at hns
      have := romAlign_ge e.nameSize 4 (by norm_num)
      show 24 + e.name.length ≤ DIR_ENTRY_SIZE + romAlign e.nameSize 4
      have hD : DIR_ENTRY_SIZE = 24 := rfl
      omega
    · have : DIR_ENTRY_SIZE = 24 := rfl
      show 0 < DIR_ENTRY_SIZE + romAlign e.nameSize 4
      omega
    · have hstep : lo + DIR_ENTRY_SIZE + romAlign (dirCore e).nameSize 4 =
          lo + dirStride e := by
        show lo + DIR_ENTRY_SIZE + romAlign e.nameSize 4 =
          lo + (DIR_ENTRY_SIZE + romAlign e.nameSize 4)
        omega
      rw [hstep] at hrest
      exact ih _ _ _ rfl hrest

theorem fileLayout_chunksOk : ∀ (entries : List FileEntry) (cs : List FileCore)
    (lo hi : Nat), entries.map fileCore = cs → fileLayout lo cs hi →
    chunksOk (fun e => e.offset) fileEntryBytes fileStride entries lo hi := by
  intro entries
  induction entries with
  | nil =>
    intro cs lo hi hmap hlay
    rw [← hmap] at hlay
    exact hlay
  | cons e rest ih =>
    intro cs lo hi hmap hlay
    rw [← hmap] at hlay
    obtain ⟨hoff, hns, hrest⟩ := hlay
    refine ⟨hoff, ?_, ?_, ?_⟩
    · rw [length_fileEntryBytes]
      have h1 : (fileCore e).nameSize = e.nameSize := rfl
      have h2 : (fileCore e).name = e.name := rfl
      rw [h1, h2] at hns
      have := romAlign_ge e.nameSize 4 (by norm_num)
      show 32 + e.name.length ≤ FILE_ENTRY_SIZE + romAlign e.nameSize 4
      have hF : FILE_ENTRY_SIZE = 32 := rfl
      omega
    · have : FILE_ENTRY_SIZE = 32 := rfl
      show 0 < FILE_ENTRY_SIZE + romAlign e.nameSize 4
      omega
    · have hstep : lo + FILE_ENTRY_SIZE + romAlign (fileCore e).nameSize 4 =
          lo + fileStride e := by
        show lo + FILE_ENTRY_SIZE + romAlign e.nameSize 4 =
          lo + (FILE_ENTRY_SIZE + romAlign e.nameSize 4)
        omega
      rw [hstep] at hrest
      exact ih _ _ _ rfl hrest

theorem dirTableBytes_eq (entries : List DirEntry) (total : Nat)
    (hok : chunksOk (fun e => e.offset) dirEntryBytes dirStride entries 0 total) :
    dirTableBytes entries total =
      chunksOut dirEntryBytes dirStride entries 0 total := by
  have h := foldl_writeBytes_chunksOut (fun e => e.offset) dirEntryBytes dirStride
    entries [] total (by simpa using hok)
  simpa [dirTableBytes] using h

theorem fileTableBytes_eq (entries : List FileEntry) (total : Nat)
    (hok : chunksOk (fun e => e.offset) fileEntryBytes fileStride entries 0 total) :
    fileTableBytes entries total =
      chunksOut fileEntryBytes fileStride entries 0 total := by
  have h := foldl_writeBytes_chunksOut (fun e => e.offset) fileEntryBytes fileStride
    entries [] total (by simpa using hok)
  simpa [fileTableBytes] using h

theorem readU32LE_at_len (P X : List Nat) (v : Nat) (hv : v < 2 ^ 32) (k : Nat)
    (hk : P.length = k) : readU32LE (P ++ (natToBytesLE 4 v ++ X)) k = v := by
  subst hk
  rw [readU32LE_drop, List.drop_left, readU32LE_natToBytesLE _ _ hv]

theorem readU64LE_at_len (P X : List Nat) (v : Nat) (hv : v < 2 ^ 64) (k : Nat)
    (hk : P.length = k) : readU64LE (P ++ (natToBytesLE 8 v ++ X)) k = v := by
  subst hk
  rw [readU64LE_drop, List.drop_left, readU64LE_natToBytesLE _ _ hv]

theorem slice_at_len (P X nm : List Nat) (k n : Nat) (hk : P.length = k)
    (hn : nm.length = n) : sliceBytes (P ++ (nm ++ X)) k (k + n) = nm := by
  rw [sliceBytes_drop_take]
  subst hk
  rw [List.drop_left]
  have h1 : P.length + n - P.length = n := by omega
  rw [h1, ← hn, List.take_left]

/-- All serialized `DirEntry` fields fit their encodings. -/
def dirEntryFieldsOk (e : DirEntry) : Prop :=
  e.parentOffset < 2 ^ 32 ∧ e.siblingOffset < 2 ^ 32 ∧ e.childOffset < 2 ^ 32 ∧
    e.fileOffset < 2 ^ 32 ∧ e.hashSiblingOffset < 2 ^ 32 ∧ e.nameSize < 2 ^ 32 ∧
    e.nameSize = e.name.length

/-- All serialized `FileEntry` fields fit their encodings. -/
def fileEntryFieldsOk (e : FileEntry) : Prop :=
  e.parentOffset < 2 ^ 32 ∧ e.siblingOffset < 2 ^ 32 ∧ e.dataOffset < 2 ^ 64 ∧
    e.dataSize < 2 ^ 64 ∧ e.hashSiblingOffset < 2 ^ 32 ∧ e.nameSize < 2 ^ 32 ∧
    e.nameSize = e.name.length

/-- `parseFileEntry` re-reads exactly the record fields (`offset` is the
running address). -/
def pFileOf (e : FileEntry) : PFileEntry :=
  ⟨e.offset, e.parentOffset, e.siblingOffset, e.dataOffset, e.dataSize,
    e.hashSiblingOffset, e.nameSize, e.name⟩

theorem parseDirGoF_chunks : ∀ (entries : List DirEntry) (fuel : Nat)
    (A tbl : List Nat) (total : Nat),
    tbl = A ++ chunksOut dirEntryBytes dirStride entries A.length total →
    chunksOk (fun e => e.offset) dirEntryBytes dirStride entries A.length total →
    (∀ e ∈ entries, dirEntryFieldsOk e) →
    entries.length < fuel →
    parseDirGoF fuel tbl total A.length = some entries := by
  intro entries
  induction entries with
  | nil =>
    intro fuel A tbl total htbl hok hb hfuel
    cases fuel with
    | zero => omega
    | succ f =>
      have hA : A.length = total := hok
      simp only [parseDirGoF]
      rw [if_neg (by omega)]
  | cons e rest ih =>
    intro fuel A tbl total htbl hok hb hfuel
    cases fuel with
    | zero => simp at hfuel
    | succ f =>
      obtain ⟨hoff, hlen, hpos, hrest⟩ := hok
      obtain ⟨hbp, hbs, hbc, hbf, hbh, hbn, hns⟩ := hb e (by simp)
      have hle := chunksOk_le _ _ _ _ _ _ hrest
      have hguard : A.length < total := by omega
      -- the table decomposed around this record, fully right-associated
      have htbl2 : tbl = A ++ (natToBytesLE 4 e.parentOffset ++
          (natToBytesLE 4 e.siblingOffset ++ (natToBytesLE 4 e.childOffset ++
          (natToBytesLE 4 e.fileOffset ++ (natToBytesLE 4 e.hashSiblingOffset ++
          (natToBytesLE 4 e.nameSize ++ (e.name ++
          (List.replicate (dirStride e - (dirEntryBytes e).length) 0 ++
            chunksOut dirEntryBytes dirStride rest (A.length + dirStride e)
              total)))))))) := by
        rw [htbl]
        simp only [chunksOut, dirEntryBytes, List.append_assoc]
      have hp : readU32LE tbl A.length = e.parentOffset := by
        rw [htbl2]
        exact readU32LE_at_len _ _ _ hbp _ rfl
      have hs : readU32LE tbl (A.length + 4) = e.siblingOffset := by
        rw [htbl2, ← List.append_assoc]
        exact readU32LE_at_len _ _ _ hbs _
          (by simp only [List.length_append, length_natToBytesLE])
      have hc : readU32LE tbl (A.length + 8) = e.childOffset := by
        rw [htbl2, ← List.append_assoc, ← List.append_assoc]
        exact readU32LE_at_len _ _ _ hbc _
          (by simp only [List.length_append, length_natToBytesLE])
      have hf : readU32LE tbl (A.length + 12) = e.fileOffset := by
        rw [htbl2, ← List.append_assoc, ← List.append_assoc, ← List.append_assoc]
        exact readU32LE_at_len _ _ _ hbf _
          (by simp only [List.length_append, length_natToBytesLE])
      have hh : readU32LE tbl (A.length + 16) = e.hashSiblingOffset := by
        rw [htbl2, ← List.append_assoc, ← List.append_assoc, ← List.append_assoc,
          ← List.append_assoc]
        exact readU32LE_at_len _ _ _ hbh _
          (by simp only [List.length_append, length_natToBytesLE])
      have hn : readU32LE tbl (A.length + 20) = e.nameSize := by
        rw [htbl2, ← List.append_assoc, ← List.append_assoc, ← List.append_assoc,
          ← List.append_assoc, ← List.append_assoc]
        exact readU32LE_at_len _ _ _ hbn _
          (by simp only [List.length_append, length_natToBytesLE])
      have hnm : sliceBytes tbl (A.length + 24) (A.length + 24 + e.nameSize) =
          e.name := by
        rw [htbl2, ← List.append_assoc, ← List.append_assoc, ← List.append_assoc,
          ← List.append_assoc, ← List.append_assoc, ← List.append_assoc]
        exact slice_at_len _ _ _ _ _
          (by simp only [List.length_append, length_natToBytesLE]) hns.symm
      have hstrideEq : romAlign (DIR_ENTRY_SIZE + e.nameSize) 4 = dirStride e := by
        have h24 : DIR_ENTRY_SIZE = 24 := rfl
        show romAlign (DIR_ENTRY_SIZE + e.nameSize) 4 =
          DIR_ENTRY_SIZE + romAlign e.nameSize 4
        rw [h24]
        exact romAlign_add_left 24 e.nameSize 4 (by norm_num) ⟨6, rfl⟩
      have hA'len : (A ++ (dirEntryBytes e ++
          List.replicate (dirStride e - (dirEntryBytes e).length) 0)).length =
          A.length + dirStride e := by
        simp only [List.length_append, List.length_replicate]
        omega
      have hrec : parseDirGoF f tbl total (A.length + dirStride e) = some rest := by
        have htbl' : tbl = (A ++ (dirEntryBytes e ++
            List.replicate (dirStride e - (dirEntryBytes e).length) 0)) ++
            chunksOut dirEntryBytes dirStride rest
              (A ++ (dirEntryBytes e ++
                List.replicate (dirStride e - (dirEntryBytes e).length) 0)).length
              total := by
          rw [hA'len, htbl]
          simp only [chunksOut, List.append_assoc]
        have hok' : chunksOk (fun e2 => e2.offset) dirEntryBytes dirStride rest
            (A ++ (dirEntryBytes e ++
              List.replicate (dirStride e - (dirEntryBytes e).length) 0)).length
            total := by
          rw [hA'len]
          exact hrest
        have hres := ih f _ tbl total htbl' hok'
          (fun e2 he2 => hb e2 (by simp [he2])) (by simp at hfuel; omega)
        rwa [hA'len] at hres
      simp only [parseDirGoF]
      rw [if_pos hguard]
      simp only [hn, hnm, hp, hs, hc, hf, hh, hstrideEq, hrec]
      have hE : (⟨A.length, e.parentOffset, e.siblingOffset, e.childOffset,
          e.fileOffset, e.hashSiblingOffset, e.nameSize, e.name⟩ : DirEntry) = e := by
        rw [← hoff]
      rw [hE]

theorem parseFileGoF_chunks : ∀ (entries : List FileEntry) (fuel : Nat)
    (A tbl : List Nat) (total : Nat),
    tbl = A ++ chunksOut fileEntryBytes fileStride entries A.length total →
    chunksOk (fun e => e.offset) fileEntryBytes fileStride entries A.length total →
    (∀ e ∈ entries, fileEntryFieldsOk e) →
    entries.length < fuel →
    parseFileGoF fuel tbl total A.length = some (entries.map pFileOf) := by
  intro entries
  induction entries with
  | nil =>
    intro fuel A tbl total htbl hok hb hfuel
    cases fuel with
    | zero => omega
    | succ f =>
      have hA : A.length = total := hok
      simp only [parseFileGoF, List.map_nil]
      rw [if_neg (by omega)]
  | cons e rest ih =>
    intro fuel A tbl total htbl hok hb hfuel
    cases fuel with
    | zero => simp at hfuel
    | succ f =>
      obtain ⟨hoff, hlen, hpos, hrest⟩ := hok
      obtain ⟨hbp, hbs, hbdo, hbds, hbh, hbn, hns⟩ := hb e (by simp)
      have hle := chunksOk_le _ _ _ _ _ _ hrest
      have hguard : A.length < total := by omega
      have htbl2 : tbl = A ++ (natToBytesLE 4 e.parentOffset ++
          (natToBytesLE 4 e.siblingOffset ++ (natToBytesLE 8 e.dataOffset ++
          (natToBytesLE 8 e.dataSize ++ (natToBytesLE 4 e.hashSiblingOffset ++
          (natToBytesLE 4 e.nameSize ++ (e.name ++
          (List.replicate (fileStride e - (fileEntryBytes e).length) 0 ++
            chunksOut fileEntryBytes fileStride rest (A.length + fileStride e)
              total)))))))) := by
        rw [htbl]
        simp only [chunksOut, fileEntryBytes, List.append_assoc]
      have hp : readU32LE tbl A.length = e.parentOffset := by
        rw [htbl2]
        exact readU32LE_at_len _ _ _ hbp _ rfl
      have hs : readU32LE tbl (A.length + 4) = e.siblingOffset := by
        rw [htbl2, ← List.append_assoc]
        exact readU32LE_at_len _ _ _ hbs _
          (by simp only [List.length_append, length_natToBytesLE])
      have hdo : readU64LE tbl (A.length + 8) = e.dataOffset := by
        rw [htbl2, ← List.append_assoc, ← List.append_assoc]
        exact readU64LE_at_len _ _ _ hbdo _
          (by simp only [List.length_append, length_natToBytesLE])
      have hds : readU64LE tbl (A.length + 16) = e.dataSize := by
        rw [htbl2, ← List.append_assoc, ← List.append_assoc, ← List.append_assoc]
        exact readU64LE_at_len _ _ _ hbds _
          (by simp only [List.length_append, length_natToBytesLE])
      have hh : readU32LE tbl (A.length + 24) = e.hashSiblingOffset := by
        rw [htbl2, ← List.append_assoc, ← List.append_assoc, ← List.append_assoc,
          ← List.append_assoc]
        exact readU32LE_at_len _ _ _ hbh _
          (by simp only [List.length_append, length_natToBytesLE])
      have hn : readU32LE tbl (A.length + 28) = e.nameSize := by
        rw [htbl2, ← List.append_assoc, ← List.append_assoc, ← List.append_assoc,
          ← List.append_assoc, ← List.append_assoc]
        exact readU32LE_at_len _ _ _ hbn _
          (by simp only [List.length_append, length_natToBytesLE])
      have hnm : sliceBytes tbl (A.length + 32) (A.length + 32 + e.nameSize) =
          e.name := by
        rw [htbl2, ← List.append_assoc, ← List.append_assoc, ← List.append_assoc,
          ← List.append_assoc, ← List.append_assoc, ← List.append_assoc]
        exact slice_at_len _ _ _ _ _
          (by simp only [List.length_append, length_natToBytesLE]) hns.symm
      have hstrideEq : romAlign (FILE_ENTRY_SIZE + e.nameSize) 4 = fileStride e := by
        have h32 : FILE_ENTRY_SIZE = 32 := rfl
        show romAlign (FILE_ENTRY_SIZE + e.nameSize) 4 =
          FILE_ENTRY_SIZE + romAlign e.nameSize 4
        rw [h32]
        exact romAlign_add_left 32 e.nameSize 4 (by norm_num) ⟨8, rfl⟩
      have hA'len : (A ++ (fileEntryBytes e ++
          List.replicate (fileStride e - (fileEntryBytes e).length) 0)).length =
          A.length + fileStride e := by
        simp only [List.length_append, List.length_replicate]
        omega
      have hrec : parseFileGoF f tbl total (A.length + fileStride e) =
          some (rest.map pFileOf) := by
        have htbl' : tbl = (A ++ (fileEntryBytes e ++
            List.replicate (fileStride e - (fileEntryBytes e).length) 0)) ++
            chunksOut fileEntryBytes fileStride rest
              (A ++ (fileEntryBytes e ++
                List.replicate (fileStride e - (fileEntryBytes e).length) 0)).length
              total := by
          rw [hA'len, htbl]
          simp only [chunksOut, List.append_assoc]
        have hok' : chunksOk (fun e2 => e2.offset) fileEntryBytes fileStride rest
            (A ++ (fileEntryBytes e ++
              List.replicate (fileStride e - (fileEntryBytes e).length) 0)).length
            total := by
          rw [hA'len]
          exact hrest
        have hres := ih f _ tbl total htbl' hok'
          (fun e2 he2 => hb e2 (by simp [he2])) (by simp at hfuel; omega)
        rwa [hA'len] at hres
      simp only [parseFileGoF]
      rw [if_pos hguard]
      simp only [hn, hnm, hp, hs, hdo, hds, hh, hstrideEq, hrec]
      have hE : (⟨A.length, e.parentOffset, e.siblingOffset, e.dataOffset,
          e.dataSize, e.hashSiblingOffset, e.nameSize, e.name⟩ : PFileEntry) =
          pFileOf e := by
        rw [← hoff]
        rfl
      rw [hE, List.map_cons]

/-! Link-field bounds: every sibling/child/file link the walk writes is
either `ROMFS_ENTRY_EMPTY` or a table offset below the final counter. -/

def dirLinksOk (db fb : Nat) (e : DirEntry) : Prop :=
  (e.siblingOffset = ROMFS_ENTRY_EMPTY ∨ e.siblingOffset < db) ∧
    (e.childOffset = ROMFS_ENTRY_EMPTY ∨ e.childOffset < db) ∧
    (e.fileOffset = ROMFS_ENTRY_EMPTY ∨ e.fileOffset < fb)

def fileLinksOk (fb : Nat) (f : FileEntry) : Prop :=
  f.siblingOffset = ROMFS_ENTRY_EMPTY ∨ f.siblingOffset < fb

theorem dirLinksOk_mono {db fb db' fb' : Nat} {e : DirEntry}
    (h : dirLinksOk db fb e) (h1 : db ≤ db') (h2 : fb ≤ fb') :
    dirLinksOk db' fb' e := by
  obtain ⟨a, b, c⟩ := h
  refine ⟨?_, ?_, ?_⟩
  · rcases a with a | a
    · exact Or.inl a
    · exact Or.inr (by omega)
  · rcases b with b | b
    · exact Or.inl b
    · exact Or.inr (by omega)
  · rcases c with c | c
    · exact Or.inl c
    · exact Or.inr (by omega)

theorem fileLinksOk_mono {fb fb' : Nat} {f : FileEntry}
    (h : fileLinksOk fb f) (h2 : fb ≤ fb') : fileLinksOk fb' f := by
  rcases h with a | a
  · exact Or.inl a
  · exact Or.inr (by omega)

theorem mem_modifyAt {α : Type} : ∀ (l : List α) (p : Nat) (g : α → α) (y : α),
    y ∈ modifyAt l p g → y ∈ l ∨ ∃ x, x ∈ l ∧ y = g x := by
  intro l
  induction l with
  | nil => intro p g y h; exact absurd h (by simp [modifyAt])
  | cons x xs ih =>
    intro p g y h
    cases p with
    | zero =>
      simp only [modifyAt, List.mem_cons] at h
      rcases h with h | h
      · exact Or.inr ⟨x, by simp, h⟩
      · exact Or.inl (by simp [h])
    | succ n =>
      simp only [modifyAt, List.mem_cons] at h
      rcases h with h | h
      · exact Or.inl (by simp [h])
      · rcases ih n g y h with h2 | ⟨x2, hx2, hy⟩
        · exact Or.inl (by simp [h2])
        · exact Or.inr ⟨x2, by simp [hx2], hy⟩

theorem fileStep_links (st : WalkState) (parent feo dOff : Nat)
    (name data : List Nat) (pf : Option Nat) (db fb : Nat) (hfeo : feo < fb)
    (hd : ∀ e ∈ st.dirEntries, dirLinksOk db fb e)
    (hf : ∀ f ∈ st.fileEntries, fileLinksOk fb f) :
    (∀ e ∈ (fileStep st parent feo dOff name data pf).dirEntries,
      dirLinksOk db fb e) ∧
    (∀ f ∈ (fileStep st parent feo dOff name data pf).fileEntries,
      fileLinksOk fb f) := by
  have hfe : ∀ f ∈ st.fileEntries ++
      [(⟨feo, (dirAt st parent).offset, ROMFS_ENTRY_EMPTY, dOff, data.length,
        ROMFS_ENTRY_EMPTY, name.length, name, data⟩ : FileEntry)],
      fileLinksOk fb f := by
    intro f hmem
    rcases List.mem_append.mp hmem with h | h
    · exact hf f h
    · simp at h
      subst h
      exact Or.inl rfl
  have hstep2 : ∀ (st2 : WalkState),
      (∀ e ∈ st2.dirEntries, dirLinksOk db fb e) →
      (∀ f ∈ st2.fileEntries, fileLinksOk fb f) →
      (∀ e ∈ (if (dirAt st2 parent).fileOffset = ROMFS_ENTRY_EMPTY then
          setDirFile st2 parent feo else st2).dirEntries, dirLinksOk db fb e) ∧
      (∀ f ∈ (if (dirAt st2 parent).fileOffset = ROMFS_ENTRY_EMPTY then
          setDirFile st2 parent feo else st2).fileEntries, fileLinksOk fb f) := by
    intro st2 hd2 hf2
    by_cases hc : (dirAt st2 parent).fileOffset = ROMFS_ENTRY_EMPTY
    · rw [if_pos hc]
      refine ⟨?_, hf2⟩
      intro e hmem
      rcases mem_modifyAt _ _ _ _ hmem with h | ⟨x, hx, hy⟩
      · exact hd2 e h
      · subst hy
        have := hd2 x hx
        exact ⟨this.1, this.2.1, Or.inr hfeo⟩
    · rw [if_neg hc]
      exact ⟨hd2, hf2⟩
  cases pf with
  | none => exact hstep2 _ hd hfe
  | some p =>
    refine hstep2 _ hd ?_
    intro f hmem
    rcases mem_modifyAt _ _ _ _ hmem with h | ⟨x, hx, hy⟩
    · exact hfe f h
    · subst hy
      exact Or.inr hfeo

theorem dirStep_links (st : WalkState) (parent deo : Nat) (name : List Nat)
    (pd : Option Nat) (db fb : Nat) (hdeo : deo < db)
    (hd : ∀ e ∈ st.dirEntries, dirLinksOk db fb e) :
    ∀ e ∈ (dirStep st parent deo name pd).dirEntries, dirLinksOk db fb e := by
  have hde : ∀ e ∈ st.dirEntries ++
      [(⟨deo, (dirAt st parent).offset, ROMFS_ENTRY_EMPTY, ROMFS_ENTRY_EMPTY,
        ROMFS_ENTRY_EMPTY, ROMFS_ENTRY_EMPTY, name.length, name⟩ : DirEntry)],
      dirLinksOk db fb e := by
    intro e hmem
    rcases List.mem_append.mp hmem with h | h
    · exact hd e h
    · simp at h
      subst h
      exact ⟨Or.inl rfl, Or.inl rfl, Or.inl rfl⟩
  have hstep2 : ∀ (st2 : WalkState),
      (∀ e ∈ st2.dirEntries, dirLinksOk db fb e) →
      ∀ e ∈ (if (dirAt st2 parent).childOffset = ROMFS_ENTRY_EMPTY then
          setDirChild st2 parent deo else st2).dirEntries, dirLinksOk db fb e := by
    intro st2 hd2
    by_cases hc : (dirAt st2 parent).childOffset = ROMFS_ENTRY_EMPTY
    · rw [if_pos hc]
      intro e hmem
      rcases mem_modifyAt _ _ _ _ hmem with h | ⟨x, hx, hy⟩
      · exact hd2 e h
      · subst hy
        have := hd2 x hx
        exact ⟨this.1, Or.inr hdeo, this.2.2⟩
    · rw [if_neg hc]
      exact hd2
  cases pd with
  | none => exact hstep2 _ hde
  | some p =>
    refine hstep2 _ ?_
    intro e hmem
    rcases mem_modifyAt _ _ _ _ hmem with h | ⟨x, hx, hy⟩
    · exact hde e h
    · subst hy
      have := hde x hx
      exact ⟨Or.inr hdeo, this.2.1, this.2.2⟩

theorem walkGoF_links : ∀ (fuel : Nat) (entries : List (List Nat × RomVal))
    (st : WalkState) (parent deo feo dOff : Nat) (pd pf : Option Nat)
    (st' : WalkState) (deo' feo' dOff' : Nat),
    walkGoF fuel entries st parent deo feo dOff pd pf =
      some (st', deo', feo', dOff') →
    (∀ e ∈ st.dirEntries, dirLinksOk deo feo e) →
    (∀ f ∈ st.fileEntries, fileLinksOk feo f) →
    (∀ e ∈ st'.dirEntries, dirLinksOk deo' feo' e) ∧
    (∀ f ∈ st'.fileEntries, fileLinksOk feo' f) := by
  intro fuel
  induction fuel with
  | zero =>
    intro entries st parent deo feo dOff pd pf st' deo' feo' dOff' h
    exact absurd h (by simp [walkGoF])
  | succ fuel ih =>
    intro entries st parent deo feo dOff pd pf st' deo' feo' dOff' h hd hf
    cases entries with
    | nil =>
      simp only [walkGoF, Option.some.injEq, Prod.mk.injEq] at h
      obtain ⟨h1, h2, h3, _⟩ := h
      subst h1; subst h2; subst h3
      exact ⟨hd, hf⟩
    | cons e rest =>
      obtain ⟨name, v⟩ := e
      cases v with
      | file data =>
        simp only [walkGoF] at h
        have hF : FILE_ENTRY_SIZE = 0x20 := rfl
        have hstep := fileStep_links st parent feo dOff name data pf deo
          (feo + FILE_ENTRY_SIZE + romAlign name.length 4) (by omega)
          (fun e he => dirLinksOk_mono (hd e he) (le_refl _) (by omega))
          (fun f2 hf2 => fileLinksOk_mono (hf f2 hf2) (by omega))
        exact ih _ _ _ _ _ _ _ _ _ _ _ _ h hstep.1 hstep.2
      | dir children =>
        simp only [walkGoF] at h
        split at h
        · exact absurd h (by simp)
        · rename_i st4 deo4 feo4 dOff4 hinner
          have hD : DIR_ENTRY_SIZE = 0x18 := rfl
          have hstep := dirStep_links st parent deo name pd
            (deo + DIR_ENTRY_SIZE + romAlign name.length 4) feo (by omega)
            (fun e he => dirLinksOk_mono (hd e he) (by omega) (le_refl _))
          have hfd : ∀ f2 ∈ (dirStep st parent deo name pd).fileEntries,
              fileLinksOk feo f2 := by
            rw [dirStep_fileEntries]
            exact hf
          have hinner2 := ih _ _ _ _ _ _ _ _ _ _ _ _ hinner hstep hfd
          exact ih _ _ _ _ _ _ _ _ _ _ _ _ h hinner2.1 hinner2.2

/-! The hash-chain passes only rewrite `hashSiblingOffset`, with values read
from the running hash table (initially all `ROMFS_ENTRY_EMPTY`, overwritten by
entry offsets). -/

theorem length_modifyAt {α : Type} : ∀ (l : List α) (p : Nat) (g : α → α),
    (modifyAt l p g).length = l.length := by
  intro l
  induction l with
  | nil => intro p g; rfl
  | cons x xs ih =>
    intro p g
    cases p with
    | zero => rfl
    | succ n => simp [modifyAt, ih n]

theorem romfsGetHashTableCountGo_ge : ∀ (fuel k c : Nat),
    romfsGetHashTableCountGo fuel k = some c → k ≤ c := by
  intro fuel
  induction fuel with
  | zero => intro k c h; exact absurd h (by simp [romfsGetHashTableCountGo])
  | succ fuel ih =>
    intro k c h
    simp only [romfsGetHashTableCountGo] at h
    split at h
    · have := ih (k + 1) c h
      omega
    · simp only [Option.some.injEq] at h
      omega

theorem romfsGetHashTableCount_pos (fuel n c : Nat)
    (h : romfsGetHashTableCount fuel n = some c) : 0 < c := by
  unfold romfsGetHashTableCount at h
  split at h
  · simp only [Option.some.injEq] at h
    omega
  · split at h
    · simp only [Option.some.injEq] at h
      subst h
      have h1 : ¬ (n ||| 1 = 0) := by
        intro hz
        have h2 : (n ||| 1).testBit 0 = false := by rw [hz]; simp
        rw [Nat.testBit_lor] at h2
        simp [Nat.testBit] at h2
      omega
    · have := romfsGetHashTableCountGo_ge fuel n c h
      omega

/-- The hash pass rewrites exactly `hashSiblingOffset`, to a value satisfying
the hash-table invariant `P`. -/
def hashPatched (P : Nat → Prop) (e e' : DirEntry) : Prop :=
  e'.offset = e.offset ∧ e'.parentOffset = e.parentOffset ∧
    e'.siblingOffset = e.siblingOffset ∧ e'.childOffset = e.childOffset ∧
    e'.fileOffset = e.fileOffset ∧ e'.nameSize = e.nameSize ∧
    e'.name = e.name ∧ P e'.hashSiblingOffset

def hashPatchedF (P : Nat → Prop) (e e' : FileEntry) : Prop :=
  e'.offset = e.offset ∧ e'.parentOffset = e.parentOffset ∧
    e'.siblingOffset = e.siblingOffset ∧ e'.dataOffset = e.dataOffset ∧
    e'.dataSize = e.dataSize ∧ e'.nameSize = e.nameSize ∧
    e'.name = e.name ∧ e'.data = e.data ∧ P e'.hashSiblingOffset

theorem getD_mem_of_lt {l : List Nat} {i : Nat} (h : i < l.length) (d : Nat) :
    l.getD i d ∈ l := by
  rw [List.getD_eq_getElem l d h]
  exact List.getElem_mem h

theorem dirHashPassGo_forall2 : ∀ (l all : List DirEntry) (count i : Nat)
    (tbl : List Nat) (acc : List DirEntry) (P : Nat → Prop),
    tbl.length = count → 0 < count →
    (∀ v ∈ tbl, P v) → (∀ e ∈ l, P e.offset) →
    ∃ l2 tbl2, dirHashPassGo all count l i tbl acc = (acc ++ l2, tbl2) ∧
      List.Forall₂ (hashPatched P) l l2 ∧ tbl2.length = count := by
  intro l
  induction l with
  | nil =>
    intro all count i tbl acc P hlen hpos hP hPo
    exact ⟨[], tbl, by simp [dirHashPassGo], List.Forall₂.nil, hlen⟩
  | cons e rest ih =>
    intro all count i tbl acc P hlen hpos hP hPo
    simp only [dirHashPassGo]
    have hslot : (calcPathHash (match all.find? (fun p => p.offset == e.parentOffset) with
        | some p => p.offset
        | none => 0) (if i = 0 then [] else 0x2f :: e.name) 1 e.nameSize) % count <
        tbl.length := by
      rw [hlen]
      exact Nat.mod_lt _ hpos
    obtain ⟨l2, tbl2, hrun, hfa, hlen2⟩ := ih all count (i + 1)
      (modifyAt tbl ((calcPathHash (match all.find? (fun p => p.offset == e.parentOffset) with
        | some p => p.offset
        | none => 0) (if i = 0 then [] else 0x2f :: e.name) 1 e.nameSize) % count) (fun _ => e.offset))
      (acc ++ [{ e with hashSiblingOffset := tbl.getD ((calcPathHash (match all.find? (fun p => p.offset == e.parentOffset) with
        | some p => p.offset
        | none => 0) (if i = 0 then [] else 0x2f :: e.name) 1 e.nameSize) % count) 0 }]) P
      (by rw [length_modifyAt]; exact hlen) hpos
      (by
        intro v hv
        rcases mem_modifyAt _ _ _ _ hv with h | ⟨x, _, hy⟩
        · exact hP v h
        · rw [hy]
          exact hPo e (by simp))
      (fun e2 he2 => hPo e2 (by simp [he2]))
    refine ⟨{ e with hashSiblingOffset := tbl.getD ((calcPathHash (match all.find? (fun p => p.offset == e.parentOffset) with
        | some p => p.offset
        | none => 0) (if i = 0 then [] else 0x2f :: e.name) 1 e.nameSize) % count) 0 } :: l2, tbl2, ?_, ?_, hlen2⟩
    · rw [hrun]
      simp [List.append_assoc]
    · refine List.Forall₂.cons ?_ hfa
      refine ⟨rfl, rfl, rfl, rfl, rfl, rfl, rfl, ?_⟩
      exact hP _ (getD_mem_of_lt hslot 0)

theorem fileHashPassGo_forall2 : ∀ (l : List FileEntry) (dirs : List DirEntry)
    (count : Nat) (tbl : List Nat) (acc : List FileEntry) (P : Nat → Prop),
    tbl.length = count → 0 < count →
    (∀ v ∈ tbl, P v) → (∀ e ∈ l, P e.offset) →
    ∃ l2 tbl2, fileHashPassGo dirs count l tbl acc = (acc ++ l2, tbl2) ∧
      List.Forall₂ (hashPatchedF P) l l2 ∧ tbl2.length = count := by
  intro l
  induction l with
  | nil =>
    intro dirs count tbl acc P hlen hpos hP hPo
    exact ⟨[], tbl, by simp [fileHashPassGo], List.Forall₂.nil, hlen⟩
  | cons e rest ih =>
    intro dirs count tbl acc P hlen hpos hP hPo
    simp only [fileHashPassGo]
    have hslot : (calcPathHash (match dirs.find? (fun p => p.offset == e.parentOffset) with
        | some p => p.offset
        | none => 0) (0x2f :: e.name) 1 e.nameSize) % count < tbl.length := by
      rw [hlen]
      exact Nat.mod_lt _ hpos
    obtain ⟨l2, tbl2, hrun, hfa, hlen2⟩ := ih dirs count
      (modifyAt tbl ((calcPathHash (match dirs.find? (fun p => p.offset == e.parentOffset) with
        | some p => p.offset
        | none => 0) (0x2f :: e.name) 1 e.nameSize) % count) (fun _ => e.offset))
      (acc ++ [{ e with hashSiblingOffset := tbl.getD ((calcPathHash (match dirs.find? (fun p => p.offset == e.parentOffset) with
        | some p => p.offset
        | none => 0) (0x2f :: e.name) 1 e.nameSize) % count) 0 }]) P
      (by rw [length_modifyAt]; exact hlen) hpos
      (by
        intro v hv
        rcases mem_modifyAt _ _ _ _ hv with h | ⟨x, _, hy⟩
        · exact hP v h
        · rw [hy]
          exact hPo e (by simp))
      (fun e2 he2 => hPo e2 (by simp [he2]))
    refine ⟨{ e with hashSiblingOffset := tbl.getD ((calcPathHash (match dirs.find? (fun p => p.offset == e.parentOffset) with
        | some p => p.offset
        | none => 0) (0x2f :: e.name) 1 e.nameSize) % count) 0 } :: l2, tbl2, ?_, ?_, hlen2⟩
    · rw [hrun]
      simp [List.append_assoc]
    · refine List.Forall₂.cons ?_ hfa
      refine ⟨rfl, rfl, rfl, rfl, rfl, rfl, rfl, rfl, ?_⟩
      exact hP _ (getD_mem_of_lt hslot 0)

theorem forall2_hashPatched_core {P : Nat → Prop} :
    ∀ {l l2 : List DirEntry}, List.Forall₂ (hashPatched P) l l2 →
    l2.map dirCore = l.map dirCore := by
  intro l l2 h
  induction h with
  | nil => rfl
  | cons h1 _ ih =>
    rename_i a b l1 l1'
    simp only [List.map_cons, ih, List.cons.injEq, and_true]
    obtain ⟨h2, h3, _, _, _, h4, h5, _⟩ := h1
    simp [dirCore, h2, h3, h4, h5]

theorem forall2_hashPatchedF_core {P : Nat → Prop} :
    ∀ {l l2 : List FileEntry}, List.Forall₂ (hashPatchedF P) l l2 →
    l2.map fileCore = l.map fileCore := by
  intro l l2 h
  induction h with
  | nil => rfl
  | cons h1 _ ih =>
    rename_i a b l1 l1'
    simp only [List.map_cons, ih, List.cons.injEq, and_true]
    obtain ⟨h2, h3, _, h4, h5, h6, h7, h8, _⟩ := h1
    simp [fileCore, h2, h3, h4, h5, h6, h7, h8]

theorem forall2_mem_right {α β : Type} {R : α → β → Prop} :
    ∀ {l : List α} {l2 : List β}, List.Forall₂ R l l2 →
    ∀ y ∈ l2, ∃ x ∈ l, R x y := by
  intro l l2 h
  induction h with
  | nil => intro y hy; exact absurd hy (by simp)
  | cons h1 _ ih =>
    intro y hy
    rcases List.mem_cons.mp hy with h2 | h2
    · subst h2
      exact ⟨_, by simp, h1⟩
    · obtain ⟨x, hx, hr⟩ := ih y h2
      exact ⟨x, by simp [hx], hr⟩

/-! The file partition: `filePartitionSize` matches the emitted bytes, and
each file's slice of the image is its data. -/

theorem sliceBytes_append_of_le (l rest : List Nat) (a b : Nat)
    (hb : b ≤ l.length) : sliceBytes (l ++ rest) a b = sliceBytes l a b := by
  unfold sliceBytes
  rw [List.take_append_eq_append_take]
  have h1 : b - l.length = 0 := by omega
  rw [h1, List.take_zero, List.append_nil]

theorem filePartSizeGo : ∀ (entries : List FileEntry) (cs : List FileCore)
    (lo hi acc : Nat), entries.map fileCore = cs → partLayout lo cs hi →
    romAlign acc 0x10 = lo → 16 ∣ lo →
    entries.foldl (fun a f => romAlign a 0x10 + f.dataSize) acc =
      (if entries = [] then acc else lo + (filePartBytes entries).length) := by
  intro entries
  induction entries with
  | nil =>
    intro cs lo hi acc hmap hlay hacc hdvd
    simp
  | cons e rest ih =>
    intro cs lo hi acc hmap hlay hacc hdvd
    rw [← hmap] at hlay
    obtain ⟨hoff, hsize, hrest⟩ := hlay
    have hsize2 : e.dataSize = e.data.length := hsize
    simp only [List.foldl_cons, hacc]
    cases rest with
    | nil =>
      rw [if_neg (by simp)]
      simp only [List.foldl_nil, filePartBytes]
      omega
    | cons r rs =>
      have hstep : romAlign (lo + e.dataSize) 0x10 =
          lo + romAlign e.data.length 0x10 := by
        rw [hsize2]
        exact romAlign_add_left lo e.data.length 0x10 (by norm_num) hdvd
      have := ih _ _ _ (lo + e.dataSize) rfl hrest hstep
        (Dvd.dvd.add hdvd (romAlign_16_dvd e.data.length))
      rw [if_neg (by simp)] at this
      rw [this, if_neg (by simp)]
      have hge := romAlign_ge e.data.length 0x10 (by norm_num)
      have hcd : (fileCore e).data.length = e.data.length := rfl
      rw [hcd] at this ⊢
      simp only [filePartBytes, List.length_append, List.length_replicate]
      omega

theorem filePartitionSize_eq (entries : List FileEntry) (cs : List FileCore)
    (hi : Nat) (hmap : entries.map fileCore = cs) (hlay : partLayout 0 cs hi) :
    filePartitionSize entries = (filePartBytes entries).length := by
  have h := filePartSizeGo entries cs 0 hi 0 hmap hlay rfl ⟨0, rfl⟩
  unfold filePartitionSize
  rw [h]
  cases entries with
  | nil => simp [filePartBytes]
  | cons e rest => simp

theorem filePart_slices : ∀ (entries : List FileEntry) (cs : List FileCore)
    (lo hi : Nat) (P : List Nat) (base : Nat),
    entries.map fileCore = cs → partLayout lo cs hi → P.length = base + lo →
    ∀ e ∈ entries,
      sliceBytes (P ++ filePartBytes entries) (base + e.dataOffset)
        (base + e.dataOffset + e.dataSize) = e.data ∧
      base + e.dataOffset + e.dataSize ≤ base + lo + (filePartBytes entries).length := by
  intro entries
  induction entries with
  | nil =>
    intro cs lo hi P base hmap hlay hP e he
    exact absurd he (by simp)
  | cons f rest ih =>
    intro cs lo hi P base hmap hlay hP e he
    rw [← hmap] at hlay
    obtain ⟨hoff, hsize, hrest⟩ := hlay
    have hoff2 : f.dataOffset = lo := hoff
    have hsize2 : f.dataSize = f.data.length := hsize
    rcases List.mem_cons.mp he with he1 | he1
    · subst he1
      rw [hoff2, hsize2]
      cases rest with
      | nil =>
        constructor
        · have h := slice_at_len P [] e.data (base + lo) e.data.length hP rfl
          rw [List.append_nil] at h
          show sliceBytes (P ++ filePartBytes [e]) (base + lo)
            (base + lo + e.data.length) = e.data
          exact h
        · show base + lo + e.data.length ≤ base + lo + (filePartBytes [e]).length
          simp [filePartBytes]
      | cons r rs =>
        constructor
        · have h := slice_at_len P
            (List.replicate (romAlign e.data.length 0x10 - e.data.length) 0 ++
              filePartBytes (r :: rs)) e.data (base + lo) e.data.length hP rfl
          show sliceBytes (P ++ filePartBytes (e :: r :: rs)) (base + lo)
            (base + lo + e.data.length) = e.data
          simp only [filePartBytes, List.append_assoc] at h ⊢
          exact h
        · have hge := romAlign_ge e.data.length 0x10 (by norm_num)
          show base + lo + e.data.length ≤
            base + lo + (filePartBytes (e :: r :: rs)).length
          simp only [filePartBytes, List.length_append, List.length_replicate]
          omega
    · cases rest with
      | nil => exact absurd he1 (by simp)
      | cons r rs =>
        have hge := romAlign_ge f.data.length 0x10 (by norm_num)
        have hP' : (P ++ (f.data ++
            List.replicate (romAlign f.data.length 0x10 - f.data.length) 0)).length =
            base + (lo + romAlign f.data.length 0x10) := by
          simp only [List.length_append, List.length_replicate]
          omega
        have := ih _ _ _ _ _ rfl hrest hP' e he1
        obtain ⟨hsl, hbd⟩ := this
        constructor
        · rw [← hsl]
          congr 1
          simp [filePartBytes, List.append_assoc]
        · calc base + e.dataOffset + e.dataSize
              ≤ base + (lo + romAlign f.data.length 0x10) +
                (filePartBytes (r :: rs)).length := hbd
            _ = base + lo + (filePartBytes (f :: r :: rs)).length := by
                simp only [filePartBytes, List.length_append, List.length_replicate]
                omega


/-! Names are unique per parent offset across the walked entries: needed for
the decoder's JS-object key insertion to be append-only. -/

theorem mem_fst_of_mem_filter_map {α : Type} (l : List (α × RomVal))
    (p : α × RomVal → Bool) (x : α) (hx : x ∈ (l.filter p).map (fun q => q.1)) :
    x ∈ l.map (fun q => q.1) := by
  obtain ⟨q, hq, hqx⟩ := List.mem_map.mp hx
  exact hqx ▸ List.mem_map_of_mem _ (List.mem_of_mem_filter hq)

theorem pureWalk_nodup : ∀ (fuel : Nat) (scs : List (List Nat × RomVal))
    (po deo feo dOff : Nat) (ds : List DirCore) (fs : List FileCore)
    (deo' feo' dOff' : Nat),
    pureWalk fuel scs po deo feo dOff = some (ds, fs, deo', feo', dOff') →
    po < deo →
    (scs.map (fun q => q.1)).Nodup →
    (∀ q ∈ scs, ∀ ch, q.2 = RomVal.dir ch → ∃ n, wfB n ch = true) →
    ∀ o, ((ds.filter (fun c => c.parentOffset == o)).map (fun c => c.name) ++
      (fs.filter (fun f => f.parentOffset == o)).map (fun f => f.name)).Nodup := by
  intro fuel
  induction fuel with
  | zero =>
    intro scs po deo feo dOff ds fs deo' feo' dOff' h
    exact absurd h (by simp [pureWalk])
  | succ fuel ih =>
    intro scs po deo feo dOff ds fs deo' feo' dOff' h hpo hnd hwf o
    cases scs with
    | nil =>
      simp only [pureWalk, Option.some.injEq, Prod.mk.injEq] at h
      obtain ⟨h1, h2, _⟩ := h
      subst h1; subst h2
      simp
    | cons e rest =>
      obtain ⟨name, v⟩ := e
      cases v with
      | file data =>
        simp only [pureWalk] at h
        split at h
        · exact absurd h (by simp)
        · rename_i ds0 fs0 r hrec
          simp only [Option.some.injEq, Prod.mk.injEq] at h
          obtain ⟨h1, h2, _⟩ := h
          subst h1; subst h2
          simp only [List.map_cons, List.nodup_cons] at hnd
          have ihall := ih _ _ _ _ _ _ _ _ _ _ hrec hpo hnd.2
            (fun q hq ch hch => hwf q (by simp [hq]) ch hch)
          obtain ⟨hc1, hc2, _⟩ := pureWalk_rep_go _ _ _ _ _ _ _ _ _ _ _ hrec hpo
          have hproj : (⟨feo, po, dOff, data.length, name.length, name, data⟩ :
              FileCore).parentOffset = po := rfl
          rw [List.filter_cons, hproj]
          by_cases ho : po = o
          · subst ho
            rw [if_pos (by simp)]
            simp only [List.map_cons]
            have hABnd := ihall po
            rw [List.nodup_append] at hABnd
            obtain ⟨hAnd, hBnd, hABdis⟩ := hABnd
            have hAn : ∀ x ∈ (ds0.filter (fun c => c.parentOffset == po)).map
                (fun c => c.name), x ∈ rest.map (fun q => q.1) := by
              intro x hx
              rw [hc2] at hx
              exact mem_fst_of_mem_filter_map rest _ _ hx
            have hBnames : (fs0.filter (fun f => f.parentOffset == po)).map
                (fun f => f.name) =
                (rest.filter (fun q => !(isDirP q))).map (fun q => q.1) := by
              have h3 := congrArg (List.map (fun pq : List Nat × RomVal => pq.1)) hc1
              rw [List.map_map] at h3
              exact h3
            have hBn : ∀ x ∈ (fs0.filter (fun f => f.parentOffset == po)).map
                (fun f => f.name), x ∈ rest.map (fun q => q.1) := by
              intro x hx
              rw [hBnames] at hx
              exact mem_fst_of_mem_filter_map rest _ _ hx
            rw [List.nodup_append]
            refine ⟨hAnd, ?_, ?_⟩
            · rw [List.nodup_cons]
              exact ⟨fun hmem => hnd.1 (hBn name hmem), hBnd⟩
            · intro x hxA hxB
              rcases List.mem_cons.mp hxB with h1 | h1
              · subst h1
                exact hnd.1 (hAn x hxA)
              · exact hABdis hxA h1
          · rw [if_neg (by simp [ho])]
            exact ihall o
      | dir children =>
        simp only [pureWalk] at h
        split at h
        · exact absurd h (by simp)
        · rename_i ds1 fs1 deo2 feo2 dOff2 hrec1
          split at h
          · exact absurd h (by simp)
          · rename_i ds2 fs2 r hrec2
            simp only [Option.some.injEq, Prod.mk.injEq] at h
            obtain ⟨h1, h2, _⟩ := h
            subst h1; subst h2
            have hD : DIR_ENTRY_SIZE = 0x18 := rfl
            have hlay1 := (pureWalk_layout _ _ _ _ _ _ _ _ _ _ _ hrec1).1
            have hlay2 := (pureWalk_layout _ _ _ _ _ _ _ _ _ _ _ hrec2).1
            have hpar1 := pureWalk_parents _ _ _ _ _ _ _ _ _ _ _ hrec1
            have hpar2 := pureWalk_parents _ _ _ _ _ _ _ _ _ _ _ hrec2
            have hdeo2 : deo + DIR_ENTRY_SIZE + romAlign name.length 4 ≤ deo2 :=
              (dirLayout_bounds hlay1).1
            simp only [List.map_cons, List.nodup_cons] at hnd
            have hchildwf : ∃ m, wfB (m + 1) children = true := by
              obtain ⟨m, hm⟩ := hwf (name, RomVal.dir children) (by simp) children rfl
              cases m with
              | zero => simp [wfB] at hm
              | succ m2 => exact ⟨m2, hm⟩
            obtain ⟨m, hm⟩ := hchildwf
            have hsnd : ((sortByName children).map (fun q => q.1)).Nodup := by
              have hperm : List.Perm (sortByName children) children :=
                sortByName_perm children
              exact (hperm.map (fun q => q.1)).nodup_iff.mpr (wfB_succ_nodup hm)
            have hswf : ∀ q ∈ sortByName children, ∀ ch, q.2 = RomVal.dir ch →
                ∃ n2, wfB n2 ch = true := by
              intro q hq ch hch
              have hq2 : q ∈ children := (sortByName_perm children).mem_iff.mp hq
              exact ⟨m, wfB_succ_child hm q hq2 ch hch⟩
            have ih1 := ih _ _ _ _ _ _ _ _ _ _ hrec1 (by omega) hsnd hswf
            have ih2 := ih _ _ _ _ _ _ _ _ _ _ hrec2 (by omega) hnd.2
              (fun q hq ch hch => hwf q (by simp [hq]) ch hch)
            obtain ⟨oc1, oc2, _⟩ :=
              pureWalk_rep_go _ _ _ _ _ _ _ _ _ _ _ hrec2 (by omega)
            have hr1 : ∀ c ∈ ds1, deo ≤ c.parentOffset ∧ c.parentOffset < deo2 := by
              intro c hc
              rcases hpar1.1 c hc with hA | hB
              · omega
              · have := dirLayout_offset_mem hlay1 _ (by simpa using hB)
                omega
            have hr1f : ∀ f ∈ fs1, deo ≤ f.parentOffset ∧ f.parentOffset < deo2 := by
              intro f hf
              rcases hpar1.2 f hf with hA | hB
              · omega
              · have := dirLayout_offset_mem hlay1 _ (by simpa using hB)
                omega
            have hr2 : ∀ c ∈ ds2, c.parentOffset = po ∨ deo2 ≤ c.parentOffset := by
              intro c hc
              rcases hpar2.1 c hc with hA | hB
              · exact Or.inl hA
              · exact Or.inr (dirLayout_offset_mem hlay2 _ (by simpa using hB)).1
            have hr2f : ∀ f ∈ fs2, f.parentOffset = po ∨ deo2 ≤ f.parentOffset := by
              intro f hf
              rcases hpar2.2 f hf with hA | hB
              · exact Or.inl hA
              · exact Or.inr (dirLayout_offset_mem hlay2 _ (by simpa using hB)).1
            have hprojD : (⟨deo, po, name.length, name⟩ :
                DirCore).parentOffset = po := rfl
            simp only [List.filter_cons, List.filter_append, hprojD]
            by_cases hreg : deo ≤ o ∧ o < deo2
            · obtain ⟨hro1, hro2⟩ := hreg
              rw [if_neg (by simp only [beq_iff_eq]; omega)]
              have hds2e : ds2.filter (fun c => c.parentOffset == o) = [] := by
                rw [List.filter_eq_nil_iff]
                intro c hc
                simp only [beq_iff_eq]
                intro heq
                rcases hr2 c hc with hA | hB <;> omega
              have hfs2e : fs2.filter (fun f => f.parentOffset == o) = [] := by
                rw [List.filter_eq_nil_iff]
                intro f hf
                simp only [beq_iff_eq]
                intro heq
                rcases hr2f f hf with hA | hB <;> omega
              rw [hds2e, hfs2e, List.append_nil, List.append_nil]
              exact ih1 o
            · have hreg' : o < deo ∨ deo2 ≤ o := by
                rcases Nat.lt_or_ge o deo with h1 | h1
                · exact Or.inl h1
                · rcases Nat.lt_or_ge o deo2 with h2 | h2
                  · exact absurd ⟨h1, h2⟩ hreg
                  · exact Or.inr h2
              have hds1e : ds1.filter (fun c => c.parentOffset == o) = [] := by
                rw [List.filter_eq_nil_iff]
                intro c hc
                simp only [beq_iff_eq]
                intro heq
                have := hr1 c hc
                rcases hreg' with h1 | h1 <;> omega
              have hfs1e : fs1.filter (fun f => f.parentOffset == o) = [] := by
                rw [List.filter_eq_nil_iff]
                intro f hf
                simp only [beq_iff_eq]
                intro heq
                have := hr1f f hf
                rcases hreg' with h1 | h1 <;> omega
              by_cases ho : po = o
              · subst ho
                rw [if_pos (by simp)]
                rw [hds1e, hfs1e, List.nil_append, List.nil_append]
                simp only [List.map_cons]
                have hABnd := ih2 po
                rw [List.nodup_append] at hABnd
                obtain ⟨hAnd, hBnd, hABdis⟩ := hABnd
                have hAn : ∀ x ∈ (ds2.filter (fun c => c.parentOffset == po)).map
                    (fun c => c.name), x ∈ rest.map (fun q => q.1) := by
                  intro x hx
                  rw [oc2] at hx
                  exact mem_fst_of_mem_filter_map rest _ _ hx
                have hBnames : (fs2.filter (fun f => f.parentOffset == po)).map
                    (fun f => f.name) =
                    (rest.filter (fun q => !(isDirP q))).map (fun q => q.1) := by
                  have h3 := congrArg (List.map (fun pq : List Nat × RomVal => pq.1)) oc1
                  rw [List.map_map] at h3
                  exact h3
                have hBn : ∀ x ∈ (fs2.filter (fun f => f.parentOffset == po)).map
                    (fun f => f.name), x ∈ rest.map (fun q => q.1) := by
                  intro x hx
                  rw [hBnames] at hx
                  exact mem_fst_of_mem_filter_map rest _ _ hx
                rw [List.nodup_append]
                refine ⟨?_, hBnd, ?_⟩
                · rw [List.nodup_cons]
                  exact ⟨fun hmem => hnd.1 (hAn name hmem), hAnd⟩
                · intro x hxA hxB
                  rcases List.mem_cons.mp hxA with h1 | h1
                  · subst h1
                    exact hnd.1 (hBn x hxB)
                  · exact hABdis h1 hxB
              · rw [if_neg (by simp [ho])]
                rw [hds1e, hfs1e, List.nil_append, List.nil_append]
                exact ih2 o

/-! Transport between entry lists and their core views, and remaining length
bookkeeping for the image layout. -/

theorem u32ListBytes_length (l : List Nat) : (u32ListBytes l).length = 4 * l.length := by
  unfold u32ListBytes
  rw [flatten_length_const 4 _ (by
    intro x hx
    obtain ⟨v, _, hv⟩ := List.mem_map.mp hx
    rw [← hv, length_natToBytesLE])]
  simp

theorem length_filePartBytes_le : ∀ (entries : List FileEntry) (cs : List FileCore)
    (lo hi : Nat), entries.map fileCore = cs → partLayout lo cs hi →
    lo + (filePartBytes entries).length ≤ hi := by
  intro entries
  induction entries with
  | nil =>
    intro cs lo hi hmap hlay
    rw [← hmap] at hlay
    have : lo = hi := hlay
    simp [filePartBytes, this]
  | cons e rest ih =>
    intro cs lo hi hmap hlay
    rw [← hmap] at hlay
    obtain ⟨hoff, hsize, hrest⟩ := hlay
    have hge := romAlign_ge e.data.length 0x10 (by norm_num)
    have hcd : (fileCore e).data.length = e.data.length := rfl
    rw [hcd] at hrest
    cases rest with
    | nil =>
      have : lo + romAlign e.data.length 0x10 = hi := hrest
      simp only [filePartBytes]
      omega
    | cons r rs =>
      have := ih _ _ _ rfl hrest
      simp only [filePartBytes, List.length_append, List.length_replicate]
      omega

theorem filter_map_comm {α β : Type} (f : α → β) (p : β → Bool) :
    ∀ l : List α, (l.map f).filter p = (l.filter (fun x => p (f x))).map f := by
  intro l
  induction l with
  | nil => rfl
  | cons x xs ih =>
    simp only [List.map_cons, List.filter_cons]
    by_cases hc : p (f x) = true
    · rw [if_pos hc, if_pos hc, List.map_cons, ih]
    · rw [if_neg hc, if_neg hc, ih]

theorem dirKidsE_core (entries : List DirEntry) (o : Nat) :
    dirKidsE entries o = dirKidsC (entries.map dirCore) o := by
  unfold dirKidsE dirKidsC
  rw [filter_map_comm dirCore _ entries, List.map_map]
  rw [List.filter_congr (fun (x : DirEntry) _ => (rfl :
    ((fun c => c.parentOffset == o && c.offset != 0) (dirCore x)) =
    ((fun e => e.parentOffset == o && e.offset != 0) x)))]
  exact List.map_congr_left (fun x _ => rfl)

theorem fileKidsE_eq_core (image : List Nat) (base : Nat) (l : List FileEntry)
    (o : Nat)
    (hslice : ∀ f ∈ l, sliceBytes image (base + f.dataOffset)
      (base + f.dataOffset + f.dataSize) = f.data) :
    fileKidsE image base (l.map pFileOf) o = fileKidsC (l.map fileCore) o := by
  unfold fileKidsE fileKidsC
  rw [filter_map_comm pFileOf _ l, filter_map_comm fileCore _ l,
    List.map_map, List.map_map]
  rw [List.filter_congr (fun (x : FileEntry) _ => (rfl :
    ((fun f => f.parentOffset == o) (pFileOf x)) =
    ((fun f => f.parentOffset == o) (fileCore x))))]
  refine List.map_congr_left (fun x hx => ?_)
  have hs := hslice x (List.mem_of_mem_filter hx)
  show ((pFileOf x).name, RomRef.fileRef (sliceBytes image
    ((base + (pFileOf x).dataOffset)) ((base + (pFileOf x).dataOffset +
    (pFileOf x).dataSize)))) = ((fileCore x).name, RomRef.fileRef (fileCore x).data)
  have h1 : (pFileOf x).name = x.name := rfl
  have h2 : (pFileOf x).dataOffset = x.dataOffset := rfl
  have h3 : (pFileOf x).dataSize = x.dataSize := rfl
  rw [h1, h2, h3, hs]
  rfl

theorem offsets_map_core (entries : List DirEntry) :
    entries.map (fun e => e.offset) =
      (entries.map dirCore).map (fun c => c.offset) := by
  rw [List.map_map]
  exact List.map_congr_left (fun x _ => rfl)

theorem dirNamesFilter (entries : List DirEntry) (o : Nat) :
    (entries.filter (fun e => e.parentOffset == o && e.offset != 0)).map
      (fun e => e.name) =
    ((entries.map dirCore).filter (fun c => c.parentOffset == o && c.offset != 0)).map
      (fun c => c.name) := by
  rw [filter_map_comm dirCore _ entries, List.map_map]
  rw [List.filter_congr (fun (x : DirEntry) _ => (rfl :
    ((fun c => c.parentOffset == o && c.offset != 0) (dirCore x)) =
    ((fun e => e.parentOffset == o && e.offset != 0) x)))]
  exact List.map_congr_left (fun x _ => rfl)

theorem fileNamesFilter (l : List FileEntry) (o : Nat) :
    ((l.map pFileOf).filter (fun f => f.parentOffset == o)).map (fun f => f.name) =
    ((l.map fileCore).filter (fun f => f.parentOffset == o)).map (fun f => f.name) := by
  rw [filter_map_comm pFileOf _ l, filter_map_comm fileCore _ l,
    List.map_map, List.map_map]
  rw [List.filter_congr (fun (x : FileEntry) _ => (rfl :
    ((fun f => f.parentOffset == o) (pFileOf x)) =
    ((fun f => f.parentOffset == o) (fileCore x))))]
  exact List.map_congr_left (fun x _ => rfl)

theorem dirKidsC_fst (cs : List DirCore) (o : Nat) :
    (dirKidsC cs o).map (fun p => p.1) =
    (cs.filter (fun c => c.parentOffset == o && c.offset != 0)).map
      (fun c => c.name) := by
  unfold dirKidsC
  rw [List.map_map]
  exact List.map_congr_left (fun x _ => rfl)

theorem rootCons_filter (ds : List DirCore) (o : Nat)
    (hds : ∀ c ∈ ds, c.offset ≠ 0) :
    ((⟨0, 0, 0, []⟩ : DirCore) :: ds).filter
      (fun c => c.parentOffset == o && c.offset != 0) =
    ds.filter (fun c => c.parentOffset == o) := by
  rw [List.filter_cons, if_neg (by simp)]
  refine List.filter_congr (fun c hc => ?_)
  have hb : (c.offset != 0) = true := by
    simp [hds c hc]
  rw [hb, Bool.and_true]

theorem dirListOk_of_core : ∀ (entries : List DirEntry) (cs : List DirCore)
    (prior : List Nat) (lo hi : Nat),
    entries.map dirCore = cs → dirLayout lo cs hi → parentsPrecede prior cs →
    (∀ x ∈ prior, x < lo) → dirListOk prior entries := by
  intro entries
  induction entries with
  | nil => intro cs prior lo hi _ _ _ _; trivial
  | cons e rest ih =>
    intro cs prior lo hi hmap hlay hpre hlt
    rw [← hmap] at hlay hpre
    obtain ⟨hoff, hns, hrest⟩ := hlay
    obtain ⟨hppm, hprest⟩ := hpre
    have hoff2 : e.offset = lo := hoff
    refine ⟨?_, ?_, ?_⟩
    · intro hmem
      have := hlt _ hmem
      omega
    · intro _
      exact hppm
    · refine ih _ _ _ _ rfl hrest ?_ ?_
      · have hco : (dirCore e).offset = e.offset := rfl
        rw [hco] at hprest
        exact hprest
      · intro x hx
        rcases List.mem_append.mp hx with h1 | h1
        · have := hlt x h1
          have hD : DIR_ENTRY_SIZE = 0x18 := rfl
          omega
        · simp only [List.mem_singleton] at h1
          subst h1
          have hD : DIR_ENTRY_SIZE = 0x18 := rfl
          omega

theorem dirLayout_sizes : ∀ {ds : List DirCore} {lo hi : Nat}, dirLayout lo ds hi →
    ∀ c ∈ ds, c.nameSize = c.name.length := by
  intro ds
  induction ds with
  | nil => intro lo hi _ c hc; exact absurd hc (by simp)
  | cons c rest ih =>
    intro lo hi h c2 hc2
    obtain ⟨_, hns, hrest⟩ := h
    rcases List.mem_cons.mp hc2 with h1 | h1
    · subst h1; exact hns
    · exact ih hrest c2 h1

theorem fileLayout_sizes : ∀ {fs : List FileCore} {lo hi : Nat}, fileLayout lo fs hi →
    ∀ c ∈ fs, c.nameSize = c.name.length := by
  intro fs
  induction fs with
  | nil => intro lo hi _ c hc; exact absurd hc (by simp)
  | cons c rest ih =>
    intro lo hi h c2 hc2
    obtain ⟨_, hns, hrest⟩ := h
    rcases List.mem_cons.mp hc2 with h1 | h1
    · subst h1; exact hns
    · exact ih hrest c2 h1

theorem partLayout_sizes : ∀ {fs : List FileCore} {lo hi : Nat}, partLayout lo fs hi →
    ∀ c ∈ fs, c.dataSize = c.data.length := by
  intro fs
  induction fs with
  | nil => intro lo hi _ c hc; exact absurd hc (by simp)
  | cons c rest ih =>
    intro lo hi h c2 hc2
    obtain ⟨_, hds, hrest⟩ := h
    rcases List.mem_cons.mp hc2 with h1 | h1
    · subst h1; exact hds
    · exact ih hrest c2 h1

theorem romAlign_le4 (a : Nat) : romAlign a 4 ≤ a + 3 := by
  unfold romAlign
  by_cases h : a % 4 = 0
  · rw [if_pos h]; omega
  · rw [if_neg h]; omega

theorem drop_chunk8 (v : Nat) (X : List Nat) (k : Nat) :
    ((natToBytesLE 8 v ++ X).drop (8 + k)) = X.drop k := by
  have h := drop_chunk (natToBytesLE 8 v) X k
  rwa [length_natToBytesLE] at h

/-- The encoded image, fully right-associated for slicing arguments. -/
def romImage (st : WalkState) (deo feo dc fc : Nat) : List Nat :=
  natToBytesLE 8 ROMFS_HEADER_SIZE ++
    (natToBytesLE 8 (romAlign (filePartitionSize st.fileEntries +
        ROMFS_FILEPARTITION_OFS) 4) ++
    (natToBytesLE 8 (4 * dc) ++
    (natToBytesLE 8 (romAlign (filePartitionSize st.fileEntries +
        ROMFS_FILEPARTITION_OFS) 4 + 4 * dc) ++
    (natToBytesLE 8 deo ++
    (natToBytesLE 8 (romAlign (filePartitionSize st.fileEntries +
        ROMFS_FILEPARTITION_OFS) 4 + 4 * dc + deo) ++
    (natToBytesLE 8 (4 * fc) ++
    (natToBytesLE 8 (romAlign (filePartitionSize st.fileEntries +
        ROMFS_FILEPARTITION_OFS) 4 + 4 * dc + deo + 4 * fc) ++
    (natToBytesLE 8 feo ++
    (natToBytesLE 8 ROMFS_FILEPARTITION_OFS ++
    (List.replicate (ROMFS_FILEPARTITION_OFS - ROMFS_HEADER_SIZE) 0 ++
    (filePartBytes st.fileEntries ++
    (List.replicate (romAlign (filePartitionSize st.fileEntries +
        ROMFS_FILEPARTITION_OFS) 4 -
      (ROMFS_FILEPARTITION_OFS + (filePartBytes st.fileEntries).length)) 0 ++
    (u32ListBytes (dirHashPass st.dirEntries dc).2 ++
    (dirTableBytes (dirHashPass st.dirEntries dc).1 deo ++
    (u32ListBytes (fileHashPass st.dirEntries st.fileEntries fc).2 ++
    fileTableBytes (fileHashPass st.dirEntries st.fileEntries fc).1 feo)))))))))))))))

theorem encodeRomFs_run (fuel hashFuel : Nat) (t : List (List Nat × RomVal))
    (st : WalkState) (deo feo dOff dc fc : Nat)
    (hwalk : walkFsRun fuel t = some (st, deo, feo, dOff))
    (hdc : romfsGetHashTableCount hashFuel st.dirEntries.length = some dc)
    (hfc : romfsGetHashTableCount hashFuel st.fileEntries.length = some fc) :
    encodeRomFs fuel hashFuel t = some (romImage st deo feo dc fc) := by
  unfold encodeRomFs
  rw [hwalk]
  simp only [hdc, hfc, romImage, List.append_assoc]

theorem romImage_read_dirTableOfs (st : WalkState) (deo feo dc fc : Nat)
    (hv : romAlign (filePartitionSize st.fileEntries + ROMFS_FILEPARTITION_OFS) 4 +
      4 * dc < 2 ^ 64) :
    readU64LE (romImage st deo feo dc fc) 0x18 =
      romAlign (filePartitionSize st.fileEntries + ROMFS_FILEPARTITION_OFS) 4 +
        4 * dc := by
  rw [readU64LE_drop]
  have h1 : (0x18 : Nat) = 8 + (8 + (8 + 0)) := by norm_num
  rw [h1]
  unfold romImage
  rw [drop_chunk8, drop_chunk8, drop_chunk8, List.drop_zero]
  exact readU64LE_natToBytesLE _ _ hv

theorem romImage_read_dirTableLen (st : WalkState) (deo feo dc fc : Nat)
    (hv : deo < 2 ^ 64) :
    readU64LE (romImage st deo feo dc fc) 0x20 = deo := by
  rw [readU64LE_drop]
  have h1 : (0x20 : Nat) = 8 + (8 + (8 + (8 + 0))) := by norm_num
  rw [h1]
  unfold romImage
  rw [drop_chunk8, drop_chunk8, drop_chunk8, drop_chunk8, List.drop_zero]
  exact readU64LE_natToBytesLE _ _ hv

theorem romImage_read_fileTableOfs (st : WalkState) (deo feo dc fc : Nat)
    (hv : romAlign (filePartitionSize st.fileEntries + ROMFS_FILEPARTITION_OFS) 4 +
      4 * dc + deo + 4 * fc < 2 ^ 64) :
    readU64LE (romImage st deo feo dc fc) 0x38 =
      romAlign (filePartitionSize st.fileEntries + ROMFS_FILEPARTITION_OFS) 4 +
        4 * dc + deo + 4 * fc := by
  rw [readU64LE_drop]
  have h1 : (0x38 : Nat) = 8 + (8 + (8 + (8 + (8 + (8 + (8 + 0)))))) := by norm_num
  rw [h1]
  unfold romImage
  rw [drop_chunk8, drop_chunk8, drop_chunk8, drop_chunk8, drop_chunk8, drop_chunk8,
    drop_chunk8, List.drop_zero]
  exact readU64LE_natToBytesLE _ _ hv

theorem romImage_read_fileTableLen (st : WalkState) (deo feo dc fc : Nat)
    (hv : feo < 2 ^ 64) :
    readU64LE (romImage st deo feo dc fc) 0x40 = feo := by
  rw [readU64LE_drop]
  have h1 : (0x40 : Nat) = 8 + (8 + (8 + (8 + (8 + (8 + (8 + (8 + 0))))))) := by
    norm_num
  rw [h1]
  unfold romImage
  rw [drop_chunk8, drop_chunk8, drop_chunk8, drop_chunk8, drop_chunk8, drop_chunk8,
    drop_chunk8, drop_chunk8, List.drop_zero]
  exact readU64LE_natToBytesLE _ _ hv

theorem romImage_read_dataOfs (st : WalkState) (deo feo dc fc : Nat) :
    readU64LE (romImage st deo feo dc fc) 0x48 = ROMFS_FILEPARTITION_OFS := by
  rw [readU64LE_drop]
  have h1 : (0x48 : Nat) = 8 + (8 + (8 + (8 + (8 + (8 + (8 + (8 + (8 + 0)))))))) := by
    norm_num
  rw [h1]
  unfold romImage
  rw [drop_chunk8, drop_chunk8, drop_chunk8, drop_chunk8, drop_chunk8, drop_chunk8,
    drop_chunk8, drop_chunk8, drop_chunk8, List.drop_zero]
  exact readU64LE_natToBytesLE _ _ (by norm_num [ROMFS_FILEPARTITION_OFS])

theorem romImage_dirTable_slice (st : WalkState) (deo feo dc fc : Nat)
    (hparteq : filePartitionSize st.fileEntries = (filePartBytes st.fileEntries).length)
    (hhlen : (dirHashPass st.dirEntries dc).2.length = dc)
    (htlen : (dirTableBytes (dirHashPass st.dirEntries dc).1 deo).length = deo) :
    sliceBytes (romImage st deo feo dc fc)
      (romAlign (filePartitionSize st.fileEntries + ROMFS_FILEPARTITION_OFS) 4 + 4 * dc)
      (romAlign (filePartitionSize st.fileEntries + ROMFS_FILEPARTITION_OFS) 4 +
        4 * dc + deo) =
      dirTableBytes (dirHashPass st.dirEntries dc).1 deo := by
  have hge : ROMFS_FILEPARTITION_OFS + (filePartBytes st.fileEntries).length ≤
      romAlign (filePartitionSize st.fileEntries + ROMFS_FILEPARTITION_OFS) 4 := by
    have := romAlign_ge (filePartitionSize st.fileEntries + ROMFS_FILEPARTITION_OFS) 4
      (by norm_num)
    omega
  have himg : romImage st deo feo dc fc =
      (natToBytesLE 8 ROMFS_HEADER_SIZE ++
        natToBytesLE 8 (romAlign (filePartitionSize st.fileEntries +
          ROMFS_FILEPARTITION_OFS) 4) ++
        natToBytesLE 8 (4 * dc) ++
        natToBytesLE 8 (romAlign (filePartitionSize st.fileEntries +
          ROMFS_FILEPARTITION_OFS) 4 + 4 * dc) ++
        natToBytesLE 8 deo ++
        natToBytesLE 8 (romAlign (filePartitionSize st.fileEntries +
          ROMFS_FILEPARTITION_OFS) 4 + 4 * dc + deo) ++
        natToBytesLE 8 (4 * fc) ++
        natToBytesLE 8 (romAlign (filePartitionSize st.fileEntries +
          ROMFS_FILEPARTITION_OFS) 4 + 4 * dc + deo + 4 * fc) ++
        natToBytesLE 8 feo ++
        natToBytesLE 8 ROMFS_FILEPARTITION_OFS ++
        List.replicate (ROMFS_FILEPARTITION_OFS - ROMFS_HEADER_SIZE) 0 ++
        filePartBytes st.fileEntries ++
        List.replicate (romAlign (filePartitionSize st.fileEntries +
            ROMFS_FILEPARTITION_OFS) 4 -
          (ROMFS_FILEPARTITION_OFS + (filePartBytes st.fileEntries).length)) 0 ++
        u32ListBytes (dirHashPass st.dirEntries dc).2) ++
      (dirTableBytes (dirHashPass st.dirEntries dc).1 deo ++
        (u32ListBytes (fileHashPass st.dirEntries st.fileEntries fc).2 ++
         fileTableBytes (fileHashPass st.dirEntries st.fileEntries fc).1 feo)) := by
    simp [romImage, List.append_assoc]
  rw [himg]
  refine slice_at_len _ _ _ _ _ ?_ htlen
  simp only [List.length_append, length_natToBytesLE, List.length_replicate,
    u32ListBytes_length, hhlen]
  have hH : ROMFS_HEADER_SIZE = 0x50 := rfl
  have hO : ROMFS_FILEPARTITION_OFS = 0x200 := rfl
  omega

theorem romImage_fileTable_slice (st : WalkState) (deo feo dc fc : Nat)
    (hparteq : filePartitionSize st.fileEntries = (filePartBytes st.fileEntries).length)
    (hhlen : (dirHashPass st.dirEntries dc).2.length = dc)
    (htlen : (dirTableBytes (dirHashPass st.dirEntries dc).1 deo).length = deo)
    (hhlen2 : (fileHashPass st.dirEntries st.fileEntries fc).2.length = fc)
    (htlen2 : (fileTableBytes (fileHashPass st.dirEntries st.fileEntries fc).1
      feo).length = feo) :
    sliceBytes (romImage st deo feo dc fc)
      (romAlign (filePartitionSize st.fileEntries + ROMFS_FILEPARTITION_OFS) 4 +
        4 * dc + deo + 4 * fc)
      (romAlign (filePartitionSize st.fileEntries + ROMFS_FILEPARTITION_OFS) 4 +
        4 * dc + deo + 4 * fc + feo) =
      fileTableBytes (fileHashPass st.dirEntries st.fileEntries fc).1 feo := by
  have hge : ROMFS_FILEPARTITION_OFS + (filePartBytes st.fileEntries).length ≤
      romAlign (filePartitionSize st.fileEntries + ROMFS_FILEPARTITION_OFS) 4 := by
    have := romAlign_ge (filePartitionSize st.fileEntries + ROMFS_FILEPARTITION_OFS) 4
      (by norm_num)
    omega
  have himg : romImage st deo feo dc fc =
      (natToBytesLE 8 ROMFS_HEADER_SIZE ++
        natToBytesLE 8 (romAlign (filePartitionSize st.fileEntries +
          ROMFS_FILEPARTITION_OFS) 4) ++
        natToBytesLE 8 (4 * dc) ++
        natToBytesLE 8 (romAlign (filePartitionSize st.fileEntries +
          ROMFS_FILEPARTITION_OFS) 4 + 4 * dc) ++
        natToBytesLE 8 deo ++
        natToBytesLE 8 (romAlign (filePartitionSize st.fileEntries +
          ROMFS_FILEPARTITION_OFS) 4 + 4 * dc + deo) ++
        natToBytesLE 8 (4 * fc) ++
        natToBytesLE 8 (romAlign (filePartitionSize st.fileEntries +
          ROMFS_FILEPARTITION_OFS) 4 + 4 * dc + deo + 4 * fc) ++
        natToBytesLE 8 feo ++
        natToBytesLE 8 ROMFS_FILEPARTITION_OFS ++
        List.replicate (ROMFS_FILEPARTITION_OFS - ROMFS_HEADER_SIZE) 0 ++
        filePartBytes st.fileEntries ++
        List.replicate (romAlign (filePartitionSize st.fileEntries +
            ROMFS_FILEPARTITION_OFS) 4 -
          (ROMFS_FILEPARTITION_OFS + (filePartBytes st.fileEntries).length)) 0 ++
        u32ListBytes (dirHashPass st.dirEntries dc).2 ++
        dirTableBytes (dirHashPass st.dirEntries dc).1 deo ++
        u32ListBytes (fileHashPass st.dirEntries st.fileEntries fc).2) ++
      (fileTableBytes (fileHashPass st.dirEntries st.fileEntries fc).1 feo ++
        ([] : List Nat)) := by
    simp [romImage, List.append_assoc]
  rw [himg]
  refine slice_at_len _ _ _ _ _ ?_ htlen2
  simp only [List.length_append, length_natToBytesLE, List.length_replicate,
    u32ListBytes_length, hhlen, hhlen2, htlen]
  have hH : ROMFS_HEADER_SIZE = 0x50 := rfl
  have hO : ROMFS_FILEPARTITION_OFS = 0x200 := rfl
  omega

theorem romImage_part_decomp (st : WalkState) (deo feo dc fc : Nat) :
    ∃ R : List Nat, romImage st deo feo dc fc =
      ((natToBytesLE 8 ROMFS_HEADER_SIZE ++
        natToBytesLE 8 (romAlign (filePartitionSize st.fileEntries +
          ROMFS_FILEPARTITION_OFS) 4) ++
        natToBytesLE 8 (4 * dc) ++
        natToBytesLE 8 (romAlign (filePartitionSize st.fileEntries +
          ROMFS_FILEPARTITION_OFS) 4 + 4 * dc) ++
        natToBytesLE 8 deo ++
        natToBytesLE 8 (romAlign (filePartitionSize st.fileEntries +
          ROMFS_FILEPARTITION_OFS) 4 + 4 * dc + deo) ++
        natToBytesLE 8 (4 * fc) ++
        natToBytesLE 8 (romAlign (filePartitionSize st.fileEntries +
          ROMFS_FILEPARTITION_OFS) 4 + 4 * dc + deo + 4 * fc) ++
        natToBytesLE 8 feo ++
        natToBytesLE 8 ROMFS_FILEPARTITION_OFS ++
        List.replicate (ROMFS_FILEPARTITION_OFS - ROMFS_HEADER_SIZE) 0) ++
       filePartBytes st.fileEntries) ++ R := by
  refine ⟨List.replicate (romAlign (filePartitionSize st.fileEntries +
      ROMFS_FILEPARTITION_OFS) 4 -
    (ROMFS_FILEPARTITION_OFS + (filePartBytes st.fileEntries).length)) 0 ++
    (u32ListBytes (dirHashPass st.dirEntries dc).2 ++
    (dirTableBytes (dirHashPass st.dirEntries dc).1 deo ++
    (u32ListBytes (fileHashPass st.dirEntries st.fileEntries fc).2 ++
     fileTableBytes (fileHashPass st.dirEntries st.fileEntries fc).1 feo))), ?_⟩
  simp [romImage, List.append_assoc]

theorem romfs_decode_image (fuel hashFuel pfuel mfuel n : Nat)
    (t : List (List Nat × RomVal)) (st : WalkState) (deo feo dOff dc fc : Nat)
    (hwalk : walkFsRun fuel t = some (st, deo, feo, dOff))
    (hdc : romfsGetHashTableCount hashFuel st.dirEntries.length = some dc)
    (hfc : romfsGetHashTableCount hashFuel st.fileEntries.length = some fc)
    (hwf : wfB n t = true)
    (hdeo32 : deo ≤ 2 ^ 32) (hfeo32 : feo ≤ 2 ^ 32)
    (hbound : dOff + 0x204 + 4 * dc + deo + 4 * fc + feo < 2 ^ 64)
    (hpfd : st.dirEntries.length < pfuel) (hpff : st.fileEntries.length < pfuel)
    (hmf : n ≤ mfuel) :
    ∃ out, decodeRomFs pfuel mfuel (romImage st deo feo dc fc) = some out ∧
      ∀ k, n ≤ k → sortForestF k out = sortForestF k t := by
  unfold walkFsRun at hwalk
  have hplen : (0 : Nat) < (⟨[rootDirEntry], []⟩ : WalkState).dirEntries.length := by
    simp
  obtain ⟨ds, fscs, hpure0, hdm0, hfm0⟩ :=
    walkGoF_pure _ _ _ _ _ _ _ _ _ _ _ _ _ hwalk hplen
  have hroot0 : (dirAt ⟨[rootDirEntry], []⟩ 0).offset = 0 := rfl
  rw [hroot0] at hpure0
  have hdm : st.dirEntries.map dirCore = (⟨0, 0, 0, []⟩ : DirCore) :: ds := by
    rw [hdm0]; rfl
  have hfm : st.fileEntries.map fileCore = fscs := by
    rw [hfm0]; rfl
  have hD : DIR_ENTRY_SIZE = 0x18 := rfl
  have hO : ROMFS_FILEPARTITION_OFS = 0x200 := rfl
  have hE : ROMFS_ENTRY_EMPTY = 0xffffffff := rfl
  obtain ⟨hlayD, hlayF, hlayP⟩ := pureWalk_layout _ _ _ _ _ _ _ _ _ _ _ hpure0
  have hpar := pureWalk_parents _ _ _ _ _ _ _ _ _ _ _ hpure0
  have hpre : parentsPrecede [0] ds :=
    pureWalk_precede _ _ _ _ _ _ _ _ _ _ _ hpure0 [0] (by simp)
  have hpo : (0 : Nat) < DIR_ENTRY_SIZE := by rw [hD]; norm_num
  have hrep : RepAt ds fscs 0 t := pureWalk_rep _ _ _ _ _ _ _ _ _ _ _ hpure0 hpo
  have hn1 : ∃ n1, n = n1 + 1 := by
    cases n with
    | zero => simp [wfB] at hwf
    | succ n1 => exact ⟨n1, rfl⟩
  obtain ⟨n1, rfl⟩ := hn1
  have hnd0 : ((sortByName t).map (fun q => q.1)).Nodup :=
    ((sortByName_perm t).map _).nodup_iff.mpr (wfB_succ_nodup hwf)
  have hwf0 : ∀ q ∈ sortByName t, ∀ ch, q.2 = RomVal.dir ch →
      ∃ m, wfB m ch = true := by
    intro q hq ch hch
    exact ⟨n1, wfB_succ_child hwf q ((sortByName_perm t).mem_iff.mp hq) ch hch⟩
  have hnodups := pureWalk_nodup _ _ _ _ _ _ _ _ _ _ _ hpure0 hpo hnd0 hwf0
  have hlayFull : dirLayout 0 ((⟨0, 0, 0, []⟩ : DirCore) :: ds) deo := by
    refine ⟨rfl, rfl, ?_⟩
    exact hlayD
  have hdsne0 : ∀ c ∈ ds, c.offset ≠ 0 := by
    intro c hc
    have := (dirLayout_bounds hlayD).2 c hc
    omega
  have hdeo_lb : DIR_ENTRY_SIZE ≤ deo := (dirLayout_bounds hlayD).1
  have hlinks := walkGoF_links _ _ _ _ _ _ _ _ _ _ _ _ _ hwalk
    (by
      intro e he
      have he2 : e ∈ [rootDirEntry] := he
      rw [List.mem_singleton] at he2
      subst he2
      exact ⟨Or.inl rfl, Or.inl rfl, Or.inl rfl⟩)
    (by
      intro f hf
      have hf2 : f ∈ ([] : List FileEntry) := hf
      exact absurd hf2 (by simp))
  have hoffD : ∀ e ∈ st.dirEntries, e.offset = 0 ∨ e.offset < deo := by
    intro e he
    have hmem : dirCore e ∈ (⟨0, 0, 0, []⟩ : DirCore) :: ds := by
      rw [← hdm]; exact List.mem_map_of_mem _ he
    have hco : (dirCore e).offset = e.offset := rfl
    rcases List.mem_cons.mp hmem with h1 | h1
    · left
      rw [← hco, h1]
    · right
      have := (dirLayout_bounds hlayD).2 _ h1
      omega
  have hparD : ∀ e ∈ st.dirEntries, e.parentOffset = 0 ∨ e.parentOffset < deo := by
    intro e he
    have hmem : dirCore e ∈ (⟨0, 0, 0, []⟩ : DirCore) :: ds := by
      rw [← hdm]; exact List.mem_map_of_mem _ he
    have hcp : (dirCore e).parentOffset = e.parentOffset := rfl
    rcases List.mem_cons.mp hmem with h1 | h1
    · left
      rw [← hcp, h1]
    · rcases hpar.1 _ h1 with h2 | h2
      · left
        rw [← hcp]
        exact h2
      · right
        have := dirLayout_offset_mem hlayD _ h2
        rw [← hcp]
        omega
  have hoffF : ∀ f ∈ st.fileEntries, f.offset < feo := by
    intro f hf
    have hmem : fileCore f ∈ fscs := by
      rw [← hfm]; exact List.mem_map_of_mem _ hf
    have := (fileLayout_bounds hlayF).2 _ hmem
    have hco : (fileCore f).offset = f.offset := rfl
    have hF : FILE_ENTRY_SIZE = 0x20 := rfl
    omega
  obtain ⟨pd, dtbl, hdrun, hdfa, hdtbl_len⟩ := dirHashPassGo_forall2 st.dirEntries
    st.dirEntries dc 0 (List.replicate dc ROMFS_ENTRY_EMPTY) []
    (fun v => v = ROMFS_ENTRY_EMPTY ∨ v < deo)
    (by simp) (romfsGetHashTableCount_pos _ _ _ hdc)
    (by intro v hv; exact Or.inl (List.eq_of_mem_replicate hv))
    (by
      intro e he
      right
      rcases hoffD e he with h1 | h1 <;> omega)
  have hdpass : dirHashPass st.dirEntries dc = (pd, dtbl) := by
    unfold dirHashPass
    rw [hdrun]
    simp
  have hpdcores : pd.map dirCore = (⟨0, 0, 0, []⟩ : DirCore) :: ds := by
    rw [forall2_hashPatched_core hdfa, hdm]
  obtain ⟨pfl, ftbl, hfrun, hffa, hftbl_len⟩ := fileHashPassGo_forall2 st.fileEntries
    st.dirEntries fc (List.replicate fc ROMFS_ENTRY_EMPTY) []
    (fun v => v = ROMFS_ENTRY_EMPTY ∨ v < feo)
    (by simp) (romfsGetHashTableCount_pos _ _ _ hfc)
    (by intro v hv; exact Or.inl (List.eq_of_mem_replicate hv))
    (by
      intro f hf
      exact Or.inr (hoffF f hf))
  have hfpass : fileHashPass st.dirEntries st.fileEntries fc = (pfl, ftbl) := by
    unfold fileHashPass
    rw [hfrun]
    simp
  have hpflcores : pfl.map fileCore = fscs := by
    rw [forall2_hashPatchedF_core hffa, hfm]
  have hchD := dirLayout_chunksOk pd _ 0 deo hpdcores hlayFull
  have hchF := fileLayout_chunksOk pfl _ 0 feo hpflcores hlayF
  have hdtb := dirTableBytes_eq pd deo hchD
  have hftb := fileTableBytes_eq pfl feo hchF
  have hdtblen : (dirTableBytes pd deo).length = deo := by
    rw [hdtb]
    have := length_chunksOut _ _ _ pd 0 deo hchD
    simpa using this
  have hftblen : (fileTableBytes pfl feo).length = feo := by
    rw [hftb]
    have := length_chunksOut _ _ _ pfl 0 feo hchF
    simpa using this
  have hboundsD : ∀ e' ∈ pd, dirEntryFieldsOk e' := by
    intro e' he'
    obtain ⟨e, he, hrel⟩ := forall2_mem_right hdfa e' he'
    obtain ⟨ho, hp, hs, hc, hfo, hns, hnm, hhs⟩ := hrel
    have hlk := hlinks.1 e he
    have hmem : dirCore e ∈ (⟨0, 0, 0, []⟩ : DirCore) :: ds := by
      rw [← hdm]; exact List.mem_map_of_mem _ he
    have hnsl : e.nameSize = e.name.length := dirLayout_sizes hlayFull _ hmem
    have hnsb : e.nameSize < 2 ^ 32 := by
      have := (dirLayout_bounds hlayFull).2 _ hmem
      have hra := romAlign_ge (dirCore e).nameSize 4 (by norm_num)
      have hco : (dirCore e).nameSize = e.nameSize := rfl
      omega
    refine ⟨?_, ?_, ?_, ?_, ?_, ?_, ?_⟩
    · rw [hp]
      rcases hparD e he with h1 | h1 <;> omega
    · rw [hs]
      rcases hlk.1 with h1 | h1
      · rw [h1, hE]; norm_num
      · omega
    · rw [hc]
      rcases hlk.2.1 with h1 | h1
      · rw [h1, hE]; norm_num
      · omega
    · rw [hfo]
      rcases hlk.2.2 with h1 | h1
      · rw [h1, hE]; norm_num
      · omega
    · rcases hhs with h1 | h1
      · rw [h1, hE]; norm_num
      · omega
    · rw [hns]; exact hnsb
    · rw [hns, hnm]; exact hnsl
  have hboundsF : ∀ e' ∈ pfl, fileEntryFieldsOk e' := by
    intro e' he'
    obtain ⟨e, he, hrel⟩ := forall2_mem_right hffa e' he'
    obtain ⟨ho, hp, hs, hdo, hds2, hns, hnm, hdata, hhs⟩ := hrel
    have hlk := hlinks.2 e he
    have hmem : fileCore e ∈ fscs := by
      rw [← hfm]; exact List.mem_map_of_mem _ he
    have hcp : (fileCore e).parentOffset = e.parentOffset := rfl
    have hparb : e.parentOffset = 0 ∨ e.parentOffset < deo := by
      rcases hpar.2 _ hmem with h2 | h2
      · left; rw [← hcp]; exact h2
      · right
        have := dirLayout_offset_mem hlayD _ h2
        rw [← hcp]
        omega
    have hnsl : e.nameSize = e.name.length := fileLayout_sizes hlayF _ hmem
    have hnsb : e.nameSize < 2 ^ 32 := by
      have := (fileLayout_bounds hlayF).2 _ hmem
      have hra := romAlign_ge (fileCore e).nameSize 4 (by norm_num)
      have hco : (fileCore e).nameSize = e.nameSize := rfl
      have hF : FILE_ENTRY_SIZE = 0x20 := rfl
      omega
    have hdob : e.dataOffset ≤ dOff := by
      have := (partLayout_bounds hlayP).2 _ hmem
      have hco : (fileCore e).dataOffset = e.dataOffset := rfl
      omega
    have hdsl : e.dataSize = e.data.length := partLayout_sizes hlayP _ hmem
    have hdsb : e.dataSize ≤ dOff := by
      have := (partLayout_bounds hlayP).2 _ hmem
      have hra := romAlign_ge (fileCore e).data.length 0x10 (by norm_num)
      have hco : (fileCore e).dataOffset = e.dataOffset := rfl
      have hcd : (fileCore e).data.length = e.data.length := rfl
      omega
    refine ⟨?_, ?_, ?_, ?_, ?_, ?_, ?_⟩
    · rw [hp]
      rcases hparb with h1 | h1 <;> omega
    · rw [hs]
      rcases hlk with h1 | h1
      · rw [h1, hE]; norm_num
      · omega
    · rw [hdo]; omega
    · rw [hds2]; omega
    · rcases hhs with h1 | h1
      · rw [h1, hE]; norm_num
      · omega
    · rw [hns]; exact hnsb
    · rw [hns, hnm]; exact hnsl
  have hparteq : filePartitionSize st.fileEntries =
      (filePartBytes st.fileEntries).length :=
    filePartitionSize_eq _ fscs dOff hfm hlayP
  have hpartle : (filePartBytes st.fileEntries).length ≤ dOff := by
    have := length_filePartBytes_le _ _ 0 dOff hfm hlayP
    omega
  have halign_le := romAlign_le4 (filePartitionSize st.fileEntries +
    ROMFS_FILEPARTITION_OFS)
  have halign_ge := romAlign_ge (filePartitionSize st.fileEntries +
    ROMFS_FILEPARTITION_OFS) 4 (by norm_num)
  have hfp_le : filePartitionSize st.fileEntries ≤ dOff := by omega
  have h18 := romImage_read_dirTableOfs st deo feo dc fc (by omega)
  have h20 := romImage_read_dirTableLen st deo feo dc fc (by omega)
  have h38 := romImage_read_fileTableOfs st deo feo dc fc (by omega)
  have h40 := romImage_read_fileTableLen st deo feo dc fc (by omega)
  have h48 := romImage_read_dataOfs st deo feo dc fc
  have hdslice := romImage_dirTable_slice st deo feo dc fc hparteq
    (by rw [hdpass]; exact hdtbl_len) (by rw [hdpass]; exact hdtblen)
  have hdt1 : (dirHashPass st.dirEntries dc).1 = pd := by rw [hdpass]
  rw [hdt1] at hdslice
  have hfslice2 := romImage_fileTable_slice st deo feo dc fc hparteq
    (by rw [hdpass]; exact hdtbl_len) (by rw [hdpass]; exact hdtblen)
    (by rw [hfpass]; exact hftbl_len) (by rw [hfpass]; exact hftblen)
  have hft1 : (fileHashPass st.dirEntries st.fileEntries fc).1 = pfl := by
    rw [hfpass]
  rw [hft1] at hfslice2
  obtain ⟨R0, himgp⟩ := romImage_part_decomp st deo feo dc fc
  have hfslice : ∀ f ∈ st.fileEntries,
      sliceBytes (romImage st deo feo dc fc)
        (ROMFS_FILEPARTITION_OFS + f.dataOffset)
        (ROMFS_FILEPARTITION_OFS + f.dataOffset + f.dataSize) = f.data := by
    intro f hf
    have hP0len : (natToBytesLE 8 ROMFS_HEADER_SIZE ++
        natToBytesLE 8 (romAlign (filePartitionSize st.fileEntries +
          ROMFS_FILEPARTITION_OFS) 4) ++
        natToBytesLE 8 (4 * dc) ++
        natToBytesLE 8 (romAlign (filePartitionSize st.fileEntries +
          ROMFS_FILEPARTITION_OFS) 4 + 4 * dc) ++
        natToBytesLE 8 deo ++
        natToBytesLE 8 (romAlign (filePartitionSize st.fileEntries +
          ROMFS_FILEPARTITION_OFS) 4 + 4 * dc + deo) ++
        natToBytesLE 8 (4 * fc) ++
        natToBytesLE 8 (romAlign (filePartitionSize st.fileEntries +
          ROMFS_FILEPARTITION_OFS) 4 + 4 * dc + deo + 4 * fc) ++
        natToBytesLE 8 feo ++
        natToBytesLE 8 ROMFS_FILEPARTITION_OFS ++
        List.replicate (ROMFS_FILEPARTITION_OFS - ROMFS_HEADER_SIZE) 0).length =
        ROMFS_FILEPARTITION_OFS + 0 := by
      simp only [List.length_append, length_natToBytesLE, List.length_replicate]
      have hH : ROMFS_HEADER_SIZE = 0x50 := rfl
      omega
    have hsl := filePart_slices st.fileEntries fscs 0 dOff _
      ROMFS_FILEPARTITION_OFS hfm hlayP hP0len f hf
    rw [himgp]
    rw [sliceBytes_append_of_le]
    · exact hsl.1
    · simp only [List.length_append, length_natToBytesLE, List.length_replicate]
      have := hsl.2
      simp only [List.length_append, length_natToBytesLE,
        List.length_replicate] at this
      have hH : ROMFS_HEADER_SIZE = 0x50 := rfl
      omega
  have hfslice' : ∀ f' ∈ pfl,
      sliceBytes (romImage st deo feo dc fc)
        (ROMFS_FILEPARTITION_OFS + f'.dataOffset)
        (ROMFS_FILEPARTITION_OFS + f'.dataOffset + f'.dataSize) = f'.data := by
    intro f' hf'
    obtain ⟨f, hf, hrel⟩ := forall2_mem_right hffa f' hf'
    obtain ⟨_, _, _, hdo, hds2, _, _, hdata, _⟩ := hrel
    rw [hdo, hds2, hdata]
    exact hfslice f hf
  have hpdlen : pd.length = st.dirEntries.length := (List.Forall₂.length_eq hdfa).symm
  have hpfllen : pfl.length = st.fileEntries.length := (List.Forall₂.length_eq hffa).symm
  have hparseD : parseDirGoF pfuel (dirTableBytes pd deo) deo 0 = some pd := by
    have h := parseDirGoF_chunks pd pfuel [] (dirTableBytes pd deo) deo
      (by simpa using hdtb) (by simpa using hchD) hboundsD (by omega)
    simpa using h
  have hparseF : parseFileGoF pfuel (fileTableBytes pfl feo) feo 0 =
      some (pfl.map pFileOf) := by
    have h := parseFileGoF_chunks pfl pfuel [] (fileTableBytes pfl feo) feo
      (by simpa using hftb) (by simpa using hchF) hboundsF (by omega)
    simpa using h
  have hdlok : dirListOk [] pd := by
    cases pd with
    | nil => simp at hpdcores
    | cons e0 rest0 =>
      simp only [List.map_cons, List.cons.injEq] at hpdcores
      obtain ⟨h1, h2⟩ := hpdcores
      have hoff0 : e0.offset = 0 := congrArg DirCore.offset h1
      refine ⟨by simp, fun hne => absurd hoff0 hne, ?_⟩
      have hsh : ([] : List Nat) ++ [e0.offset] = [0] := by rw [hoff0]; rfl
      rw [hsh]
      refine dirListOk_of_core rest0 ds [0] DIR_ENTRY_SIZE deo h2 hlayD hpre ?_
      intro x hx
      rw [List.mem_singleton] at hx
      subst hx
      omega
  have hinv0 : ∀ o, storeGet ([] : RomStore) o =
      if o ∈ ([] : List DirEntry).map (fun e => e.offset) then
        some (dirKidsE [] o) else none := by
    intro o
    simp [storeGet]
  have hnames1 : ∀ o, ((((([] : List DirEntry)) ++ pd).filter
      (fun e => e.parentOffset == o && e.offset != 0)).map
        (fun e => e.name)).Nodup := by
    intro o
    rw [List.nil_append, dirNamesFilter, hpdcores, rootCons_filter _ _ hdsne0]
    exact (hnodups o).of_append_left
  obtain ⟨storeD, hbdirs, hstoreD⟩ := buildDirs_go pd [] [] hinv0
    (by simpa using hdlok) (by simp) hnames1
  simp only [List.nil_append] at hstoreD
  have hinvF : ∀ o, storeGet storeD o =
      if o ∈ pd.map (fun e => e.offset) then
        some (dirKidsE pd o ++ fileKidsE (romImage st deo feo dc fc)
          ROMFS_FILEPARTITION_OFS [] o)
      else none := by
    intro o
    rw [hstoreD o]
    by_cases hm : o ∈ pd.map (fun e => e.offset)
    · rw [if_pos hm, if_pos hm]
      have hz : fileKidsE (romImage st deo feo dc fc) ROMFS_FILEPARTITION_OFS
          [] o = [] := rfl
      rw [hz, List.append_nil]
    · rw [if_neg hm, if_neg hm]
  have hpdofs : pd.map (fun e => e.offset) =
      ((⟨0, 0, 0, []⟩ : DirCore) :: ds).map (fun c => c.offset) := by
    rw [offsets_map_core, hpdcores]
  have hparsF : ∀ f ∈ pfl.map pFileOf, f.parentOffset ∈
      pd.map (fun e => e.offset) := by
    intro f hf
    obtain ⟨f0, hf0, rfl⟩ := List.mem_map.mp hf
    obtain ⟨fo, hfo, hrel⟩ := forall2_mem_right hffa f0 hf0
    have hparent : (pFileOf f0).parentOffset = fo.parentOffset := by
      have hpp : (pFileOf f0).parentOffset = f0.parentOffset := rfl
      rw [hpp, hrel.2.1]
    rw [hparent, hpdofs]
    have hmemf : fileCore fo ∈ fscs := by
      rw [← hfm]; exact List.mem_map_of_mem _ hfo
    have hcp : (fileCore fo).parentOffset = fo.parentOffset := rfl
    rcases hpar.2 _ hmemf with h1 | h1
    · rw [← hcp, h1]
      simp
    · rw [← hcp]
      exact List.mem_cons_of_mem _ h1
  have hnamesF : ∀ o, (((dirKidsE pd o).map (fun p => p.1)) ++
      ((((([] : List PFileEntry)) ++ pfl.map pFileOf).filter
        (fun f => f.parentOffset == o)).map (fun f => f.name))).Nodup := by
    intro o
    rw [List.nil_append, dirKidsE_core, hpdcores, dirKidsC_fst,
      rootCons_filter _ _ hdsne0, fileNamesFilter, hpflcores]
    exact hnodups o
  obtain ⟨storeF, hbfiles, hstoreF⟩ := buildFiles_go (pfl.map pFileOf) []
    (romImage st deo feo dc fc) ROMFS_FILEPARTITION_OFS pd storeD hinvF
    hparsF hnamesF
  simp only [List.nil_append] at hstoreF
  have hstoreC : ∀ o, storeGet storeF o =
      if o ∈ ((⟨0, 0, 0, []⟩ : DirCore) :: ds).map (fun c => c.offset) then
        some (dirKidsC ((⟨0, 0, 0, []⟩ : DirCore) :: ds) o ++ fileKidsC fscs o)
      else none := by
    intro o
    rw [hstoreF o, hpdofs, dirKidsE_core, hpdcores]
    have hfk : fileKidsE (romImage st deo feo dc fc) ROMFS_FILEPARTITION_OFS
        (pfl.map pFileOf) o = fileKidsC fscs o := by
      rw [fileKidsE_eq_core _ _ _ _ hfslice', hpflcores]
    rw [hfk]
  have hview : ∀ o, dirKidsC ((⟨0, 0, 0, []⟩ : DirCore) :: ds) o =
      (ds.filter (fun c => c.parentOffset == o)).map
        (fun c => (c.name, RomRef.dirRef c.offset)) := by
    intro o
    unfold dirKidsC
    rw [rootCons_filter _ _ hdsne0]
  have hsub : ∀ c ∈ ds, c.offset ∈
      ((⟨0, 0, 0, []⟩ : DirCore) :: ds).map (fun c2 => c2.offset) := by
    intro c hc
    exact List.mem_cons_of_mem _ (List.mem_map_of_mem _ hc)
  have hpomem : (0 : Nat) ∈
      ((⟨0, 0, 0, []⟩ : DirCore) :: ds).map (fun c => c.offset) := by
    simp
  obtain ⟨out, hmat, hsorteq⟩ := matF_rep (n1 + 1) t 0 ds fscs storeF _ mfuel
    hwf hmf hrep hstoreC hview hsub hpomem
  refine ⟨out, ?_, hsorteq⟩
  simp only [decodeRomFs, parseRomHeader, h18, h20, h38, h40, h48, hdslice,
    hparseD, hbdirs, hfslice2, hparseF, hbfiles, hmat]

/-- C7: RomFS round-trip: for every finite tree of named files and
directories with names unique within each parent (`wfB n`, which also bounds
the nesting depth by the fuel `n`), encoding succeeds and decoding the
encoded image reproduces the same tree up to sorted-by-name ordering of each
directory's children (`sortForestF` canonicalizes both sides); the size side
conditions keep every table offset inside its u32/u64 header field, and the
fuel arguments cover the loops the embedding renders fuelled. -/
theorem romfs_roundTrip (fuel hashFuel pfuel mfuel n : Nat)
    (t : List (List Nat × RomVal)) (st : WalkState) (deo feo dOff dc fc : Nat)
    (hwalk : walkFsRun fuel t = some (st, deo, feo, dOff))
    (hdc : romfsGetHashTableCount hashFuel st.dirEntries.length = some dc)
    (hfc : romfsGetHashTableCount hashFuel st.fileEntries.length = some fc)
    (hwf : wfB n t = true)
    (hdeo32 : deo ≤ 2 ^ 32) (hfeo32 : feo ≤ 2 ^ 32)
    (hbound : dOff + 0x204 + 4 * dc + deo + 4 * fc + feo < 2 ^ 64)
    (hpfd : st.dirEntries.length < pfuel) (hpff : st.fileEntries.length < pfuel)
    (hmf : n ≤ mfuel) :
    ∃ image out,
      encodeRomFs fuel hashFuel t = some image ∧
      decodeRomFs pfuel mfuel image = some out ∧
      ∀ k, n ≤ k → sortForestF k out = sortForestF k t := by
  obtain ⟨out, hdec, hs⟩ := romfs_decode_image fuel hashFuel pfuel mfuel n t st
    deo feo dOff dc fc hwalk hdc hfc hwf hdeo32 hfeo32 hbound hpfd hpff hmf
  exact ⟨romImage st deo feo dc fc, out,
    encodeRomFs_run fuel hashFuel t st deo feo dOff dc fc hwalk hdc hfc, hdec, hs⟩

def romRtFs : List (List Nat × RomVal) :=
  [([0x61], RomVal.file [1, 2, 3]), ([0x62], RomVal.dir [([0x63], RomVal.file [4])])]

theorem romfs_roundTrip_witness :
    wfB 2 romRtFs = true ∧
    ∃ image out, encodeRomFs 4 4 romRtFs = some image ∧
      decodeRomFs 4 2 image = some out ∧
      ∀ k, 2 ≤ k → sortForestF k out = sortForestF k romRtFs :=
  ⟨rfl, romfs_roundTrip 4 4 4 2 2 romRtFs
    ⟨[⟨0, 0, 0xffffffff, 24, 0, 0xffffffff, 0, []⟩,
      ⟨24, 0, 0xffffffff, 0xffffffff, 36, 0xffffffff, 1, [0x62]⟩],
     [⟨0, 0, 0xffffffff, 0, 3, 0xffffffff, 1, [0x61], [1, 2, 3]⟩,
      ⟨36, 24, 0xffffffff, 16, 1, 0xffffffff, 1, [0x63], [4]⟩]⟩
    52 72 32 3 3 rfl rfl rfl rfl
    (by norm_num) (by norm_num) (by norm_num)
    (by norm_num) (by norm_num) (by norm_num)⟩
